import Mathlib

/-!
Verification of the `aries` constraint-based planner core against its
specification.  Rust source files are shallowly embedded as Lean
definitions: machine integers become `Int`/`Nat` (the STN weight type `W`
is generic in the source; we instantiate it with unbounded `Int`, for
which `saturating_add` is plain addition, matching the source's stated
caller obligation that no overflow occurs), `HashMap`s become canonical
association lists, `Vec` push/pop becomes list operations, and code that
can panic (`assert!`, `assert_eq!`) returns `Option`.  `debug_assert!`
is compiled out in release builds and is not modelled.
-/

namespace Aries

/-- Canonical association-list map modelling `std::collections::HashMap`:
keys are unique (insert erases any previous entry first). -/
def AList (α β : Type) := List (α × β)

namespace AList

variable {α β : Type} [DecidableEq α]

def empty : AList α β := []

def get (m : AList α β) (k : α) : Option β :=
  match m with
  | [] => none
  | (k', v) :: rest => if k' = k then some v else get rest k

def remove (m : AList α β) (k : α) : AList α β :=
  List.filter (fun p => decide (p.1 ≠ k)) m

/-- `HashMap::insert` semantics: the new binding replaces any old one. -/
def insert (m : AList α β) (k : α) (v : β) : AList α β :=
  (k, v) :: remove m k

def contains_key (m : AList α β) (k : α) : Bool :=
  (get m k).isSome

end AList

/-! ## `planning/src/chronicles/constraints.rs` -/
/-- An atom argument of a chronicle constraint (opaque at this level:
`Constraint` only stores atoms, it never inspects them). -/
structure Atom where
  id : Nat
deriving DecidableEq, Repr

/-- `ConstraintType` from `constraints.rs`. -/
inductive ConstraintType where
  | InTable (table_id : Nat)
  | LT
  | EQ
  | NEQ
deriving DecidableEq, Repr

/-- `Constraint` from `constraints.rs`. -/
structure Constraint where
  «variables» : List Atom
  tpe : ConstraintType
deriving DecidableEq, Repr

/-- `Constraint::lt`. -/
def Constraint.lt (a b : Atom) : Constraint :=
  { «variables» := [a, b], tpe := ConstraintType.LT }

/-- `Constraint::eq` as written in the source: it builds the `NEQ`
variant (`tpe: NEQ`), not `EQ`. -/
def Constraint.eq (a b : Atom) : Constraint :=
  { «variables» := [a, b], tpe := ConstraintType.NEQ }

/-- `Constraint::neq` from the source. -/
def Constraint.neq (a b : Atom) : Constraint :=
  { «variables» := [a, b], tpe := ConstraintType.NEQ }

/-! ## `collections/src/ref_store.rs` : `RefPool` -/
/-- `RefPool<K, V>` with `K` a dense index (modelled as `Nat`).
`rev` models the reverse `HashMap<Val, Key>`. -/
structure RefPool (V : Type) where
  internal : List V
  rev : AList V Nat

namespace RefPool

variable {V : Type} [DecidableEq V]

def emptyPool : RefPool V := { internal := [], rev := AList.empty }

/-- `RefPool::push`.  The source `assert!(!self.rev.contains_key(&v))`
panics when the value is already interned; this is the `none` case. -/
def push (p : RefPool V) (v : V) : Option (Nat × RefPool V) :=
  if p.rev.contains_key v then none
  else
    let id := p.internal.length
    some (id, { internal := p.internal ++ [v], rev := p.rev.insert v id })

/-- `RefPool::get` (a panicking index in the source; total with `Option`
here). -/
def get (p : RefPool V) (k : Nat) : Option V :=
  p.internal[k]?

/-- `RefPool::get_ref`. -/
def get_ref (p : RefPool V) (v : V) : Option Nat :=
  p.rev.get v

end RefPool

/-! ## `apps/src/bin/lcp.rs` : symmetry breaking -/
/-- `ChronicleOrigin` with `FreeAction(Instantiation{template_id,
instantiation_id})` flattened into two fields. -/
inductive ChronicleOrigin where
  | Original
  | FreeAction (template_id : Nat) (instantiation_id : Nat)
deriving DecidableEq, Repr

/-- The part of a `ChronicleInstance` read by `add_symmetry_breaking`:
its origin and the `presence` (a `BAtom`) and `start` (an `IAtom`) of
its chronicle, kept as opaque atom identifiers. -/
structure ChronicleInstance where
  origin : ChronicleOrigin
  presence : Nat
  start : Nat
deriving DecidableEq, Repr

/-- `SymmetryBreakingType` from `lcp.rs`. -/
inductive SymmetryBreakingType where
  | none
  | simple
deriving DecidableEq, Repr

/-- The constraints emitted by `add_symmetry_breaking`:
`model.implies(p1, p2)` and `model.leq(s1, s2)`, kept symbolic. -/
inductive EncoderConstraint where
  | implies (p1 p2 : Nat)
  | leq (a b : Nat)
deriving DecidableEq, Repr

/-- The `chronicles()` closure of `add_symmetry_breaking`: filter to
instances with a `FreeAction` origin, paired with its fields. -/
def freeActionInstances (chronicles : List ChronicleInstance) :
    List (ChronicleInstance × Nat × Nat) :=
  chronicles.filterMap fun c =>
    match c.origin with
    | ChronicleOrigin.FreeAction t i => some (c, t, i)
    | ChronicleOrigin.Original => none

/-- `add_symmetry_breaking` from `lcp.rs`: under `Simple`, for each pair
of free-action instances with equal `template_id` and
`instantiation_id1 < instantiation_id2`, push the implication on
presences and the `leq` on starts, in loop order. -/
def add_symmetry_breaking (chronicles : List ChronicleInstance)
    (tpe : SymmetryBreakingType) : List EncoderConstraint :=
  match tpe with
  | SymmetryBreakingType.none => []
  | SymmetryBreakingType.simple =>
    (freeActionInstances chronicles).flatMap fun c1 =>
      (freeActionInstances chronicles).flatMap fun c2 =>
        if c1.2.1 = c2.2.1 ∧ c1.2.2 < c2.2.2 then
          [EncoderConstraint.implies c1.1.presence c2.1.presence,
           EncoderConstraint.leq c1.1.start c2.1.start]
        else []

/-- Specification-side pair condition, written directly from the spec's
words: both instances are free actions with the same `template_id` and
`instantiation_id1 < instantiation_id2`. -/
def sb_qualifies (c1 c2 : ChronicleInstance) : Bool :=
  match c1.origin, c2.origin with
  | ChronicleOrigin.FreeAction t1 i1, ChronicleOrigin.FreeAction t2 i2 =>
    t1 == t2 && decide (i1 < i2)
  | _, _ => false

/-- Specification-side description of the `simple` policy: for every
ordered pair of chronicle instances satisfying `sb_qualifies`, exactly
the two constraints `presence_1 → presence_2` and `start_1 ≤ start_2`,
and nothing for any other pair. -/
def symmetry_breaking_spec (chronicles : List ChronicleInstance) :
    List EncoderConstraint :=
  chronicles.flatMap fun c1 =>
    (chronicles.filter (sb_qualifies c1)).flatMap fun c2 =>
      [EncoderConstraint.implies c1.presence c2.presence,
       EncoderConstraint.leq c1.start c2.start]

/-! ## `smt/src/solver/brancher.rs` -/
/-- Modelled from the spec: `aries_sat::all::Lit` (the `aries_sat` crate
is not under `src/`); per the spec a literal is "a signed reference to a
Boolean variable (polarity is a bit)".  `BVar::lit(value)` builds the
literal on a variable with the given polarity, and `!lit` flips it. -/
structure Lit where
  var : Nat
  value : Bool
deriving DecidableEq, Repr

/-- `!lit` on a literal: same variable, flipped polarity bit. -/
def Lit.not (l : Lit) : Lit := { l with value := !l.value }

/-- The only field of `Stats` read by `next_decision`. -/
structure Stats where
  num_conflicts : Nat

/-- `BranchingParams`.  The `f32` field
`increase_ratio_for_allowed_conflicts` stays at its default `1.5`; the
update `(allowed_conflicts as f32 * 1.5) as u64` is modelled exactly by
`increase_allowed_conflicts` below. -/
structure BranchingParams where
  prefered_bool_value : Bool
  allowed_conflicts : Nat
deriving DecidableEq, Repr

def BranchingParams.default : BranchingParams :=
  { prefered_bool_value := false, allowed_conflicts := 100 }

/-- `(x as f32 * 1.5) as u64`, computed exactly; the `f32` round-trip is
exact for every value below `2^23`. -/
def increase_allowed_conflicts (x : Nat) : Nat := x * 3 / 2

inductive UndoChange where
  | Insertion (v : Nat)
  | Removal (v : Nat)
deriving DecidableEq, Repr

/-- `Brancher`.  Modelled from the spec for the missing
`aries_collections::heap::IdxHeap`: the activity-ordered heap is
represented by `queue`, the sequence of enqueued variables in
decreasing-priority order, so `peek`/`pop` act on the head.  The claims
proved here do not depend on which unset variable has highest
priority. -/
structure Brancher where
  params : BranchingParams
  queue : List Nat
  default_assignment : Option (Nat → Option Bool)
  trail : List UndoChange
  conflicts_at_last_restart : Nat

inductive Decision where
  | SetLiteral (l : Lit)
  | Restart
deriving DecidableEq, Repr

/-- The loop at the head of `next_decision`: peek the next variable;
if it is already bound, pop it and record a `Removal` on the trail;
otherwise stop with it still at the front of the queue. -/
def popToUnset (assignment : Nat → Option Bool) :
    List Nat → List UndoChange → Option Nat × List Nat × List UndoChange
  | [], trail => (none, [], trail)
  | v :: rest, trail =>
    match assignment v with
    | some _ => popToUnset assignment rest (UndoChange.Removal v :: trail)
    | none => (some v, v :: rest, trail)

/-- `Brancher::next_decision`.  `stats.num_conflicts -
self.conflicts_at_last_restart` never underflows on reachable states
(the field is only ever set from `stats.num_conflicts`), so `Nat`
subtraction is exact. -/
def Brancher.next_decision (b : Brancher) (stats : Stats)
    (assignment : Nat → Option Bool) : Option Decision × Brancher :=
  match popToUnset assignment b.queue b.trail with
  | (some v, queue', trail') =>
    if b.params.allowed_conflicts ≤ stats.num_conflicts - b.conflicts_at_last_restart then
      (some Decision.Restart,
       { b with queue := queue', trail := trail',
                conflicts_at_last_restart := stats.num_conflicts,
                params := { b.params with
                  allowed_conflicts :=
                    increase_allowed_conflicts b.params.allowed_conflicts } })
    else
      let value := (b.default_assignment.bind fun ass => ass v).getD
        b.params.prefered_bool_value
      (some (Decision.SetLiteral { var := v, value := value }),
       { b with queue := queue', trail := trail' })
  | (none, queue', trail') =>
    (none, { b with queue := queue', trail := trail' })

/-! ## Theorems for C8 -/
/-- The pool obtained by interning `5` into the empty `RefPool Nat`. -/
def C8pool1 : RefPool Nat :=
  { internal := [5], rev := AList.insert AList.empty 5 0 }

/-- C5 witness: a brancher holding one unset variable below the conflict
budget emits `SetLiteral` with the preferred polarity `false`. -/
def C5brancher : Brancher :=
  { params := BranchingParams.default, queue := [3],
    default_assignment := Option.none, trail := [],
    conflicts_at_last_restart := 0 }

/-! ## `model/src/int_model.rs` -/
/-- `IntDomain`; `IntCst` is modelled by `Int`. -/
structure IntDomain where
  lb : Int
  ub : Int
deriving DecidableEq, Repr

/-- `DomEvent` (previous and new bound values). -/
inductive DomEvent where
  | NewLB (prev next : Int)
  | NewUB (prev next : Int)
deriving DecidableEq, Repr

/-- `VarEvent` of the discrete model (`Cause` carries no behaviour read
by the model and is omitted). -/
structure DMVarEvent where
  var : Nat
  ev : DomEvent
deriving DecidableEq, Repr

/-- `IntOfSatVar`: a sat variable seen as an integer variable, possibly
inverted (`true <=> 0`). -/
structure IntOfSatVar where
  «variable» : Nat
  inverted : Bool
deriving DecidableEq, Repr

/-- Modelled from the spec: `aries_backtrack::Q` (the `aries_backtrack`
crate is not under `src/`), the checkpointed event log of spec §4.1:
`save_state` records the current length, `restore_last_with f` pops
events in LIFO order applying `f` until the last saved length is
reached.  `events` has its most recent element at the head. -/
structure Q (α : Type) where
  events : List α
  saved : List Nat

def Q.push {α : Type} (q : Q α) (x : α) : Q α :=
  { q with events := x :: q.events }

def Q.save_state {α : Type} (q : Q α) : Nat × Q α :=
  (q.saved.length, { q with saved := q.events.length :: q.saved })

def Q.num_saved {α : Type} (q : Q α) : Nat := q.saved.length

/-- `restore_last_with`: pop events (most recent first) down to the last
saved length, folding `f` over them into `s`; `none` when no state was
saved. -/
def Q.restore_last_with {α σ : Type} (q : Q α) (f : α → σ → σ) (s : σ) :
    Option (Q α × σ) :=
  match q.saved with
  | [] => none
  | n :: rest =>
    let k := q.events.length - n
    some ({ events := q.events.drop k, saved := rest },
      (q.events.take k).foldl (fun s e => f e s) s)

/-- `DiscreteModel` state.  `RefVec`/`RefMap` become lists and canonical
association lists; dense indices (`VarRef`, `BVar`, `SatVar`,
`ExprHandle`) become `Nat`. -/
structure DiscreteModel where
  labels : List String
  domains : List (IntDomain × Option Lit)
  trail : Q DMVarEvent
  binding : AList Nat Lit
  expr_binding : AList Nat Lit
  values : AList Nat Bool
  sat_to_int : AList Nat IntOfSatVar
  lit_trail : Q Lit

namespace DiscreteModel

/-- `DiscreteModel::new`. -/
def new : DiscreteModel :=
  { labels := [], domains := [], trail := ⟨[], []⟩, binding := [],
    expr_binding := [], values := [], sat_to_int := [], lit_trail := ⟨[], []⟩ }

/-- `DiscreteModel::new_discrete_var`. -/
def new_discrete_var (m : DiscreteModel) (lb ub : Int) (label : String) :
    Nat × DiscreteModel :=
  (m.labels.length,
   { m with labels := m.labels ++ [label],
            domains := m.domains ++ [({ lb := lb, ub := ub }, Option.none)] })

/-- `DiscreteModel::value`. -/
def value (m : DiscreteModel) (lit : Lit) : Option Bool :=
  (AList.get m.values lit.var).map fun v => if lit.value then v else !v

/-- `DiscreteModel::bind`: install the bidirectional variable/literal
link.  `none` models the two `assert!`s (variable already bound either
way). -/
def bind (m : DiscreteModel) (k : Nat) (lit : Lit) : Option DiscreteModel :=
  if AList.contains_key m.binding k then Option.none
  else
    match m.domains[k]? with
    | Option.none => Option.none
    | some (dom, olit) =>
      match olit with
      | some _ => Option.none
      | Option.none =>
        some { m with
          binding := AList.insert m.binding k lit,
          domains := m.domains.set k (dom, some lit),
          sat_to_int := AList.insert m.sat_to_int lit.var
            { «variable» := k, inverted := !lit.value } }

mutual

/-- `DiscreteModel::set_lb`.  `fuel` bounds the mutual recursion with
`set` (at most four nested calls occur before a guaranteed no-op, see
the round-trip development); indexing out of bounds is the panicking
`none`. -/
def set_lb (fuel : Nat) (m : DiscreteModel) (var : Nat) (lb : Int) :
    Option DiscreteModel :=
  match fuel with
  | 0 => Option.none
  | fuel + 1 =>
    match m.domains[var]? with
    | Option.none => Option.none
    | some (dom, olit) =>
      if dom.lb < lb then
        let m' : DiscreteModel :=
          { m with domains := m.domains.set var ({ dom with lb := lb }, olit),
                   trail := m.trail.push { var := var, ev := DomEvent.NewLB dom.lb lb } }
        match olit with
        | some lit => set fuel m' lit
        | Option.none => some m'
      else some m

/-- `DiscreteModel::set_ub`. -/
def set_ub (fuel : Nat) (m : DiscreteModel) (var : Nat) (ub : Int) :
    Option DiscreteModel :=
  match fuel with
  | 0 => Option.none
  | fuel + 1 =>
    match m.domains[var]? with
    | Option.none => Option.none
    | some (dom, olit) =>
      if ub < dom.ub then
        let m' : DiscreteModel :=
          { m with domains := m.domains.set var ({ dom with ub := ub }, olit),
                   trail := m.trail.push { var := var, ev := DomEvent.NewUB dom.ub ub } }
        match olit with
        | some lit => set fuel m' (Lit.not lit)
        | Option.none => some m'
      else some m

/-- `DiscreteModel::set`: assign a literal; `assert_ne!(prev,
Some(!val))` is the panicking `none`; mirror the assignment into the
bound integer variable through `sat_to_int`. -/
def set (fuel : Nat) (m : DiscreteModel) (lit : Lit) : Option DiscreteModel :=
  match fuel with
  | 0 => Option.none
  | fuel + 1 =>
    let var := lit.var
    let val := lit.value
    match AList.get m.values var with
    | some prev =>
      if prev = !val then Option.none else some m
    | Option.none =>
      let m' : DiscreteModel :=
        { m with values := AList.insert m.values var val,
                 lit_trail := m.lit_trail.push lit }
      match AList.get m'.sat_to_int var with
      | some int_var =>
        if val && !int_var.inverted then set_lb fuel m' int_var.«variable» 1
        else set_ub fuel m' int_var.«variable» 0
      | Option.none => some m'

end

/-- `DiscreteModel::undo_int_event`. -/
def undo_int_event (domains : List (IntDomain × Option Lit))
    (ev : DMVarEvent) : List (IntDomain × Option Lit) :=
  match domains[ev.var]? with
  | Option.none => domains
  | some (dom, olit) =>
    match ev.ev with
    | DomEvent.NewLB prev _ => domains.set ev.var ({ dom with lb := prev }, olit)
    | DomEvent.NewUB prev _ => domains.set ev.var ({ dom with ub := prev }, olit)

/-- `Backtrack::save_state` for `DiscreteModel`: save both trails. -/
def save_state (m : DiscreteModel) : Nat × DiscreteModel :=
  let (a, trail') := m.trail.save_state
  let (_, lit_trail') := m.lit_trail.save_state
  (a, { m with trail := trail', lit_trail := lit_trail' })

/-- `Backtrack::restore_last` for `DiscreteModel`: undo integer events
on the domains and literal events on the values. -/
def restore_last (m : DiscreteModel) : Option DiscreteModel :=
  match m.trail.restore_last_with (fun ev doms => undo_int_event doms ev) m.domains with
  | Option.none => Option.none
  | some (trail', domains') =>
    match m.lit_trail.restore_last_with
        (fun lit values => AList.remove values lit.var) m.values with
    | Option.none => Option.none
    | some (lit_trail', values') =>
      some { m with trail := trail', domains := domains',
                    lit_trail := lit_trail', values := values' }

end DiscreteModel

/-- The mutation operations the discrete-model claims quantify over. -/
inductive DMOp where
  | setOp (lit : Lit)
  | setLbOp (var : Nat) (lb : Int)
  | setUbOp (var : Nat) (ub : Int)

/-- Apply a sequence of discrete-model operations, each with the given
recursion fuel. -/
def applyDMOps (fuel : Nat) (ops : List DMOp) (m : DiscreteModel) :
    Option DiscreteModel :=
  match ops with
  | [] => some m
  | op :: rest =>
    match
      (match op with
       | DMOp.setOp lit => DiscreteModel.set fuel m lit
       | DMOp.setLbOp v lb => DiscreteModel.set_lb fuel m v lb
       | DMOp.setUbOp v ub => DiscreteModel.set_ub fuel m v ub) with
    | Option.none => Option.none
    | some m' => applyDMOps fuel rest m'

/-- Undo a list of integer events (most recent first) on a domains
vector, as `restore_last` does. -/
def undoInts (Δ : List DMVarEvent) (d : List (IntDomain × Option Lit)) :
    List (IntDomain × Option Lit) :=
  Δ.foldl (fun d e => DiscreteModel.undo_int_event d e) d

/-- Undo a list of literal events (most recent first) on the values map,
as `restore_last` does. -/
def undoLits (Λ : List Lit) (vals : AList Nat Bool) : AList Nat Bool :=
  Λ.foldl (fun vals lit => AList.remove vals lit.var) vals

/-- Round-trip relation between discrete-model states: `m'` differs from
`m` only by domain/value mutations recorded on the trails, and undoing
the added trail events restores them; everything else is untouched. -/
structure DMRT (m m' : DiscreteModel) : Prop where
  labels_eq : m'.labels = m.labels
  binding_eq : m'.binding = m.binding
  expr_eq : m'.expr_binding = m.expr_binding
  sat_eq : m'.sat_to_int = m.sat_to_int
  trail_saved_eq : m'.trail.saved = m.trail.saved
  lit_saved_eq : m'.lit_trail.saved = m.lit_trail.saved
  ints : ∃ Δ, m'.trail.events = Δ ++ m.trail.events ∧
    undoInts Δ m'.domains = m.domains
  lits : ∃ Λ, m'.lit_trail.events = Λ ++ m.lit_trail.events ∧
    undoLits Λ m'.values = m.values

/-- Well-formedness of the literal/variable bindings of a
`DiscreteModel`, as established by `bind` on fresh literals over fresh
0/1 variables and preserved by every successful mutation:
* `w1`/`w4`: a variable is in `binding` iff its domain entry carries
  that same literal;
* `w2`/`w3`: `sat_to_int` is exactly the reverse map of `binding`
  (with the inversion flag from the literal's polarity);
* `w5`: the sync invariant of the claim: a true bound literal forces
  `lb ≥ 1`, a false one forces `ub ≤ 0`;
* `w6`: a bound pair whose literal is still unset keeps both 0 and 1
  available in the integer domain. -/
structure DMWF (m : DiscreteModel) : Prop where
  w1 : ∀ k lit, AList.get m.binding k = some lit →
    ∃ dom, m.domains[k]? = some (dom, some lit)
  w2 : ∀ k lit, AList.get m.binding k = some lit →
    AList.get m.sat_to_int lit.var =
      some { «variable» := k, inverted := !lit.value }
  w3 : ∀ x rep, AList.get m.sat_to_int x = some rep →
    ∃ lit, AList.get m.binding rep.«variable» = some lit ∧ lit.var = x
  w4 : ∀ k dom lit, m.domains[k]? = some (dom, some lit) →
    AList.get m.binding k = some lit
  w5 : ∀ k lit dom olit, AList.get m.binding k = some lit →
    m.domains[k]? = some (dom, olit) →
    (DiscreteModel.value m lit = some true → 1 ≤ dom.lb) ∧
    (DiscreteModel.value m lit = some false → dom.ub ≤ 0)
  w6 : ∀ k lit dom olit, AList.get m.binding k = some lit →
    m.domains[k]? = some (dom, olit) →
    DiscreteModel.value m lit = none → dom.lb < 1 ∧ 0 < dom.ub

/-- State after `set_lb` tightens a lower bound (before its literal
propagation). -/
def lbUpd (m : DiscreteModel) (v : Nat) (dom : IntDomain)
    (olit : Option Lit) (c : Int) : DiscreteModel :=
  { m with domains := m.domains.set v ({ dom with lb := c }, olit),
           trail := m.trail.push { var := v, ev := DomEvent.NewLB dom.lb c } }

/-- State after `set_ub` tightens an upper bound (before its literal
propagation). -/
def ubUpd (m : DiscreteModel) (v : Nat) (dom : IntDomain)
    (olit : Option Lit) (c : Int) : DiscreteModel :=
  { m with domains := m.domains.set v ({ dom with ub := c }, olit),
           trail := m.trail.push { var := v, ev := DomEvent.NewUB dom.ub c } }

/-- State after `set` records a literal value (before its domain
propagation). -/
def valIns (m : DiscreteModel) (lit : Lit) : DiscreteModel :=
  { m with values := AList.insert m.values lit.var lit.value,
           lit_trail := m.lit_trail.push lit }

/-- A one-variable model: `new_discrete_var(0, 1, "x")` bound to the
positive literal on sat variable 0. -/
def C4m0 : DiscreteModel :=
  { labels := ["x"], domains := [(⟨0, 1⟩, some ⟨0, true⟩)],
    trail := ⟨[], []⟩, binding := [(0, ⟨0, true⟩)], expr_binding := [],
    values := [], sat_to_int := [(0, ⟨0, false⟩)], lit_trail := ⟨[], []⟩ }

/-- The model after `set` on the positive literal: the domain is
tightened to `[1, 1]`. -/
def C4final : DiscreteModel :=
  { labels := ["x"], domains := [(⟨1, 1⟩, some ⟨0, true⟩)],
    trail := ⟨[⟨0, DomEvent.NewLB 0 1⟩], []⟩,
    binding := [(0, ⟨0, true⟩)], expr_binding := [],
    values := [(0, true)], sat_to_int := [(0, ⟨0, false⟩)],
    lit_trail := ⟨[⟨0, true⟩], []⟩ }

/-! ## `tnet/src/stn.rs` -/
/-- `Edge<W>`: the constraint `target - source <= weight`.  Timepoints
are `Nat` indices; the weight type `W` is instantiated with `Int`
(`W::step() = 1`, `saturating_add = +`). -/
structure Edge where
  source : Nat
  target : Nat
  weight : Int
deriving DecidableEq, Repr

/-- `EdgeID`: an edge and its negation share `base_id` and differ by the
`negated` bit. -/
structure EdgeID where
  base_id : Nat
  negated : Bool
deriving DecidableEq, Repr

/-- `Edge::is_canonical`. -/
def Edge.is_canonical (e : Edge) : Bool :=
  decide (e.source < e.target) ||
    (decide (e.source = e.target) && decide (0 ≤ e.weight))

/-- `Edge::is_negated`. -/
def Edge.is_negated (e : Edge) : Bool := !e.is_canonical

/-- `Edge::negated` : `¬(t - s ≤ w) ≡ (s - t ≤ -w - 1)`. -/
def Edge.negated (e : Edge) : Edge :=
  { source := e.target, target := e.source, weight := -e.weight - 1 }

/-- `Constraint<W>` of the STN (a possibly inactive edge). -/
structure STNConstraint where
  active : Bool
  edge : Edge
deriving DecidableEq, Repr

/-- `ConstraintPair<W>`. -/
structure ConstraintPair where
  base : STNConstraint
  negated : STNConstraint
deriving DecidableEq, Repr

/-- `ConstraintPair::new_inactives`. -/
def ConstraintPair.new_inactives (e : Edge) : ConstraintPair :=
  if e.is_canonical then
    { base := { active := false, edge := e },
      negated := { active := false, edge := e.negated } }
  else
    { base := { active := false, edge := e.negated },
      negated := { active := false, edge := e } }

instance {α β : Type} [DecidableEq α] [DecidableEq β] :
    DecidableEq (AList α β) :=
  fun x y => (inferInstance : DecidableEq (List (α × β))) x y

/-- `ConstraintDB<W>`: all pairs indexed by `base_id`, with the lookup
`HashMap` from canonical edges to `base_id`. -/
structure ConstraintDB where
  constraints : List ConstraintPair
  lookup : AList Edge Nat
deriving DecidableEq

namespace ConstraintDB

def new : ConstraintDB := { constraints := [], lookup := AList.empty }

/-- `ConstraintDB::find_existing`. -/
def find_existing (db : ConstraintDB) (e : Edge) : Option EdgeID :=
  if e.is_canonical then
    (db.lookup.get e).map fun id => { base_id := id, negated := false }
  else
    (db.lookup.get e.negated).map fun id => { base_id := id, negated := true }

/-- `ConstraintDB::push_edge`: returns `(created, edge_id)` and the new
DB. -/
def push_edge (db : ConstraintDB) (source target : Nat) (weight : Int)
    (hidden : Bool) : Bool × EdgeID × ConstraintDB :=
  let edge : Edge := { source := source, target := target, weight := weight }
  match db.find_existing edge with
  | some id => (false, id, db)
  | none =>
    let pair := ConstraintPair.new_inactives edge
    let base_id := db.constraints.length
    let lookup' :=
      if hidden then db.lookup else db.lookup.insert pair.base.edge base_id
    (true, { base_id := base_id, negated := edge.is_negated },
     { constraints := db.constraints ++ [pair], lookup := lookup' })

/-- `ConstraintDB::pop_last`. -/
def pop_last (db : ConstraintDB) : ConstraintDB :=
  match db.constraints.getLast? with
  | none => db
  | some pair =>
    { constraints := db.constraints.dropLast,
      lookup := db.lookup.remove pair.base.edge }

/-- `ConstraintDB::has_edge` (with the source's `<=` comparison). -/
def has_edge (db : ConstraintDB) (id : EdgeID) : Bool :=
  id.base_id ≤ db.constraints.length

/-- `Index<EdgeID>`: indexing out of bounds (a Rust panic) yields an
inactive null edge; on reachable states every stored id is in
bounds. -/
def getC (db : ConstraintDB) (id : EdgeID) : STNConstraint :=
  let pair := db.constraints.getD id.base_id
    { base := { active := false, edge := { source := 0, target := 0, weight := 0 } },
      negated := { active := false, edge := { source := 0, target := 0, weight := 0 } } }
  if id.negated then pair.negated else pair.base

/-- `IndexMut<EdgeID>` (writing one side of the pair). -/
def setC (db : ConstraintDB) (id : EdgeID) (c : STNConstraint) : ConstraintDB :=
  match db.constraints[id.base_id]? with
  | none => db
  | some pair =>
    let pair' := if id.negated then { pair with negated := c }
                 else { pair with base := c }
    { db with constraints := db.constraints.set id.base_id pair' }

end ConstraintDB

/-- `Distance<W>`. -/
structure Distance where
  initialized : Bool
  forward : Int
  forward_cause : Option EdgeID
  forward_pending_update : Bool
  backward : Int
  backward_cause : Option EdgeID
  backward_pending_update : Bool
deriving DecidableEq, Repr

def Distance.default0 : Distance :=
  { initialized := false, forward := 0, forward_cause := none,
    forward_pending_update := false, backward := 0, backward_cause := none,
    backward_pending_update := false }

/-- `Event<W>` of the STN trail. -/
inductive STNEvent where
  | Level (l : Nat)
  | NodeReserved
  | NodeInitialized (tp : Nat)
  | EdgeAdded
  | NewPendingActivation
  | EdgeActivated (e : EdgeID)
  | ForwardUpdate (node : Nat) (previous_dist : Int)
      (previous_cause : Option EdgeID)
  | BackwardUpdate (node : Nat) (previous_dist : Int)
      (previous_cause : Option EdgeID)
deriving DecidableEq, Repr

/-- `FwdActive<W>` (cache entry of the forward adjacency lists). -/
structure FwdActive where
  target : Nat
  weight : Int
  id : EdgeID
deriving DecidableEq, Repr

/-- `BwdActive<W>`. -/
structure BwdActive where
  source : Nat
  weight : Int
  id : EdgeID
deriving DecidableEq, Repr

/-- `ActivationEvent`. -/
inductive ActivationEvent where
  | ToActivate (e : EdgeID)
  | BacktrackPoint (l : Nat)
deriving DecidableEq, Repr

/-- `NetworkStatus` of a propagation.  `Consistent` carries the trail
length captured before propagation (the `NetworkUpdates` start offset);
`OutOfFuel` is the model artifact for runs exceeding the explicit
recursion fuel (including the panics inside cycle extraction, which are
unreachable on reachable states). -/
inductive NetworkStatus where
  | Consistent (trail_end_before_propagation : Nat)
  | Inconsistent (cycle : List EdgeID)
  | OutOfFuel
deriving DecidableEq, Repr

/-- `IncSTN<W>`.  `trail` has its most recent event at the head;
`pending_activations` has the `VecDeque` front at the head.  The `stats`
counters and the scratch buffers cleared or overwritten at each use
(`internal_propagate_queue`, `internal_visited_by_cycle_extraction`,
and `explanation`, whose content is returned in `NetworkStatus`) are
not part of the state. -/
structure IncSTN where
  constraints : ConstraintDB
  active_forward_edges : List (List FwdActive)
  active_backward_edges : List (List BwdActive)
  distances : List Distance
  trail : List STNEvent
  pending_activations : List ActivationEvent
  level : Nat
deriving DecidableEq

/-- Append to the inner list at index `i` (`Vec::push` on an indexed
entry; out of bounds would panic in Rust and is a no-op here). -/
def pushAt {α : Type} (l : List (List α)) (i : Nat) (x : α) : List (List α) :=
  match l[i]? with
  | none => l
  | some xs => l.set i (xs ++ [x])

/-- Pop from the inner list at index `i` (`Vec::pop`). -/
def popAt {α : Type} (l : List (List α)) (i : Nat) : List (List α) :=
  match l[i]? with
  | none => l
  | some xs => l.set i xs.dropLast

namespace IncSTN

def num_nodes (stn : IncSTN) : Nat := stn.active_forward_edges.length

/-- `IncSTN::origin`. -/
def origin : Nat := 0

def getDist (stn : IncSTN) (n : Nat) : Distance :=
  stn.distances.getD n Distance.default0

def setDist (stn : IncSTN) (n : Nat) (d : Distance) : IncSTN :=
  { stn with distances := stn.distances.set n d }

/-- `IncSTN::lb`. -/
def lb (stn : IncSTN) (n : Nat) : Int := -(stn.getDist n).backward

/-- `IncSTN::ub`. -/
def ub (stn : IncSTN) (n : Nat) : Int := (stn.getDist n).forward

/-- `IncSTN::reserve_timepoint`. -/
def reserve_timepoint (stn : IncSTN) : Nat × IncSTN :=
  let id := stn.num_nodes
  (id, { stn with
    active_forward_edges := stn.active_forward_edges ++ [[]],
    active_backward_edges := stn.active_backward_edges ++ [[]],
    trail := STNEvent.NodeReserved :: stn.trail,
    distances := stn.distances ++ [Distance.default0] })

/-- `IncSTN::add_inactive_constraint`; `none` is the "Unrecorded node"
assertion. Returns `(id, created)` and the new network. -/
def add_inactive_constraint (stn : IncSTN) (source target : Nat)
    (weight : Int) (hidden : Bool) : Option (EdgeID × Bool × IncSTN) :=
  if source < stn.num_nodes ∧ target < stn.num_nodes then
    let (created, id, db) := stn.constraints.push_edge source target weight hidden
    let stn := { stn with constraints := db }
    if created then
      some (id, created, { stn with trail := STNEvent.EdgeAdded :: stn.trail })
    else
      some (id, created, stn)
  else none

/-- `IncSTN::mark_active`. -/
def mark_active (stn : IncSTN) (edge : EdgeID) : IncSTN :=
  { stn with
    pending_activations :=
      stn.pending_activations ++ [ActivationEvent.ToActivate edge],
    trail := STNEvent.NewPendingActivation :: stn.trail }

/-- `IncSTN::init_timepoint`; `none` models its three assertions. -/
def init_timepoint (stn : IncSTN) (tp : Nat) (lb ub : Int) :
    Option IncSTN :=
  if tp < stn.num_nodes ∧ (stn.getDist tp).initialized = false ∧ lb ≤ ub then
    match stn.add_inactive_constraint origin tp ub true with
    | none => none
    | some (fwd_edge, _, s1) =>
      match s1.add_inactive_constraint tp origin (-lb) true with
      | none => none
      | some (bwd_edge, _, s2) =>
        let s3 := s2.mark_active fwd_edge
        let s4 := s3.mark_active bwd_edge
        let s5 := s4.setDist tp
          { initialized := true, forward := ub, forward_cause := some fwd_edge,
            forward_pending_update := false, backward := -lb,
            backward_cause := some bwd_edge, backward_pending_update := false }
        some { s5 with trail := STNEvent.NodeInitialized tp :: s5.trail }
  else none

/-- `IncSTN::add_timepoint`. -/
def add_timepoint (stn : IncSTN) (lb ub : Int) : Option (Nat × IncSTN) :=
  let (tp, s1) := stn.reserve_timepoint
  (s1.init_timepoint tp lb ub).map fun s2 => (tp, s2)

/-- `IncSTN::add_inactive_edge`. -/
def add_inactive_edge (stn : IncSTN) (source target : Nat) (weight : Int) :
    Option (EdgeID × IncSTN) :=
  (stn.add_inactive_constraint source target weight false).map
    fun r => (r.1, r.2.2)

/-- `IncSTN::add_edge`. -/
def add_edge (stn : IncSTN) (source target : Nat) (weight : Int) :
    Option (EdgeID × IncSTN) :=
  match stn.add_inactive_edge source target weight with
  | none => none
  | some (id, s1) => some (id, s1.mark_active id)

/-- `IncSTN::new`: a single origin timepoint with domain `[0, 0]`, the
trail cleared so initialization can never be undone (the
`assert_eq!(origin, stn.origin())` is the `none` guard). -/
def new : Option IncSTN :=
  let stn0 : IncSTN :=
    { constraints := ConstraintDB.new, active_forward_edges := [],
      active_backward_edges := [], distances := [], trail := [],
      pending_activations := [], level := 0 }
  match stn0.add_timepoint 0 0 with
  | none => none
  | some (o, s1) =>
    if o = origin then some { s1 with trail := [] } else none

/-- `IncSTN::set_backtrack_point`; `none` is the "no pending
propagation" assertion. -/
def set_backtrack_point (stn : IncSTN) : Option (Nat × IncSTN) :=
  if stn.pending_activations = [] then
    let lvl := stn.level + 1
    let stn' : IncSTN :=
      { stn with level := lvl,
                 pending_activations := stn.pending_activations ++
                   [ActivationEvent.BacktrackPoint lvl],
                 trail := STNEvent.Level lvl :: stn.trail }
    some (lvl, stn')
  else none

/-- Phase 1 of `undo_to_last_backtrack_point`: pop pending activations
from the back until the `BacktrackPoint` of the current level (`none` is
the `assert_eq!(level, self.level)` panic).  Input and output are the
REVERSED pending deque (back at head). -/
def drainPendingBack (lvl : Nat) : List ActivationEvent → Option (List ActivationEvent)
  | [] => some []
  | e :: rest =>
    match e with
    | ActivationEvent.ToActivate _ => drainPendingBack lvl rest
    | ActivationEvent.BacktrackPoint l => if l = lvl then some rest else none

/-- Undo one non-`Level` trail event (the `match ev` arms of
`undo_to_last_backtrack_point`); the caller manages the `trail`
field. -/
def undoEvent (stn : IncSTN) : STNEvent → IncSTN
  | STNEvent.Level _ => stn
  | STNEvent.NodeReserved =>
    { stn with active_forward_edges := stn.active_forward_edges.dropLast,
               active_backward_edges := stn.active_backward_edges.dropLast,
               distances := stn.distances.dropLast }
  | STNEvent.NodeInitialized tp =>
    stn.setDist tp { stn.getDist tp with initialized := false }
  | STNEvent.EdgeAdded =>
    { stn with constraints := stn.constraints.pop_last }
  | STNEvent.NewPendingActivation =>
    { stn with pending_activations := stn.pending_activations.dropLast }
  | STNEvent.EdgeActivated e =>
    let c := stn.constraints.getC e
    { stn with
        active_forward_edges := popAt stn.active_forward_edges c.edge.source,
        active_backward_edges := popAt stn.active_backward_edges c.edge.target,
        constraints := stn.constraints.setC e { c with active := false } }
  | STNEvent.ForwardUpdate node prev cause =>
    let d := stn.getDist node
    stn.setDist node { d with forward := prev, forward_cause := cause }
  | STNEvent.BackwardUpdate node prev cause =>
    let d := stn.getDist node
    stn.setDist node { d with backward := prev, backward_cause := cause }

/-- Phase 2 of `undo_to_last_backtrack_point`: pop the trail, undoing
each event, until a `Level` marker. -/
def undo_trail_go : List STNEvent → IncSTN → Option Nat × IncSTN
  | [], stn => (none, stn)
  | STNEvent.Level lvl :: rest, stn =>
    (some lvl, { stn with trail := rest, level := stn.level - 1 })
  | ev :: rest, stn => undo_trail_go rest { undoEvent stn ev with trail := rest }

/-- `IncSTN::undo_to_last_backtrack_point`; the outer `none` is the
phase-1 level-mismatch panic. -/
def undo_to_last_backtrack_point (stn : IncSTN) :
    Option (Option Nat × IncSTN) :=
  match drainPendingBack stn.level stn.pending_activations.reverse with
  | none => none
  | some revRest =>
    let stn1 := { stn with pending_activations := revRest.reverse }
    some (undo_trail_go stn1.trail stn1)

/-- Cycle-extraction pass 1 (`extract_cycle_impl`, backward pass
following `forward_cause`): returns `(explanation, done)` where `done`
is true when the pass found a cycle and extraction returns immediately,
and false when it broke out at the origin; `none` models the `expect`
and `unwrap` panics and fuel exhaustion (the pass visits each node at
most once, so `num_nodes + 1` fuel is never exhausted on terminating
runs). -/
def extract_pass1 (stn : IncSTN) (culprit : Nat) :
    Nat → Nat → List Nat → List EdgeID → Option (List EdgeID × Bool)
  | 0, _, _, _ => none
  | fuel + 1, current, visited, explanation =>
    let visited := current :: visited
    match (stn.getDist current).forward_cause with
    | none => none
    | some id =>
      let next := (stn.constraints.getC id).edge.source
      let explanation := explanation ++ [id]
      if next = current then some (explanation, false)
      else
        let current := next
        if current = culprit then some (explanation, true)
        else if current = origin then some (explanation, false)
        else if current ∈ visited then
          match explanation.findIdx?
              (fun x => current = (stn.constraints.getC x).edge.target) with
          | none => none
          | some cycle_start => some (explanation.drop cycle_start, true)
        else extract_pass1 stn culprit fuel current visited explanation

/-- Cycle-extraction pass 2 (forward pass following `backward_cause`,
run only when pass 1 broke at the origin). -/
def extract_pass2 (stn : IncSTN) (culprit : Nat) (added_by_backward_pass : Nat) :
    Nat → Nat → List Nat → List EdgeID → Option (List EdgeID)
  | 0, _, _, _ => none
  | fuel + 1, current, visited, explanation =>
    let visited := current :: visited
    match (stn.getDist current).backward_cause with
    | none => none
    | some id =>
      let explanation := explanation ++ [id]
      let current := (stn.constraints.getC id).edge.target
      if current = origin then some explanation
      else if current = culprit then
        some (explanation.drop added_by_backward_pass)
      else if current ∈ visited then
        match (explanation.drop added_by_backward_pass).findIdx?
            (fun x => current = (stn.constraints.getC x).edge.source) with
        | none => none
        | some pos => some (explanation.drop (added_by_backward_pass + pos))
      else extract_pass2 stn culprit added_by_backward_pass fuel current
        visited explanation

/-- `IncSTN::extract_cycle` (via `extract_cycle_impl`); `none` collects
the panics and the (unreachable) fuel exhaustion.  The resulting list is
also what the source leaves in its `explanation` buffer. -/
def extract_cycle (stn : IncSTN) (culprit : Nat) : Option (List EdgeID) :=
  let fuel := stn.num_nodes + 1
  match extract_pass1 stn culprit fuel culprit [] [] with
  | none => none
  | some (explanation, true) => some explanation
  | some (explanation, false) =>
    extract_pass2 stn culprit explanation.length fuel culprit [] explanation

/-- Outcome of one relaxation sweep inside `propagate`. -/
inductive RelaxOut where
  | ok (stn : IncSTN) (queue : List Nat) (flag : Bool)
  | incon (stn : IncSTN) (cycle : Option (List EdgeID))

/-- The forward `for` loop of `propagate` over `active_forward_edges[u]`
(`flag` is `target_updated_ub`). -/
def relax_fwd (u tgt : Nat) :
    List FwdActive → IncSTN → List Nat → Bool → RelaxOut
  | [], stn, q, flag => RelaxOut.ok stn q flag
  | fa :: rest, stn, q, flag =>
    let target := fa.target
    let previous := (stn.getDist target).forward
    let candidate := (stn.getDist u).forward + fa.weight
    if candidate < previous then
      let ev := STNEvent.ForwardUpdate target previous
        (stn.getDist target).forward_cause
      let stn := { stn with trail := ev :: stn.trail }
      let d := stn.getDist target
      let d' := { d with forward := candidate, forward_cause := some fa.id,
                         forward_pending_update := true }
      let stn := stn.setDist target d'
      if candidate + (stn.getDist target).backward < 0 then
        RelaxOut.incon stn (stn.extract_cycle target)
      else if target = tgt ∧ flag = true then
        RelaxOut.incon stn (stn.extract_cycle target)
      else
        relax_fwd u tgt rest stn (q ++ [target])
          (if target = tgt then true else flag)
    else relax_fwd u tgt rest stn q flag

/-- The backward `for` loop of `propagate` over
`active_backward_edges[u]` (`flag` is `source_updated_lb`). -/
def relax_bwd (u src : Nat) :
    List BwdActive → IncSTN → List Nat → Bool → RelaxOut
  | [], stn, q, flag => RelaxOut.ok stn q flag
  | ba :: rest, stn, q, flag =>
    let source := ba.source
    let previous := (stn.getDist source).backward
    let candidate := (stn.getDist u).backward + ba.weight
    if candidate < previous then
      let ev := STNEvent.BackwardUpdate source previous
        (stn.getDist source).backward_cause
      let stn := { stn with trail := ev :: stn.trail }
      let d := stn.getDist source
      let d' := { d with backward := candidate, backward_cause := some ba.id,
                         backward_pending_update := true }
      let stn := stn.setDist source d'
      if candidate + (stn.getDist source).forward < 0 then
        RelaxOut.incon stn (stn.extract_cycle source)
      else if source = src ∧ flag = true then
        RelaxOut.incon stn (stn.extract_cycle source)
      else
        relax_bwd u src rest stn (q ++ [source])
          (if source = src then true else flag)
    else relax_bwd u src rest stn q flag

/-- Outcome of the BFS `while` loop of `propagate`. -/
inductive BfsOut where
  | done (stn : IncSTN)
  | incon (stn : IncSTN) (cycle : Option (List EdgeID))
  | fuelOut

/-- The `while let Some(u) = queue.pop_front()` loop of `propagate`. -/
def bfs (src tgt : Nat) :
    Nat → IncSTN → List Nat → Bool → Bool → BfsOut
  | 0, _, _, _, _ => BfsOut.fuelOut
  | fuel + 1, stn, q, sFlag, tFlag =>
    match q with
    | [] => BfsOut.done stn
    | u :: rest =>
      let fwd :=
        if (stn.getDist u).forward_pending_update then
          relax_fwd u tgt (stn.active_forward_edges.getD u []) stn rest tFlag
        else RelaxOut.ok stn rest tFlag
      match fwd with
      | RelaxOut.incon s cyc => BfsOut.incon s cyc
      | RelaxOut.ok s1 q1 tFlag1 =>
        let bwd :=
          if (s1.getDist u).backward_pending_update then
            relax_bwd u src (s1.active_backward_edges.getD u []) s1 q1 sFlag
          else RelaxOut.ok s1 q1 sFlag
        match bwd with
        | RelaxOut.incon s cyc => BfsOut.incon s cyc
        | RelaxOut.ok s2 q2 sFlag1 =>
          let d := s2.getDist u
          let d' := { d with forward_pending_update := false,
                             backward_pending_update := false }
          bfs src tgt fuel (s2.setDist u d') q2 sFlag1 tFlag1

/-- `IncSTN::propagate` (Cesta96), with explicit fuel for the BFS
loop. -/
def propagate (fuel : Nat) (stn : IncSTN) (new_edge : EdgeID) :
    NetworkStatus × IncSTN :=
  let c := stn.constraints.getC new_edge
  let src := c.edge.source
  let tgt := c.edge.target
  let trail_end := stn.trail.length
  let d := stn.getDist src
  let d' := { d with forward_pending_update := true,
                     backward_pending_update := true }
  let stn := stn.setDist src d'
  let d := stn.getDist tgt
  let d2 := { d with forward_pending_update := true,
                     backward_pending_update := true }
  let stn := stn.setDist tgt d2
  match bfs src tgt fuel stn [src, tgt] false false with
  | BfsOut.done s => (NetworkStatus.Consistent trail_end, s)
  | BfsOut.incon s (some cyc) => (NetworkStatus.Inconsistent cyc, s)
  | BfsOut.incon s none => (NetworkStatus.OutOfFuel, s)
  | BfsOut.fuelOut => (NetworkStatus.OutOfFuel, stn)

/-- The `while let Some(event) = self.pending_activations.pop_front()`
loop of `propagate_all`, recursing on the drained deque. -/
def propagate_all_go (fuel trail_end : Nat) :
    List ActivationEvent → IncSTN → NetworkStatus × IncSTN
  | [], stn => (NetworkStatus.Consistent trail_end, stn)
  | ev :: rest, stn =>
    let stn := { stn with pending_activations := rest }
    match ev with
    | ActivationEvent.BacktrackPoint _ => propagate_all_go fuel trail_end rest stn
    | ActivationEvent.ToActivate edge =>
      let c := stn.constraints.getC edge
      let e := c.edge
      if e.source = e.target then
        if e.weight < 0 then (NetworkStatus.Inconsistent [edge], stn)
        else propagate_all_go fuel trail_end rest stn
      else if c.active = false then
        let stn1 := { stn with
          constraints := stn.constraints.setC edge { c with active := true } }
        let stn2 := { stn1 with
          active_forward_edges := pushAt stn1.active_forward_edges e.source
            { target := e.target, weight := e.weight, id := edge },
          active_backward_edges := pushAt stn1.active_backward_edges e.target
            { source := e.source, weight := e.weight, id := edge },
          trail := STNEvent.EdgeActivated edge :: stn1.trail }
        match propagate fuel stn2 edge with
        | (NetworkStatus.Consistent _, s) => propagate_all_go fuel trail_end rest s
        | (status, s) => (status, s)
      else propagate_all_go fuel trail_end rest stn

/-- `IncSTN::propagate_all` with explicit BFS fuel. -/
def propagate_all (fuel : Nat) (stn : IncSTN) : NetworkStatus × IncSTN :=
  propagate_all_go fuel stn.trail.length stn.pending_activations stn

end IncSTN

/-- The state `IncSTN::new` produces (two hidden `[0, 0]` constraints on
the origin with their activations still pending, trail cleared). -/
def freshSTN : IncSTN :=
  { constraints :=
      { constraints :=
          [{ base := { active := false,
                       edge := { source := 0, target := 0, weight := 0 } },
             negated := { active := false,
                          edge := { source := 0, target := 0, weight := -1 } } },
           { base := { active := false,
                       edge := { source := 0, target := 0, weight := 0 } },
             negated := { active := false,
                          edge := { source := 0, target := 0, weight := -1 } } }],
        lookup := AList.empty },
    active_forward_edges := [[]],
    active_backward_edges := [[]],
    distances :=
      [{ initialized := true, forward := 0,
         forward_cause := some { base_id := 0, negated := false },
         forward_pending_update := false, backward := 0,
         backward_cause := some { base_id := 1, negated := false },
         backward_pending_update := false }],
    trail := [],
    pending_activations :=
      [ActivationEvent.ToActivate { base_id := 0, negated := false },
       ActivationEvent.ToActivate { base_id := 1, negated := false }],
    level := 0 }

/-- Concrete state for the C10 witness: one node, one inactive self-loop
constraint of weight `-1`, pending activation for it. -/
def C10stn : IncSTN :=
  { constraints :=
      { constraints :=
          [{ base := { active := false,
                       edge := { source := 0, target := 0, weight := -1 } },
             negated := { active := false,
                          edge := { source := 0, target := 0, weight := 0 } } }],
        lookup := AList.empty },
    active_forward_edges := [[]],
    active_backward_edges := [[]],
    distances := [Distance.default0],
    trail := [],
    pending_activations :=
      [ActivationEvent.ToActivate { base_id := 0, negated := false }],
    level := 0 }

/-- The state after `add_edge(0, 0, 5)` on the fresh STN (used to
instantiate the C3 theorem). -/
def C3stn1 : IncSTN :=
  { constraints :=
      { constraints :=
          [{ base := { active := false,
                       edge := { source := 0, target := 0, weight := 0 } },
             negated := { active := false,
                          edge := { source := 0, target := 0, weight := -1 } } },
           { base := { active := false,
                       edge := { source := 0, target := 0, weight := 0 } },
             negated := { active := false,
                          edge := { source := 0, target := 0, weight := -1 } } },
           { base := { active := false,
                       edge := { source := 0, target := 0, weight := 5 } },
             negated := { active := false,
                          edge := { source := 0, target := 0, weight := -6 } } }],
        lookup := [({ source := 0, target := 0, weight := 5 }, 2)] },
    active_forward_edges := [[]],
    active_backward_edges := [[]],
    distances :=
      [{ initialized := true, forward := 0,
         forward_cause := some { base_id := 0, negated := false },
         forward_pending_update := false, backward := 0,
         backward_cause := some { base_id := 1, negated := false },
         backward_pending_update := false }],
    trail := [STNEvent.NewPendingActivation, STNEvent.EdgeAdded],
    pending_activations :=
      [ActivationEvent.ToActivate { base_id := 0, negated := false },
       ActivationEvent.ToActivate { base_id := 1, negated := false },
       ActivationEvent.ToActivate { base_id := 2, negated := false }],
    level := 0 }

/-! ### Undo algebra for the STN backtracking round trip (C2) -/
/-- The two `*_pending_update` flags are propagation scratch that the
trail does not record; the observable part of a `Distance` clears
them. -/
def Distance.strip (d : Distance) : Distance :=
  { d with forward_pending_update := false, backward_pending_update := false }

/-- Observable state of the network: everything except the pending
propagation flags. -/
def IncSTN.obs (s : IncSTN) : IncSTN :=
  { s with distances := s.distances.map Distance.strip }

namespace IncSTN

/-- Fold `undoEvent` over a list of events (trail management left to the
caller). -/
def undoAll : List STNEvent → IncSTN → IncSTN
  | [], stn => stn
  | ev :: rest, stn => undoAll rest (undoEvent stn ev)

/-- Agreement on the four trail-protected components, with distance
flags stripped. -/
def sim4 (s t : IncSTN) : Prop :=
  s.constraints = t.constraints ∧
  s.active_forward_edges = t.active_forward_edges ∧
  s.active_backward_edges = t.active_backward_edges ∧
  s.distances.map Distance.strip = t.distances.map Distance.strip

/-- Undoing the trail delta of `s'` (with pending normalized away)
recovers the observable core of `s`. -/
def Rewind (s s' : IncSTN) : Prop :=
  ∃ δ, s'.trail = δ ++ s.trail ∧ (∀ n, STNEvent.Level n ∉ δ) ∧
    sim4 (undoAll δ { s' with pending_activations := [] }) s

/-- Restore helpers mirroring the distance updates of `propagate`. -/
def Distance.withFwd (d : Distance) (c : Int) (i : Option EdgeID) (b : Bool) :
    Distance :=
  { d with forward := c, forward_cause := i, forward_pending_update := b }

def Distance.withBwd (d : Distance) (c : Int) (i : Option EdgeID) (b : Bool) :
    Distance :=
  { d with backward := c, backward_cause := i, backward_pending_update := b }

end IncSTN

namespace ConstraintDB

/-- The inactive placeholder produced by out-of-bounds indexing in the
model. -/
def nullPair : ConstraintPair :=
  { base := { active := false,
              edge := { source := 0, target := 0, weight := 0 } },
    negated := { active := false,
                 edge := { source := 0, target := 0, weight := 0 } } }

end ConstraintDB

namespace IncSTN

/-- The network state carried by a relaxation outcome. -/
def RelaxOut.state : RelaxOut → IncSTN
  | RelaxOut.ok s _ _ => s
  | RelaxOut.incon s _ => s

/-- The network state carried by a BFS outcome, if any. -/
def BfsOut.state? : BfsOut → Option IncSTN
  | BfsOut.done s => some s
  | BfsOut.incon s _ => some s
  | BfsOut.fuelOut => none

end IncSTN

/-- All entries of a pending deque are edge activations (no backtrack
marker). -/
def allTA (p : List ActivationEvent) : Prop :=
  ∀ e ∈ p, ∀ n, e ≠ ActivationEvent.BacktrackPoint n

/-- Shape of the pending deque between a backtrack point at `lvl` and
the next undo: the marker (if still present) is at the front, and
everything else is an activation. -/
def PendSh (lvl : Nat) (p : List ActivationEvent) : Prop :=
  (∃ tas, p = ActivationEvent.BacktrackPoint lvl :: tas ∧ allTA tas) ∨ allTA p

/-- Mutations exercised between a backtrack point and its undo: adding
or activating edges and propagating, per the backtracking contract. -/
inductive STNOp where
  | add_edge (source target : Nat) (weight : Int)
  | add_inactive_edge (source target : Nat) (weight : Int)
  | mark_active (e : EdgeID)
  | propagate_all
deriving DecidableEq, Repr

/-- Run a sequence of STN mutations; `none` on a failed assertion or
fuel exhaustion (a model artifact, not a program behaviour). -/
def applySTNOps (fuel : Nat) : List STNOp → IncSTN → Option IncSTN
  | [], stn => some stn
  | STNOp.add_edge a b w :: rest, stn =>
    match stn.add_edge a b w with
    | none => none
    | some (_, s') => applySTNOps fuel rest s'
  | STNOp.add_inactive_edge a b w :: rest, stn =>
    match stn.add_inactive_edge a b w with
    | none => none
    | some (_, s') => applySTNOps fuel rest s'
  | STNOp.mark_active e :: rest, stn =>
    applySTNOps fuel rest (stn.mark_active e)
  | STNOp.propagate_all :: rest, stn =>
    match stn.propagate_all fuel with
    | (NetworkStatus.OutOfFuel, _) => none
    | (_, s') => applySTNOps fuel rest s'

/-- Concrete states for the C2 witness: fresh network with the pending
self-activations drained, a backtrack point, one added edge and one
propagation. -/
def C2stn0 : IncSTN := { freshSTN with pending_activations := [] }

def C2stn1 : IncSTN :=
  { C2stn0 with level := 1,
                pending_activations := [ActivationEvent.BacktrackPoint 1],
                trail := [STNEvent.Level 1] }

def C2stn2 : IncSTN :=
  { C2stn0 with
      constraints :=
        { constraints := C2stn0.constraints.constraints ++
            [{ base := { active := false,
                         edge := { source := 0, target := 0, weight := 5 } },
               negated := { active := false,
                            edge := { source := 0, target := 0, weight := -6 } } }],
          lookup := [({ source := 0, target := 0, weight := 5 }, 2)] },
      trail := [STNEvent.NewPendingActivation, STNEvent.EdgeAdded,
                STNEvent.Level 1],
      pending_activations := [],
      level := 1 }

def C2m2 : DiscreteModel :=
  { labels := ["x"],
    domains := [({ lb := 1, ub := 1 }, some { var := 0, value := true })],
    trail := { events := [{ var := 0, ev := DomEvent.NewLB 0 1 }],
               saved := [0] },
    binding := [(0, { var := 0, value := true })],
    expr_binding := [],
    values := [(0, true)],
    sat_to_int := [(0, { «variable» := 0, inverted := false })],
    lit_trail := { events := [{ var := 0, value := true }], saved := [0] } }

/-! ### Negative-cycle extraction (C1) -/
/-- The edge named by an id in the constraint DB. -/
def edgeOf (stn : IncSTN) (id : EdgeID) : Edge :=
  (stn.constraints.getC id).edge

/-- Total weight of a walk. -/
def weightSum (es : List Edge) : Int := (es.map Edge.weight).sum

/-- `chainFrom a b es`: `es` is a head-to-tail walk from `a` to `b`. -/
def chainFrom : Nat → Nat → List Edge → Prop
  | a, b, [] => a = b
  | a, b, e :: es => e.source = a ∧ chainFrom e.target b es

/-- A non-empty head-to-tail walk that closes on itself. -/
def closedWalk (es : List Edge) : Prop := es ≠ [] ∧ ∃ a, chainFrom a a es

/-- `chainUp cur top es`: reading `es` right to left is a walk from
`cur` to `top` (the shape of the backward cause pass). -/
def chainUp (cur : Nat) : Nat → List Edge → Prop
  | top, [] => cur = top
  | top, e :: es => e.target = top ∧ chainUp cur e.source es

/-- One cause step or a chain of them strictly decreases the pair
(distance estimate, rank) lexicographically (allowing weight slack). -/
def descend (f : Nat → Int) (r : Nat → Nat) (a b : Nat) (w : Int) : Prop :=
  w + f a < f b ∨ (w + f a = f b ∧ r a < r b)

/-- Forward distance estimate as a function. -/
def fdistF (stn : IncSTN) : Nat → Int := fun n => (stn.getDist n).forward

/-- Backward distance estimate as a function. -/
def bdistF (stn : IncSTN) : Nat → Int := fun n => (stn.getDist n).backward

/-- Soundness of the forward cause links: each recorded cause is an edge
into its node whose relaxation still holds, strictly or with a rank
decrease (the rank abstracts the order in which updates happened; it is
what makes the tight cause subgraph acyclic). -/
def FwdCauseInv (stn : IncSTN) (rankF : Nat → Nat) : Prop :=
  ∀ n, n < stn.distances.length → n ≠ IncSTN.origin → ∀ e,
    (stn.getDist n).forward_cause = some e →
    (edgeOf stn e).target = n ∧
    descend (fdistF stn) rankF (edgeOf stn e).source n (edgeOf stn e).weight

/-- Soundness of the backward cause links. -/
def BwdCauseInv (stn : IncSTN) (rankB : Nat → Nat) : Prop :=
  ∀ n, n < stn.distances.length → n ≠ IncSTN.origin → ∀ e,
    (stn.getDist n).backward_cause = some e →
    (edgeOf stn e).source = n ∧
    descend (bdistF stn) rankB (edgeOf stn e).target n (edgeOf stn e).weight

/-- Self-loop cause edges exist only at the origin (its two hidden
`[0, 0]` bound constraints). -/
def SelfLoopOnlyOrigin (stn : IncSTN) : Prop :=
  ∀ n, n < stn.distances.length → ∀ e,
    (stn.getDist n).forward_cause = some e →
    (edgeOf stn e).source = n → n = IncSTN.origin

/-- Per-suffix facts maintained by the backward pass of cycle
extraction: every suffix of the explanation is a walk (read right to
left) from the pass's current node up to the target of the suffix's
first edge, descending in (forward distance, rank). -/
def SufOk1 (stn : IncSTN) (rankF : Nat → Nat) (cur : Nat) :
    List EdgeID → Prop
  | [] => True
  | d :: ds =>
    chainUp cur (edgeOf stn d).target ((d :: ds).map (edgeOf stn)) ∧
    descend (fdistF stn) rankF cur (edgeOf stn d).target
      (weightSum ((d :: ds).map (edgeOf stn)))

def AllSuf1 (stn : IncSTN) (rankF : Nat → Nat) (cur : Nat)
    (expl : List EdgeID) : Prop :=
  ∀ j, SufOk1 stn rankF cur (expl.drop j)

/-- Same for the forward pass, with walks read left to right and
backward distances. -/
def SufOk2 (stn : IncSTN) (rankB : Nat → Nat) (cur : Nat) :
    List EdgeID → Prop
  | [] => True
  | d :: ds =>
    chainFrom (edgeOf stn d).source cur ((d :: ds).map (edgeOf stn)) ∧
    descend (bdistF stn) rankB cur (edgeOf stn d).source
      (weightSum ((d :: ds).map (edgeOf stn)))

def AllSuf2 (stn : IncSTN) (rankB : Nat → Nat) (cur : Nat)
    (expl : List EdgeID) : Prop :=
  ∀ j, SufOk2 stn rankB cur (expl.drop j)

/-- Conclusion of a successful cycle extraction: some arrangement of the
reported edges is a closed head-to-tail walk of strictly negative total
weight. -/
def NegCycleOut (stn : IncSTN) (l : List EdgeID) : Prop :=
  ∃ es, es.Perm (l.map (edgeOf stn)) ∧ closedWalk es ∧ weightSum es < 0

/-- A descending cause set: a set of nodes containing the culprit, each
of whose members has a recorded forward cause that is a non-self-loop
edge into it from another member, still descending in (forward
distance, rank); if the origin belongs to the set, it is the culprit
itself.  This is the situation at `propagate`'s Cesta96 double-update
detection sites and at a sum-negative detection on the origin itself:
starting from a quiescent consistent state, an edge relaxation can only
fire through the single new edge or from a node whose estimate was
itself updated during this propagation, so every updated node's cause
source is again an updated node (for the culprit, possibly via the new
edge whose source must then have been updated too), the origin is
untouched (its first update fires the sum-negative site at the origin),
and the updated nodes form such a set.  Pass 1 of the extraction can
then never leave the set and must close a cycle inside it. -/
def DescentClosed (stn : IncSTN) (rankF : Nat → Nat) (culprit : Nat) : Prop :=
  ∃ U : List Nat, culprit ∈ U ∧
    (IncSTN.origin ∈ U → culprit = IncSTN.origin) ∧
    ∀ u ∈ U, ∃ e, (stn.getDist u).forward_cause = some e ∧
      (edgeOf stn e).target = u ∧ (edgeOf stn e).source ≠ u ∧
      (edgeOf stn e).source ∈ U ∧
      descend (fdistF stn) rankF (edgeOf stn e).source u (edgeOf stn e).weight

/-- Hidden self-loop constraint pair backing the origin's `[0, 0]`
bounds in the C1 witness network (two copies in the DB, exactly as
`IncSTN::new` creates them; hidden edges are kept out of the lookup). -/
def C1pair0 : ConstraintPair :=
  { base := { active := false,
              edge := { source := 0, target := 0, weight := 0 } },
    negated := { active := false,
                 edge := { source := 0, target := 0, weight := -1 } } }

/-- Hidden upper-bound edge `origin → a` of weight 10. -/
def C1pairOA : ConstraintPair :=
  { base := { active := true,
              edge := { source := 0, target := 1, weight := 10 } },
    negated := { active := false,
                 edge := { source := 1, target := 0, weight := -11 } } }

/-- Hidden lower-bound edge `a → origin` of weight 0.  The edge is not
canonical, so the pair stores its negation `origin → a (-1)` as the
base half and the edge itself as the negated half; its id therefore
carries the `negated` bit. -/
def C1pairAO : ConstraintPair :=
  { base := { active := false,
              edge := { source := 0, target := 1, weight := -1 } },
    negated := { active := true,
                 edge := { source := 1, target := 0, weight := 0 } } }

/-- Hidden upper-bound edge `origin → b` of weight 10. -/
def C1pairOB : ConstraintPair :=
  { base := { active := true,
              edge := { source := 0, target := 2, weight := 10 } },
    negated := { active := false,
                 edge := { source := 2, target := 0, weight := -11 } } }

/-- Hidden lower-bound edge `b → origin` of weight 0. -/
def C1pairBO : ConstraintPair :=
  { base := { active := false,
              edge := { source := 0, target := 2, weight := -1 } },
    negated := { active := true,
                 edge := { source := 2, target := 0, weight := 0 } } }

/-- The pair created by `add_edge(a, b, 2)`; the later
`add_edge(b, a, -3)` unifies with its negated half, so both user edges
live in this single pair and both halves are active. -/
def C1pairAB : ConstraintPair :=
  { base := { active := true,
              edge := { source := 1, target := 2, weight := 2 } },
    negated := { active := true,
                 edge := { source := 2, target := 1, weight := -3 } } }

def C1d0 : Distance :=
  { initialized := true, forward := 0,
    forward_cause := some { base_id := 0, negated := false },
    forward_pending_update := false, backward := 0,
    backward_cause := some { base_id := 1, negated := false },
    backward_pending_update := false }

/-- Node `a` at the moment the double-update check fires: its upper
bound was just tightened a second time (10 → 7 → 6) by `b → a (-3)`. -/
def C1dA : Distance :=
  { initialized := true, forward := 6,
    forward_cause := some { base_id := 6, negated := true },
    forward_pending_update := true, backward := 0,
    backward_cause := some { base_id := 3, negated := true },
    backward_pending_update := false }

/-- Node `b` at that moment: upper bound 9 via `a → b (2)`, backward
estimate `-3` via `b → a (-3)`. -/
def C1dB : Distance :=
  { initialized := true, forward := 9,
    forward_cause := some { base_id := 6, negated := false },
    forward_pending_update := true, backward := -3,
    backward_cause := some { base_id := 6, negated := true },
    backward_pending_update := true }

/-- The state of the repository's `test_explanation` scenario
(`a, b ∈ [0, 10]`, `add_edge(a, b, 2)`, then `add_edge(b, a, -3)`) at
the very moment `propagate` takes the Cesta96 double-update branch with
culprit `a`: the forward estimate of `a` was updated twice while
propagating `b → a (-3)`, and `fdist(a) + bdist(a) = 6 ≥ 0`, so the
sum-negative condition does not hold and the negative cycle is instead
closed inside the updated set `{a, b}`.  (The trail and the pending
queue, which extraction never reads, are left empty.) -/
def C1stn : IncSTN :=
  { constraints :=
      { constraints := [C1pair0, C1pair0, C1pairOA, C1pairAO, C1pairOB,
                        C1pairBO, C1pairAB],
        lookup := [({ source := 1, target := 2, weight := 2 }, 6)] },
    active_forward_edges :=
      [[{ target := 1, weight := 10, id := { base_id := 2, negated := false } },
        { target := 2, weight := 10, id := { base_id := 4, negated := false } }],
       [{ target := 0, weight := 0, id := { base_id := 3, negated := true } },
        { target := 2, weight := 2, id := { base_id := 6, negated := false } }],
       [{ target := 0, weight := 0, id := { base_id := 5, negated := true } },
        { target := 1, weight := -3, id := { base_id := 6, negated := true } }]],
    active_backward_edges :=
      [[{ source := 1, weight := 0, id := { base_id := 3, negated := true } },
        { source := 2, weight := 0, id := { base_id := 5, negated := true } }],
       [{ source := 0, weight := 10, id := { base_id := 2, negated := false } },
        { source := 2, weight := -3, id := { base_id := 6, negated := true } }],
       [{ source := 0, weight := 10, id := { base_id := 4, negated := false } },
        { source := 1, weight := 2, id := { base_id := 6, negated := false } }]],
    distances := [C1d0, C1dA, C1dB],
    trail := [],
    pending_activations := [],
    level := 0 }

namespace AList

variable {α β : Type} [DecidableEq α]

theorem get_insert_self (m : AList α β) (k : α) (v : β) :
    get (insert m k v) k = some v := by
  simp [insert, get]

theorem remove_cons (a : α) (b : β) (rest : AList α β) (k : α) :
    remove ((a, b) :: rest) k =
      if a = k then remove rest k else (a, b) :: remove rest k := by
  by_cases hak : a = k <;> simp [remove, List.filter, hak]

theorem get_cons (a : α) (b : β) (rest : AList α β) (k : α) :
    get ((a, b) :: rest) k = if a = k then some b else get rest k := rfl

theorem get_remove_ne (m : AList α β) (k k' : α) (h : k ≠ k') :
    get (remove m k') k = get m k := by
  induction m with
  | nil => rfl
  | cons p rest ih =>
    cases p with
    | mk a b =>
      rw [remove_cons, get_cons]
      by_cases hak : a = k'
      · have hk : a ≠ k := by rw [hak]; exact fun hc => h hc.symm
        rw [if_pos hak, if_neg hk, ih]
      · rw [if_neg hak, get_cons]
        by_cases hk : a = k
        · rw [if_pos hk, if_pos hk]
        · rw [if_neg hk, if_neg hk, ih]

theorem get_insert_ne (m : AList α β) (k k' : α) (v : β) (h : k ≠ k') :
    get (insert m k' v) k = get m k := by
  have hne : k' ≠ k := fun hc => h hc.symm
  rw [insert]
  show (if k' = k then some v else get (remove m k') k) = get m k
  rw [if_neg hne]
  exact get_remove_ne m k k' h

theorem remove_absent (m : AList α β) (k : α)
    (h : get m k = none) : remove m k = m := by
  induction m with
  | nil => rfl
  | cons p rest ih =>
    cases p with
    | mk a b =>
      rw [get_cons] at h
      rw [remove_cons]
      by_cases hak : a = k
      · rw [if_pos hak] at h; cases h
      · rw [if_neg hak] at h
        rw [if_neg hak, ih h]

theorem remove_insert_of_absent (m : AList α β) (k : α) (v : β)
    (h : get m k = none) : remove (insert m k v) k = m := by
  rw [insert, remove_cons, if_pos rfl, remove_absent _ _ h, remove_absent _ _ h]

end AList

/-! ## Theorems for C7 -/
/-- C7: the claim says `Constraint::eq` builds an `EQ`-typed constraint
and `Constraint::neq` an `NEQ`-typed one.  Evaluating the source
constructors at concrete atoms shows both build the `NEQ` variant, so
`eq` contradicts its own name and documentation (the spec's design notes
flag exactly this as a bug). -/
theorem C7_eq_and_neq_both_build_NEQ :
    (Constraint.eq ⟨0⟩ ⟨1⟩).tpe = ConstraintType.NEQ ∧
    (Constraint.neq ⟨0⟩ ⟨1⟩).tpe = ConstraintType.NEQ ∧
    (Constraint.eq ⟨0⟩ ⟨1⟩).tpe ≠ ConstraintType.EQ :=
  ⟨rfl, rfl, by decide⟩

/-- C8 counterexample: the claim says pushing an already-interned value
returns its existing index.  In the source, `push` asserts
`!rev.contains_key(&v)` and panics instead: pushing `5` a second time
returns no index at all. -/
theorem C8_push_duplicate_panics :
    RefPool.push (RefPool.emptyPool : RefPool Nat) 5 = some (0, C8pool1) ∧
    RefPool.push C8pool1 5 = none := by
  constructor <;> rfl

/-- C8 (amended): `RefPool` interns values uniquely: pushing a value not
already interned returns a fresh index under which `get` returns the
value and `get_ref` returns that index; pushing an already-interned
value panics (`assert!`) instead of returning its index. -/
theorem C8_refpool_interning (V : Type) [DecidableEq V] (p : RefPool V) (v : V) :
    (p.get_ref v = none →
      p.push v = some (p.internal.length,
        { internal := p.internal ++ [v], rev := p.rev.insert v p.internal.length }) ∧
      (({ internal := p.internal ++ [v],
          rev := p.rev.insert v p.internal.length } : RefPool V).get
            p.internal.length = some v) ∧
      (({ internal := p.internal ++ [v],
          rev := p.rev.insert v p.internal.length } : RefPool V).get_ref v =
            some p.internal.length)) ∧
    (∀ k, p.get_ref v = some k → p.push v = none) := by
  constructor
  · intro h
    have hck : p.rev.contains_key v = false := by
      rw [AList.contains_key]
      rw [RefPool.get_ref] at h
      rw [h]
      rfl
    refine ⟨?_, ?_, ?_⟩
    · rw [RefPool.push, hck]
      simp
    · rw [RefPool.get]
      exact List.getElem?_concat_length p.internal v
    · rw [RefPool.get_ref]
      exact AList.get_insert_self p.rev v p.internal.length
  · intro k h
    rw [RefPool.push]
    have : p.rev.contains_key v = true := by
      rw [AList.contains_key]
      rw [RefPool.get_ref] at h
      rw [h]
      rfl
    rw [this]
    simp

/-- C8 witness: interning a fresh value into the empty pool. -/
theorem C8_refpool_interning_witness :
    RefPool.push (RefPool.emptyPool : RefPool Nat) 7 = some (0,
      { internal := [7], rev := AList.insert AList.empty 7 0 }) ∧
    RefPool.get ({ internal := [7], rev := AList.insert AList.empty 7 0 } :
      RefPool Nat) 0 = some 7 ∧
    RefPool.get_ref ({ internal := [7], rev := AList.insert AList.empty 7 0 } :
      RefPool Nat) 7 = some 0 :=
  (C8_refpool_interning Nat RefPool.emptyPool 7).1 rfl

/-! ## Theorems for C6 -/
/-- For a free-action outer instance, the inner loop over free actions
equals the spec-side filtered loop over all chronicles. -/
theorem sb_inner_eq (c1 : ChronicleInstance) (t1 i1 : Nat)
    (h : c1.origin = ChronicleOrigin.FreeAction t1 i1)
    (chronicles : List ChronicleInstance) :
    ((freeActionInstances chronicles).flatMap fun c2 =>
        if t1 = c2.2.1 ∧ i1 < c2.2.2 then
          [EncoderConstraint.implies c1.presence c2.1.presence,
           EncoderConstraint.leq c1.start c2.1.start]
        else []) =
      (chronicles.filter (sb_qualifies c1)).flatMap fun c2 =>
        [EncoderConstraint.implies c1.presence c2.presence,
         EncoderConstraint.leq c1.start c2.start] := by
  induction chronicles with
  | nil => rfl
  | cons c rest ih =>
    cases hc : c.origin with
    | Original =>
      have h1 : freeActionInstances (c :: rest) = freeActionInstances rest := by
        simp [freeActionInstances, List.filterMap, hc]
      have h2 : sb_qualifies c1 c = false := by
        rw [sb_qualifies, h, hc]
      rw [h1, List.filter_cons, h2]
      simpa using ih
    | FreeAction t2 i2 =>
      have h1 : freeActionInstances (c :: rest) =
          (c, t2, i2) :: freeActionInstances rest := by
        simp [freeActionInstances, List.filterMap, hc]
      have h2 : sb_qualifies c1 c = (t1 == t2 && decide (i1 < i2)) := by
        rw [sb_qualifies, h, hc]
      rw [h1, List.flatMap_cons, List.filter_cons, h2, ih]
      by_cases hq : t1 = t2 ∧ i1 < i2
      · have : (t1 == t2 && decide (i1 < i2)) = true := by
          simp [hq.1, hq.2]
        rw [if_pos hq, this]
        simp
      · have : (t1 == t2 && decide (i1 < i2)) = false := by
          rcases Decidable.not_and_iff_or_not.mp hq with h' | h' <;> simp [h']
        rw [if_neg hq, this]
        simp

/-- An `Original` chronicle never qualifies as the first element of a
symmetry-breaking pair. -/
theorem sb_qualifies_original (c1 c2 : ChronicleInstance)
    (h : c1.origin = ChronicleOrigin.Original) :
    sb_qualifies c1 c2 = false := by
  rw [sb_qualifies, h]

/-- The outer loop over free actions agrees with the spec-side loop over
all chronicle instances. -/
theorem sb_outer_eq (chronicles outer : List ChronicleInstance) :
    ((freeActionInstances outer).flatMap fun c1 =>
        (freeActionInstances chronicles).flatMap fun c2 =>
          if c1.2.1 = c2.2.1 ∧ c1.2.2 < c2.2.2 then
            [EncoderConstraint.implies c1.1.presence c2.1.presence,
             EncoderConstraint.leq c1.1.start c2.1.start]
          else []) =
      outer.flatMap fun c1 =>
        (chronicles.filter (sb_qualifies c1)).flatMap fun c2 =>
          [EncoderConstraint.implies c1.presence c2.presence,
           EncoderConstraint.leq c1.start c2.start] := by
  induction outer with
  | nil => rfl
  | cons c rest ih =>
    cases hc : c.origin with
    | Original =>
      have h1 : freeActionInstances (c :: rest) = freeActionInstances rest := by
        simp [freeActionInstances, List.filterMap, hc]
      have h2 : chronicles.filter (sb_qualifies c) = [] := by
        apply List.filter_eq_nil_iff.mpr
        intro c2 _
        rw [sb_qualifies_original c c2 hc]
        exact Bool.false_ne_true
      rw [h1, List.flatMap_cons, h2, ih]
      rfl
    | FreeAction t i =>
      have h1 : freeActionInstances (c :: rest) =
          (c, t, i) :: freeActionInstances rest := by
        simp [freeActionInstances, List.filterMap, hc]
      rw [h1, List.flatMap_cons, List.flatMap_cons, ih,
        sb_inner_eq c t i hc chronicles]

/-- C6: under the `simple` policy the encoder emits, in loop order,
exactly the two constraints `presence_1 → presence_2` and
`start_1 ≤ start_2` for every ordered pair of free-action instances with
the same template and increasing instantiation id (the spec-side list
`symmetry_breaking_spec`, which emits nothing for `Original` chronicles
or for pairs from distinct templates), and the `none` policy emits
nothing. -/
theorem C6_symmetry_breaking (chronicles : List ChronicleInstance) :
    add_symmetry_breaking chronicles SymmetryBreakingType.simple =
      symmetry_breaking_spec chronicles ∧
    add_symmetry_breaking chronicles SymmetryBreakingType.none = [] := by
  refine ⟨?_, rfl⟩
  rw [add_symmetry_breaking, symmetry_breaking_spec]
  exact sb_outer_eq chronicles chronicles

/-! ## Theorems for C5 -/
/-- `popToUnset` returns `none` exactly when every variable left in the
queue already has a value. -/
theorem popToUnset_none_iff (ass : Nat → Option Bool)
    (queue : List Nat) (trail : List UndoChange) :
    (popToUnset ass queue trail).1 = none ↔
      ∀ v ∈ queue, (ass v).isSome := by
  induction queue generalizing trail with
  | nil => simp [popToUnset]
  | cons v rest ih =>
    cases hv : ass v with
    | some b =>
      rw [popToUnset, hv]
      rw [ih]
      constructor
      · intro h w hw
        rcases List.mem_cons.mp hw with h' | h'
        · rw [h', hv]; rfl
        · exact h w h'
      · intro h w hw
        exact h w (List.mem_cons_of_mem v hw)
    | none =>
      rw [popToUnset, hv]
      constructor
      · intro h; cases h
      · intro h
        have := h v (List.mem_cons_self v rest)
        rw [hv] at this
        cases this

/-- A variable found by `popToUnset` is an unset member of the queue. -/
theorem popToUnset_some (ass : Nat → Option Bool)
    (queue : List Nat) (trail : List UndoChange) (v : Nat)
    (h : (popToUnset ass queue trail).1 = some v) :
    v ∈ queue ∧ ass v = none := by
  induction queue generalizing trail with
  | nil => cases h
  | cons w rest ih =>
    cases hw : ass w with
    | some b =>
      rw [popToUnset, hw] at h
      rcases ih _ h with ⟨hmem, hnone⟩
      exact ⟨List.mem_cons_of_mem w hmem, hnone⟩
    | none =>
      rw [popToUnset, hw] at h
      have hwv : w = v := Option.some.inj h
      constructor
      · rw [← hwv]; exact List.mem_cons_self w rest
      · rw [← hwv]; exact hw

/-- C5: `next_decision` emits `Restart` (updating
`conflicts_at_last_restart` and growing `allowed_conflicts` by the
ratio 1.5) whenever an unset variable remains and the conflicts since
the last restart reach `allowed_conflicts`; otherwise it emits
`SetLiteral` on an unset variable with polarity taken from the stored
default assignment and else from `prefered_bool_value`; and it returns
`None` exactly when no unset variable remains in the queue. -/
theorem C5_brancher_next_decision (b : Brancher) (stats : Stats)
    (assignment : Nat → Option Bool) :
    ((b.next_decision stats assignment).1 = none ↔
      ∀ v ∈ b.queue, (assignment v).isSome) ∧
    ((∃ v ∈ b.queue, assignment v = none) →
      (b.params.allowed_conflicts ≤
          stats.num_conflicts - b.conflicts_at_last_restart →
        (b.next_decision stats assignment).1 = some Decision.Restart ∧
        (b.next_decision stats assignment).2.conflicts_at_last_restart =
          stats.num_conflicts ∧
        (b.next_decision stats assignment).2.params.allowed_conflicts =
          increase_allowed_conflicts b.params.allowed_conflicts) ∧
      (stats.num_conflicts - b.conflicts_at_last_restart <
          b.params.allowed_conflicts →
        ∃ v, v ∈ b.queue ∧ assignment v = none ∧
          (b.next_decision stats assignment).1 =
            some (Decision.SetLiteral
              { var := v,
                value := (b.default_assignment.bind (fun f => f v)).getD
                  b.params.prefered_bool_value }))) := by
  rcases hp : popToUnset assignment b.queue b.trail with ⟨found, queue', trail'⟩
  cases found with
  | none =>
    have hnone : ∀ v ∈ b.queue, (assignment v).isSome := by
      rw [← popToUnset_none_iff assignment b.queue b.trail, hp]
    constructor
    · rw [Brancher.next_decision, hp]
      simpa using hnone
    · intro hex
      rcases hex with ⟨v, hv, hunset⟩
      have := hnone v hv
      rw [hunset] at this
      cases this
  | some v =>
    have hsome : v ∈ b.queue ∧ assignment v = none := by
      apply popToUnset_some assignment b.queue b.trail
      rw [hp]
    have hnd : b.next_decision stats assignment =
        if b.params.allowed_conflicts ≤
            stats.num_conflicts - b.conflicts_at_last_restart then
          (some Decision.Restart,
           { b with queue := queue', trail := trail',
                    conflicts_at_last_restart := stats.num_conflicts,
                    params := { b.params with
                      allowed_conflicts :=
                        increase_allowed_conflicts b.params.allowed_conflicts } })
        else
          (some (Decision.SetLiteral
             { var := v,
               value := (b.default_assignment.bind (fun ass => ass v)).getD
                 b.params.prefered_bool_value }),
           { b with queue := queue', trail := trail' }) := by
      rw [Brancher.next_decision, hp]
    by_cases hr : b.params.allowed_conflicts ≤
        stats.num_conflicts - b.conflicts_at_last_restart
    · rw [if_pos hr] at hnd
      constructor
      · rw [hnd]
        constructor
        · intro h; cases h
        · intro h
          have := h v hsome.1
          rw [hsome.2] at this
          cases this
      · intro _
        refine ⟨fun _ => ?_, fun hlt => absurd hr (Nat.not_le_of_lt hlt)⟩
        rw [hnd]
        exact ⟨rfl, rfl, rfl⟩
    · rw [if_neg hr] at hnd
      constructor
      · rw [hnd]
        constructor
        · intro h; cases h
        · intro h
          have := h v hsome.1
          rw [hsome.2] at this
          cases this
      · intro _
        refine ⟨fun hle => absurd hle hr, fun _ => ⟨v, hsome.1, hsome.2, ?_⟩⟩
        rw [hnd]

theorem C5_brancher_next_decision_witness :
    (C5brancher.next_decision { num_conflicts := 7 } (fun _ => Option.none)).1 =
      some (Decision.SetLiteral { var := 3, value := false }) := by
  rcases (C5_brancher_next_decision C5brancher { num_conflicts := 7 }
      (fun _ => Option.none)).2 ⟨3, by decide, rfl⟩ with ⟨_, hset⟩
  rcases hset (by decide) with ⟨v, hv, _, heq⟩
  have hv3 : v = 3 := by
    have : C5brancher.queue = [3] := rfl
    rw [this] at hv
    simpa using hv
  rw [heq, hv3]
  rfl

theorem list_set_of_getElem {α : Type} (l : List α) (i : Nat) (a : α)
    (h : l[i]? = some a) : l.set i a = l := by
  have hi : i < l.length := by
    by_contra hn
    rw [List.getElem?_eq_none (Nat.le_of_not_lt hn)] at h
    cases h
  apply List.ext_getElem?
  intro n
  rw [List.getElem?_set]
  by_cases hni : i = n
  · subst hni
    simp [hi, ← h]
  · simp [hni]

theorem DMRT.dm_refl (m : DiscreteModel) : DMRT m m :=
  { labels_eq := rfl, binding_eq := rfl, expr_eq := rfl, sat_eq := rfl,
    trail_saved_eq := rfl, lit_saved_eq := rfl,
    ints := ⟨[], rfl, rfl⟩, lits := ⟨[], rfl, rfl⟩ }

theorem undoInts_append (Δ₂ Δ₁ : List DMVarEvent)
    (d : List (IntDomain × Option Lit)) :
    undoInts (Δ₂ ++ Δ₁) d = undoInts Δ₁ (undoInts Δ₂ d) := by
  rw [undoInts, undoInts, undoInts, List.foldl_append]

theorem undoLits_append (Λ₂ Λ₁ : List Lit) (vals : AList Nat Bool) :
    undoLits (Λ₂ ++ Λ₁) vals = undoLits Λ₁ (undoLits Λ₂ vals) := by
  rw [undoLits, undoLits, undoLits, List.foldl_append]

theorem DMRT.dm_trans {m₀ m₁ m₂ : DiscreteModel}
    (h₁ : DMRT m₀ m₁) (h₂ : DMRT m₁ m₂) : DMRT m₀ m₂ := by
  obtain ⟨Δ₁, he₁, hu₁⟩ := h₁.ints
  obtain ⟨Δ₂, he₂, hu₂⟩ := h₂.ints
  obtain ⟨Λ₁, hf₁, hv₁⟩ := h₁.lits
  obtain ⟨Λ₂, hf₂, hv₂⟩ := h₂.lits
  refine
    { labels_eq := h₂.labels_eq.trans h₁.labels_eq,
      binding_eq := h₂.binding_eq.trans h₁.binding_eq,
      expr_eq := h₂.expr_eq.trans h₁.expr_eq,
      sat_eq := h₂.sat_eq.trans h₁.sat_eq,
      trail_saved_eq := h₂.trail_saved_eq.trans h₁.trail_saved_eq,
      lit_saved_eq := h₂.lit_saved_eq.trans h₁.lit_saved_eq,
      ints := ⟨Δ₂ ++ Δ₁, ?_, ?_⟩, lits := ⟨Λ₂ ++ Λ₁, ?_, ?_⟩ }
  · rw [he₂, he₁, List.append_assoc]
  · rw [undoInts_append, hu₂, hu₁]
  · rw [hf₂, hf₁, List.append_assoc]
  · rw [undoLits_append, hv₂, hv₁]

/-- Undoing the `NewLB` event written by `set_lb` restores the domains
vector. -/
theorem undo_newlb (domains : List (IntDomain × Option Lit)) (var : Nat)
    (dom : IntDomain) (olit : Option Lit) (lb : Int)
    (h : domains[var]? = some (dom, olit)) :
    DiscreteModel.undo_int_event
      (domains.set var ({ dom with lb := lb }, olit))
      { var := var, ev := DomEvent.NewLB dom.lb lb } = domains := by
  have hlt : var < domains.length := by
    by_contra hn
    rw [List.getElem?_eq_none (Nat.le_of_not_lt hn)] at h
    cases h
  have hset : (domains.set var ({ dom with lb := lb }, olit))[var]? =
      some ({ dom with lb := lb }, olit) :=
    List.getElem?_set_eq_of_lt _ hlt
  rw [DiscreteModel.undo_int_event, hset]
  show (domains.set var ({ dom with lb := lb }, olit)).set var
    ({ lb := dom.lb, ub := dom.ub }, olit) = domains
  rw [List.set_set]
  exact list_set_of_getElem _ _ _ h

/-- Undoing the `NewUB` event written by `set_ub` restores the domains
vector. -/
theorem undo_newub (domains : List (IntDomain × Option Lit)) (var : Nat)
    (dom : IntDomain) (olit : Option Lit) (ub : Int)
    (h : domains[var]? = some (dom, olit)) :
    DiscreteModel.undo_int_event
      (domains.set var ({ dom with ub := ub }, olit))
      { var := var, ev := DomEvent.NewUB dom.ub ub } = domains := by
  have hlt : var < domains.length := by
    by_contra hn
    rw [List.getElem?_eq_none (Nat.le_of_not_lt hn)] at h
    cases h
  have hset : (domains.set var ({ dom with ub := ub }, olit))[var]? =
      some ({ dom with ub := ub }, olit) :=
    List.getElem?_set_eq_of_lt _ hlt
  rw [DiscreteModel.undo_int_event, hset]
  show (domains.set var ({ dom with ub := ub }, olit)).set var
    ({ lb := dom.lb, ub := dom.ub }, olit) = domains
  rw [List.set_set]
  exact list_set_of_getElem _ _ _ h

/-- Every successful `set`/`set_lb`/`set_ub` is in round-trip relation
with its input state, for any recursion fuel. -/
theorem dm_ops_rt (fuel : Nat) :
    (∀ m lit m', DiscreteModel.set fuel m lit = some m' → DMRT m m') ∧
    (∀ m v c m', DiscreteModel.set_lb fuel m v c = some m' → DMRT m m') ∧
    (∀ m v c m', DiscreteModel.set_ub fuel m v c = some m' → DMRT m m') := by
  induction fuel with
  | zero =>
    refine ⟨?_, ?_, ?_⟩
    · intro m lit m' h
      simp only [DiscreteModel.set] at h
      exact Option.noConfusion h
    · intro m v c m' h
      simp only [DiscreteModel.set_lb] at h
      exact Option.noConfusion h
    · intro m v c m' h
      simp only [DiscreteModel.set_ub] at h
      exact Option.noConfusion h
  | succ fuel ih =>
    obtain ⟨ihset, ihlb, ihub⟩ := ih
    have hlbstep : ∀ m (v : Nat) (c : Int) dom olit,
        m.domains[v]? = some (dom, olit) →
        DMRT m { m with
          domains := m.domains.set v ({ dom with lb := c }, olit),
          trail := m.trail.push { var := v, ev := DomEvent.NewLB dom.lb c } } := by
      intro m v c dom olit hdom
      refine { labels_eq := rfl, binding_eq := rfl, expr_eq := rfl,
               sat_eq := rfl, trail_saved_eq := rfl, lit_saved_eq := rfl,
               ints := ⟨[{ var := v, ev := DomEvent.NewLB dom.lb c }], rfl, ?_⟩,
               lits := ⟨[], rfl, rfl⟩ }
      show DiscreteModel.undo_int_event
        (m.domains.set v ({ dom with lb := c }, olit))
        { var := v, ev := DomEvent.NewLB dom.lb c } = m.domains
      exact undo_newlb m.domains v dom olit c hdom
    have hubstep : ∀ m (v : Nat) (c : Int) dom olit,
        m.domains[v]? = some (dom, olit) →
        DMRT m { m with
          domains := m.domains.set v ({ dom with ub := c }, olit),
          trail := m.trail.push { var := v, ev := DomEvent.NewUB dom.ub c } } := by
      intro m v c dom olit hdom
      refine { labels_eq := rfl, binding_eq := rfl, expr_eq := rfl,
               sat_eq := rfl, trail_saved_eq := rfl, lit_saved_eq := rfl,
               ints := ⟨[{ var := v, ev := DomEvent.NewUB dom.ub c }], rfl, ?_⟩,
               lits := ⟨[], rfl, rfl⟩ }
      show DiscreteModel.undo_int_event
        (m.domains.set v ({ dom with ub := c }, olit))
        { var := v, ev := DomEvent.NewUB dom.ub c } = m.domains
      exact undo_newub m.domains v dom olit c hdom
    refine ⟨?_, ?_, ?_⟩
    · intro m lit m' h
      rw [DiscreteModel.set] at h
      cases hv : AList.get m.values lit.var with
      | some prev =>
        simp only [hv] at h
        by_cases hp : prev = !lit.value
        · rw [if_pos hp] at h; cases h
        · rw [if_neg hp] at h
          cases h
          exact DMRT.dm_refl m
      | none =>
        simp only [hv] at h
        have h1 : DMRT m { m with
            values := AList.insert m.values lit.var lit.value,
            lit_trail := m.lit_trail.push lit } := by
          refine { labels_eq := rfl, binding_eq := rfl, expr_eq := rfl,
                   sat_eq := rfl, trail_saved_eq := rfl, lit_saved_eq := rfl,
                   ints := ⟨[], rfl, rfl⟩, lits := ⟨[lit], rfl, ?_⟩ }
          show AList.remove (AList.insert m.values lit.var lit.value) lit.var
            = m.values
          exact AList.remove_insert_of_absent m.values lit.var lit.value hv
        cases hs : AList.get m.sat_to_int lit.var with
        | some int_var =>
          simp only [hs] at h
          by_cases hiv : (lit.value && !int_var.inverted) = true
          · rw [if_pos hiv] at h
            exact DMRT.dm_trans h1 (ihlb _ _ _ _ h)
          · rw [if_neg hiv] at h
            exact DMRT.dm_trans h1 (ihub _ _ _ _ h)
        | none =>
          simp only [hs] at h
          cases h
          exact h1
    · intro m v c m' h
      rw [DiscreteModel.set_lb] at h
      cases hd : m.domains[v]? with
      | none =>
        simp only [hd] at h
        exact Option.noConfusion h
      | some p =>
        obtain ⟨dom, olit⟩ := p
        simp only [hd] at h
        by_cases hc : dom.lb < c
        · rw [if_pos hc] at h
          have h1 := hlbstep m v c dom olit hd
          cases olit with
          | some lit =>
            exact DMRT.dm_trans h1 (ihset _ _ _ h)
          | none =>
            cases h
            exact h1
        · rw [if_neg hc] at h
          cases h
          exact DMRT.dm_refl m
    · intro m v c m' h
      rw [DiscreteModel.set_ub] at h
      cases hd : m.domains[v]? with
      | none =>
        simp only [hd] at h
        exact Option.noConfusion h
      | some p =>
        obtain ⟨dom, olit⟩ := p
        simp only [hd] at h
        by_cases hc : c < dom.ub
        · rw [if_pos hc] at h
          have h1 := hubstep m v c dom olit hd
          cases olit with
          | some lit =>
            exact DMRT.dm_trans h1 (ihset _ _ _ h)
          | none =>
            cases h
            exact h1
        · rw [if_neg hc] at h
          cases h
          exact DMRT.dm_refl m

/-- Applying a sequence of discrete-model operations keeps the
round-trip relation. -/
theorem applyDMOps_rt (fuel : Nat) (ops : List DMOp) :
    ∀ m m', applyDMOps fuel ops m = some m' → DMRT m m' := by
  induction ops with
  | nil =>
    intro m m' h
    simp only [applyDMOps] at h
    cases h
    exact DMRT.dm_refl m
  | cons op rest ih =>
    intro m m' h
    simp only [applyDMOps] at h
    cases op with
    | setOp lit =>
      cases hstep : DiscreteModel.set fuel m lit with
      | none =>
        simp only [hstep] at h
        exact Option.noConfusion h
      | some m₁ =>
        simp only [hstep] at h
        exact DMRT.dm_trans ((dm_ops_rt fuel).1 _ _ _ hstep) (ih _ _ h)
    | setLbOp v lb =>
      cases hstep : DiscreteModel.set_lb fuel m v lb with
      | none =>
        simp only [hstep] at h
        exact Option.noConfusion h
      | some m₁ =>
        simp only [hstep] at h
        exact DMRT.dm_trans ((dm_ops_rt fuel).2.1 _ _ _ _ hstep) (ih _ _ h)
    | setUbOp v ub =>
      cases hstep : DiscreteModel.set_ub fuel m v ub with
      | none =>
        simp only [hstep] at h
        exact Option.noConfusion h
      | some m₁ =>
        simp only [hstep] at h
        exact DMRT.dm_trans ((dm_ops_rt fuel).2.2 _ _ _ _ hstep) (ih _ _ h)

/-- Restoring a trail that was saved at the boundary of `ev₀` pops
exactly the added events `Δ`, most recent first. -/
theorem Q_restore_after {α σ : Type} (ev₀ : List α) (sv₀ : List Nat)
    (Δ : List α) (f : α → σ → σ) (s : σ) :
    Q.restore_last_with ⟨Δ ++ ev₀, ev₀.length :: sv₀⟩ f s =
      some (⟨ev₀, sv₀⟩, Δ.foldl (fun s e => f e s) s) := by
  rw [Q.restore_last_with]
  have hk : (Δ ++ ev₀).length - ev₀.length = Δ.length := by
    rw [List.length_append, Nat.add_sub_cancel]
  simp only
  rw [hk, List.take_left, List.drop_left]

/-- Saving the discrete model, performing any successful sequence of
`set`/`set_lb`/`set_ub` operations, and restoring the last saved state
returns exactly the pre-save model. -/
theorem dm_save_ops_restore (fuel : Nat) (ops : List DMOp)
    (m₀ m₂ : DiscreteModel)
    (h : applyDMOps fuel ops (DiscreteModel.save_state m₀).2 = some m₂) :
    DiscreteModel.restore_last m₂ = some m₀ := by
  have hrt := applyDMOps_rt fuel ops _ _ h
  obtain ⟨Δ, hev, hund⟩ := hrt.ints
  obtain ⟨Λ, hlv, hunl⟩ := hrt.lits
  have hev' : m₂.trail.events = Δ ++ m₀.trail.events := hev
  have hsv : m₂.trail.saved =
      m₀.trail.events.length :: m₀.trail.saved := hrt.trail_saved_eq
  have hlv' : m₂.lit_trail.events = Λ ++ m₀.lit_trail.events := hlv
  have hlsv : m₂.lit_trail.saved =
      m₀.lit_trail.events.length :: m₀.lit_trail.saved := hrt.lit_saved_eq
  have hund' : undoInts Δ m₂.domains = m₀.domains := hund
  have hunl' : undoLits Λ m₂.values = m₀.values := hunl
  have htr : m₂.trail =
      ⟨Δ ++ m₀.trail.events, m₀.trail.events.length :: m₀.trail.saved⟩ := by
    rw [show m₂.trail = ⟨m₂.trail.events, m₂.trail.saved⟩ from rfl, hev', hsv]
  have hltr : m₂.lit_trail =
      ⟨Λ ++ m₀.lit_trail.events,
       m₀.lit_trail.events.length :: m₀.lit_trail.saved⟩ := by
    rw [show m₂.lit_trail = ⟨m₂.lit_trail.events, m₂.lit_trail.saved⟩ from rfl,
      hlv', hlsv]
  have h1 : m₂.trail.restore_last_with
      (fun ev doms => DiscreteModel.undo_int_event doms ev) m₂.domains =
      some (⟨m₀.trail.events, m₀.trail.saved⟩, m₀.domains) := by
    rw [htr, Q_restore_after]
    rw [show (Δ.foldl (fun s e =>
      (fun ev doms => DiscreteModel.undo_int_event doms ev) e s) m₂.domains) =
      undoInts Δ m₂.domains from rfl, hund']
  have h2 : m₂.lit_trail.restore_last_with
      (fun lit values => AList.remove values lit.var) m₂.values =
      some (⟨m₀.lit_trail.events, m₀.lit_trail.saved⟩, m₀.values) := by
    rw [hltr, Q_restore_after]
    rw [show (Λ.foldl (fun s e =>
      (fun lit values => AList.remove values lit.var) e s) m₂.values) =
      undoLits Λ m₂.values from rfl, hunl']
  rw [DiscreteModel.restore_last, h1, h2]
  have hlab : m₂.labels = m₀.labels := hrt.labels_eq
  have hbind : m₂.binding = m₀.binding := hrt.binding_eq
  have hexpr : m₂.expr_binding = m₀.expr_binding := hrt.expr_eq
  have hsat : m₂.sat_to_int = m₀.sat_to_int := hrt.sat_eq
  show some ({ m₂ with
      trail := ⟨m₀.trail.events, m₀.trail.saved⟩,
      domains := m₀.domains,
      lit_trail := ⟨m₀.lit_trail.events, m₀.lit_trail.saved⟩,
      values := m₀.values } : DiscreteModel) = some m₀
  rw [hlab, hbind, hexpr, hsat]

theorem value_congr (m m' : DiscreteModel) (l : Lit)
    (h : AList.get m'.values l.var = AList.get m.values l.var) :
    DiscreteModel.value m' l = DiscreteModel.value m l := by
  rw [DiscreteModel.value, DiscreteModel.value, h]

/-- Two variables bound to literals over the same sat variable
coincide. -/
theorem dmwf_inj {m : DiscreteModel} (hwf : DMWF m) {k₁ k₂ : Nat}
    {l₁ l₂ : Lit} (h₁ : AList.get m.binding k₁ = some l₁)
    (h₂ : AList.get m.binding k₂ = some l₂) (hv : l₁.var = l₂.var) :
    k₁ = k₂ := by
  have e₁ := hwf.w2 k₁ l₁ h₁
  have e₂ := hwf.w2 k₂ l₂ h₂
  rw [hv, e₂] at e₁
  exact congrArg IntOfSatVar.«variable» (Option.some.inj e₁.symm)

/-- Transport of `DMWF` across a value insertion on a sat variable with
no `sat_to_int` entry. -/
theorem DMWF.insert_unbound {m m' : DiscreteModel} (hwf : DMWF m)
    (x : Nat) (val : Bool)
    (hx : AList.get m.sat_to_int x = none)
    (hbind : m'.binding = m.binding)
    (hsat : m'.sat_to_int = m.sat_to_int)
    (hdom : m'.domains = m.domains)
    (hvals : m'.values = AList.insert m.values x val) : DMWF m' := by
  have hvne : ∀ l : Lit, AList.get m.binding l.var = AList.get m.binding l.var →
      True := fun _ _ => trivial
  have hval : ∀ l : Lit, l.var ≠ x →
      DiscreteModel.value m' l = DiscreteModel.value m l := by
    intro l hne
    apply value_congr
    rw [hvals]
    exact AList.get_insert_ne m.values l.var x val hne
  have hnotx : ∀ k l, AList.get m.binding k = some l → l.var ≠ x := by
    intro k l hb he
    have := hwf.w2 k l hb
    rw [he, hx] at this
    cases this
  refine ⟨?_, ?_, ?_, ?_, ?_, ?_⟩
  · intro k lit hb
    rw [hbind] at hb
    rw [hdom]
    exact hwf.w1 k lit hb
  · intro k lit hb
    rw [hbind] at hb
    rw [hsat]
    exact hwf.w2 k lit hb
  · intro y rep hr
    rw [hsat] at hr
    rw [hbind]
    exact hwf.w3 y rep hr
  · intro k dom lit hd
    rw [hdom] at hd
    rw [hbind]
    exact hwf.w4 k dom lit hd
  · intro k lit dom olit hb hd
    rw [hbind] at hb
    rw [hdom] at hd
    rw [hval lit (hnotx k lit hb)]
    exact hwf.w5 k lit dom olit hb hd
  · intro k lit dom olit hb hd hnone
    rw [hbind] at hb
    rw [hdom] at hd
    rw [hval lit (hnotx k lit hb)] at hnone
    exact hwf.w6 k lit dom olit hb hd hnone

/-- Transport of `DMWF` across an update of one bound pair, given the
sync conditions hold for that pair in the new state. -/
theorem DMWF.update_bound {m m' : DiscreteModel} (hwf : DMWF m)
    (v : Nat) (l : Lit) (dom dom' : IntDomain)
    (hbv : AList.get m.binding v = some l)
    (hdomv : m.domains[v]? = some (dom, some l))
    (hbind : m'.binding = m.binding)
    (hsat : m'.sat_to_int = m.sat_to_int)
    (hdom : m'.domains = m.domains.set v (dom', some l))
    (hvals : m'.values = m.values ∨
      (AList.get m.values l.var = none ∧
       ∃ vnew, m'.values = AList.insert m.values l.var vnew))
    (hw5 : (DiscreteModel.value m' l = some true → 1 ≤ dom'.lb) ∧
           (DiscreteModel.value m' l = some false → dom'.ub ≤ 0))
    (hw6 : DiscreteModel.value m' l = none → dom'.lb < 1 ∧ 0 < dom'.ub) :
    DMWF m' := by
  have hvlen : v < m.domains.length := by
    by_contra hn
    rw [List.getElem?_eq_none (Nat.le_of_not_lt hn)] at hdomv
    cases hdomv
  have hdomv' : m'.domains[v]? = some (dom', some l) := by
    rw [hdom]
    exact List.getElem?_set_eq_of_lt _ hvlen
  have hdomne : ∀ k, k ≠ v → m'.domains[k]? = m.domains[k]? := by
    intro k hk
    rw [hdom, List.getElem?_set, if_neg (fun h : v = k => hk h.symm)]
  have hvalne : ∀ l₂ : Lit, l₂.var ≠ l.var →
      DiscreteModel.value m' l₂ = DiscreteModel.value m l₂ := by
    intro l₂ hne
    apply value_congr
    rcases hvals with hv | ⟨_, vnew, hv⟩
    · rw [hv]
    · rw [hv]
      exact AList.get_insert_ne m.values l₂.var l.var vnew hne
  have hbuniq : ∀ l₂, AList.get m.binding v = some l₂ → l₂ = l := by
    intro l₂ h₂
    rw [hbv] at h₂
    exact (Option.some.inj h₂).symm
  have hvar_ne : ∀ k₂ l₂, k₂ ≠ v → AList.get m.binding k₂ = some l₂ →
      l₂.var ≠ l.var := by
    intro k₂ l₂ hk hb₂ he
    exact hk (dmwf_inj hwf hb₂ hbv he)
  refine ⟨?_, ?_, ?_, ?_, ?_, ?_⟩
  · intro k lit hb
    rw [hbind] at hb
    by_cases hk : k = v
    · subst hk
      rw [hbuniq lit hb]
      exact ⟨dom', hdomv'⟩
    · rw [hdomne k hk]
      exact hwf.w1 k lit hb
  · intro k lit hb
    rw [hbind] at hb
    rw [hsat]
    exact hwf.w2 k lit hb
  · intro y rep hr
    rw [hsat] at hr
    rw [hbind]
    exact hwf.w3 y rep hr
  · intro k d lit hd
    rw [hbind]
    by_cases hk : k = v
    · subst hk
      rw [hdomv'] at hd
      rw [hbv, (Prod.mk.injEq _ _ _ _).mp (Option.some.inj hd) |>.2]
    · rw [hdomne k hk] at hd
      exact hwf.w4 k d lit hd
  · intro k lit d olit hb hd
    rw [hbind] at hb
    by_cases hk : k = v
    · subst hk
      have hl := hbuniq lit hb
      subst hl
      rw [hdomv'] at hd
      have hdd := ((Prod.mk.injEq _ _ _ _).mp (Option.some.inj hd)).1
      rw [← hdd]
      exact hw5
    · rw [hdomne k hk] at hd
      rw [hvalne lit (hvar_ne k lit hk hb)]
      exact hwf.w5 k lit d olit hb hd
  · intro k lit d olit hb hd hnone
    rw [hbind] at hb
    by_cases hk : k = v
    · subst hk
      have hl := hbuniq lit hb
      subst hl
      rw [hdomv'] at hd
      have hdd := ((Prod.mk.injEq _ _ _ _).mp (Option.some.inj hd)).1
      rw [← hdd]
      exact hw6 hnone
    · rw [hdomne k hk] at hd
      rw [hvalne lit (hvar_ne k lit hk hb)] at hnone
      exact hwf.w6 k lit d olit hb hd hnone

/-- Transport of `DMWF` across a domain update of an unbound
variable. -/
theorem DMWF.update_unbound {m m' : DiscreteModel} (hwf : DMWF m)
    (v : Nat) (dom dom' : IntDomain)
    (hdomv : m.domains[v]? = some (dom, Option.none))
    (hbind : m'.binding = m.binding)
    (hsat : m'.sat_to_int = m.sat_to_int)
    (hdom : m'.domains = m.domains.set v (dom', Option.none))
    (hvals : m'.values = m.values) : DMWF m' := by
  have hvlen : v < m.domains.length := by
    by_contra hn
    rw [List.getElem?_eq_none (Nat.le_of_not_lt hn)] at hdomv
    cases hdomv
  have hdomv' : m'.domains[v]? = some (dom', Option.none) := by
    rw [hdom]
    exact List.getElem?_set_eq_of_lt _ hvlen
  have hdomne : ∀ k, k ≠ v → m'.domains[k]? = m.domains[k]? := by
    intro k hk
    rw [hdom, List.getElem?_set, if_neg (fun h : v = k => hk h.symm)]
  have hknv : ∀ k (lit : Lit), AList.get m.binding k = some lit → k ≠ v := by
    intro k lit hb hk
    subst hk
    obtain ⟨d, hd⟩ := hwf.w1 k lit hb
    rw [hdomv] at hd
    cases ((Prod.mk.injEq _ _ _ _).mp (Option.some.inj hd)).2
  have hval : ∀ l₂ : Lit,
      DiscreteModel.value m' l₂ = DiscreteModel.value m l₂ := by
    intro l₂
    apply value_congr
    rw [hvals]
  refine ⟨?_, ?_, ?_, ?_, ?_, ?_⟩
  · intro k lit hb
    rw [hbind] at hb
    rw [hdomne k (hknv k lit hb)]
    exact hwf.w1 k lit hb
  · intro k lit hb
    rw [hbind] at hb
    rw [hsat]
    exact hwf.w2 k lit hb
  · intro y rep hr
    rw [hsat] at hr
    rw [hbind]
    exact hwf.w3 y rep hr
  · intro k d lit hd
    rw [hbind]
    by_cases hk : k = v
    · subst hk
      rw [hdomv'] at hd
      cases ((Prod.mk.injEq _ _ _ _).mp (Option.some.inj hd)).2
    · rw [hdomne k hk] at hd
      exact hwf.w4 k d lit hd
  · intro k lit d olit hb hd
    rw [hbind] at hb
    rw [hdomne k (hknv k lit hb)] at hd
    rw [hval lit]
    exact hwf.w5 k lit d olit hb hd
  · intro k lit d olit hb hd hnone
    rw [hbind] at hb
    rw [hdomne k (hknv k lit hb)] at hd
    rw [hval lit] at hnone
    exact hwf.w6 k lit d olit hb hd hnone

theorem set_noop (f : Nat) (m : DiscreteModel) (l : Lit)
    (h : AList.get m.values l.var = some l.value) :
    DiscreteModel.set (f + 1) m l = some m := by
  rw [DiscreteModel.set]
  simp only [h]
  rw [if_neg]
  cases l.value <;> simp

theorem set_panic (f : Nat) (m : DiscreteModel) (l : Lit)
    (h : AList.get m.values l.var = some (!l.value)) :
    DiscreteModel.set (f + 1) m l = none := by
  rw [DiscreteModel.set]
  simp only [h]
  simp

theorem set_lb_noop (f : Nat) (m : DiscreteModel) (v : Nat) (c : Int)
    (dom : IntDomain) (olit : Option Lit)
    (hd : m.domains[v]? = some (dom, olit)) (hc : ¬ dom.lb < c) :
    DiscreteModel.set_lb (f + 1) m v c = some m := by
  rw [DiscreteModel.set_lb]
  simp only [hd]
  rw [if_neg hc]

theorem set_ub_noop (f : Nat) (m : DiscreteModel) (v : Nat) (c : Int)
    (dom : IntDomain) (olit : Option Lit)
    (hd : m.domains[v]? = some (dom, olit)) (hc : ¬ c < dom.ub) :
    DiscreteModel.set_ub (f + 1) m v c = some m := by
  rw [DiscreteModel.set_ub]
  simp only [hd]
  rw [if_neg hc]

theorem set_lb_step (f : Nat) (m : DiscreteModel) (v : Nat) (c : Int)
    (dom : IntDomain) (l : Lit)
    (hd : m.domains[v]? = some (dom, some l))
    (hv : AList.get m.values l.var = some l.value) (hc : dom.lb < c) :
    DiscreteModel.set_lb (f + 2) m v c = some (lbUpd m v dom (some l) c) := by
  rw [DiscreteModel.set_lb]
  simp only [hd]
  rw [if_pos hc]
  exact set_noop f (lbUpd m v dom (some l) c) l hv

theorem set_lb_panic (f : Nat) (m : DiscreteModel) (v : Nat) (c : Int)
    (dom : IntDomain) (l : Lit)
    (hd : m.domains[v]? = some (dom, some l))
    (hv : AList.get m.values l.var = some (!l.value)) (hc : dom.lb < c) :
    DiscreteModel.set_lb (f + 2) m v c = none := by
  rw [DiscreteModel.set_lb]
  simp only [hd]
  rw [if_pos hc]
  exact set_panic f (lbUpd m v dom (some l) c) l hv

theorem set_ub_step (f : Nat) (m : DiscreteModel) (v : Nat) (c : Int)
    (dom : IntDomain) (l : Lit)
    (hd : m.domains[v]? = some (dom, some l))
    (hv : AList.get m.values l.var = some (!l.value)) (hc : c < dom.ub) :
    DiscreteModel.set_ub (f + 2) m v c = some (ubUpd m v dom (some l) c) := by
  rw [DiscreteModel.set_ub]
  simp only [hd]
  rw [if_pos hc]
  have : AList.get (ubUpd m v dom (some l) c).values (Lit.not l).var =
      some (Lit.not l).value := hv
  exact set_noop f (ubUpd m v dom (some l) c) (Lit.not l) this

theorem set_ub_panic (f : Nat) (m : DiscreteModel) (v : Nat) (c : Int)
    (dom : IntDomain) (l : Lit)
    (hd : m.domains[v]? = some (dom, some l))
    (hv : AList.get m.values l.var = some l.value) (hc : c < dom.ub) :
    DiscreteModel.set_ub (f + 2) m v c = none := by
  rw [DiscreteModel.set_ub]
  simp only [hd]
  rw [if_pos hc]
  have : AList.get (ubUpd m v dom (some l) c).values (Lit.not l).var =
      some (!(Lit.not l).value) := by
    show AList.get m.values l.var = some (!(!l.value))
    rw [Bool.not_not]
    exact hv
  exact set_panic f (ubUpd m v dom (some l) c) (Lit.not l) this

theorem set_lb_fuel_one (m : DiscreteModel) (v : Nat) (c : Int)
    (dom : IntDomain) (l : Lit)
    (hd : m.domains[v]? = some (dom, some l)) (hc : dom.lb < c) :
    DiscreteModel.set_lb 1 m v c = none := by
  rw [DiscreteModel.set_lb]
  simp only [hd]
  rw [if_pos hc]
  rw [DiscreteModel.set]

theorem set_ub_fuel_one (m : DiscreteModel) (v : Nat) (c : Int)
    (dom : IntDomain) (l : Lit)
    (hd : m.domains[v]? = some (dom, some l)) (hc : c < dom.ub) :
    DiscreteModel.set_ub 1 m v c = none := by
  rw [DiscreteModel.set_ub]
  simp only [hd]
  rw [if_pos hc]
  rw [DiscreteModel.set]

/-- `value` of the entry literal after recording it. -/
theorem value_valIns (m : DiscreteModel) (l : Lit) :
    DiscreteModel.value (valIns m l) l = some true := by
  rw [DiscreteModel.value]
  show ((AList.insert m.values l.var l.value).get l.var).map _ = _
  rw [AList.get_insert_self]
  cases hl : l.value <;> simp

/-- A successful top-level `set_lb` preserves `DMWF`. -/
theorem dm_wf_set_lb (fuel : Nat) (m : DiscreteModel) (v : Nat) (c : Int)
    (m' : DiscreteModel) (hwf : DMWF m)
    (h : DiscreteModel.set_lb fuel m v c = some m') : DMWF m' := by
  match fuel with
  | 0 =>
    simp only [DiscreteModel.set_lb] at h
    exact Option.noConfusion h
  | f + 1 =>
    rw [DiscreteModel.set_lb] at h
    cases hd : m.domains[v]? with
    | none =>
      simp only [hd] at h
      exact Option.noConfusion h
    | some p =>
      obtain ⟨dom, olit⟩ := p
      simp only [hd] at h
      by_cases hc : dom.lb < c
      case neg =>
        rw [if_neg hc] at h
        cases h
        exact hwf
      case pos =>
        rw [if_pos hc] at h
        cases olit with
        | none =>
          cases h
          exact DMWF.update_unbound hwf v dom { dom with lb := c }
            hd rfl rfl rfl rfl
        | some l =>
          have hbv : AList.get m.binding v = some l := hwf.w4 v dom l hd
          replace h : DiscreteModel.set f (lbUpd m v dom (some l) c) l =
            some m' := h
          match f with
          | 0 =>
            simp only [DiscreteModel.set] at h
            exact Option.noConfusion h
          | f₂ + 1 =>
            rw [DiscreteModel.set] at h
            rw [show (lbUpd m v dom (some l) c).values = m.values from rfl,
              show (lbUpd m v dom (some l) c).sat_to_int = m.sat_to_int
                from rfl] at h
            cases hv : AList.get m.values l.var with
            | some prev =>
              simp only [hv] at h
              by_cases hp : prev = !l.value
              · rw [if_pos hp] at h
                exact Option.noConfusion h
              · rw [if_neg hp] at h
                cases h
                have hpv : prev = l.value := by
                  cases prev <;> cases hl : l.value <;> simp_all
                have hvt : DiscreteModel.value m l = some true := by
                  rw [DiscreteModel.value, hv, hpv]
                  cases l.value <;> simp
                have h1c : (1 : Int) ≤ c :=
                  le_trans ((hwf.w5 v l dom (some l) hbv hd).1 hvt)
                    (le_of_lt hc)
                refine DMWF.update_bound hwf v l dom { dom with lb := c }
                  hbv hd rfl rfl rfl (Or.inl rfl) ⟨?_, ?_⟩ ?_
                · intro _; exact h1c
                · intro hf
                  have : DiscreteModel.value
                      (lbUpd m v dom (some l) c) l =
                      DiscreteModel.value m l := by
                    apply value_congr; rfl
                  rw [this, hvt] at hf
                  cases hf
                · intro hn
                  have : DiscreteModel.value
                      (lbUpd m v dom (some l) c) l =
                      DiscreteModel.value m l := by
                    apply value_congr; rfl
                  rw [this, hvt] at hn
                  cases hn
            | none =>
              simp only [hv] at h
              have hsat : AList.get m.sat_to_int l.var =
                  some { «variable» := v, inverted := !l.value } :=
                hwf.w2 v l hbv
              simp only [hsat] at h
              have hvnone : DiscreteModel.value m l = none := by
                rw [DiscreteModel.value, hv]; rfl
              obtain ⟨hlb1, hub0⟩ := hwf.w6 v l dom (some l) hbv hd hvnone
              have hM2dom : (valIns (lbUpd m v dom (some l) c) l).domains[v]? =
                  some ({ dom with lb := c }, some l) := by
                show (m.domains.set v ({ dom with lb := c }, some l))[v]? = _
                apply List.getElem?_set_eq_of_lt
                by_contra hn
                rw [List.getElem?_eq_none (Nat.le_of_not_lt hn)] at hd
                cases hd
              have hM2val : AList.get
                  (valIns (lbUpd m v dom (some l) c) l).values l.var =
                  some l.value := AList.get_insert_self _ _ _
              have hcond : ((l.value && !!l.value) = true) ↔ (l.value = true) := by
                cases l.value <;> simp
              have hM2val : AList.get
                  (valIns (lbUpd m v dom (some l) c) l).values l.var =
                  some l.value := AList.get_insert_self m.values l.var l.value
              by_cases hlval : l.value = true
              · rw [if_pos (hcond.mpr hlval)] at h
                replace h : DiscreteModel.set_lb f₂
                    (valIns (lbUpd m v dom (some l) c) l) v 1 = some m' := h
                by_cases h1 : ({ dom with lb := c } : IntDomain).lb < 1
                · match f₂ with
                  | 0 =>
                    simp only [DiscreteModel.set_lb] at h
                    exact Option.noConfusion h
                  | 1 =>
                    rw [set_lb_fuel_one _ _ _ _ l hM2dom h1] at h
                    exact Option.noConfusion h
                  | f₃ + 2 =>
                    rw [set_lb_step f₃ _ _ _ _ l hM2dom hM2val h1] at h
                    cases h
                    have hvt : DiscreteModel.value
                        (lbUpd (valIns (lbUpd m v dom (some l) c) l) v
                          { dom with lb := c } (some l) 1) l = some true := by
                      rw [DiscreteModel.value]
                      show ((AList.insert m.values l.var l.value).get l.var).map _ = _
                      rw [AList.get_insert_self, hlval]
                      simp
                    refine DMWF.update_bound hwf v l dom { dom with lb := 1 }
                      hbv hd rfl rfl ?_ (Or.inr ⟨hv, l.value, rfl⟩) ⟨?_, ?_⟩ ?_
                    · show (m.domains.set v ({ dom with lb := c }, some l)).set v _ = _
                      rw [List.set_set]
                    · intro _; exact le_refl 1
                    · intro hf
                      rw [hvt] at hf
                      cases hf
                    · intro hn
                      rw [hvt] at hn
                      cases hn
                · match f₂ with
                  | 0 =>
                    simp only [DiscreteModel.set_lb] at h
                    exact Option.noConfusion h
                  | f₃ + 1 =>
                    rw [set_lb_noop f₃ _ _ _ _ (some l) hM2dom h1] at h
                    cases h
                    have hvt : DiscreteModel.value
                        (valIns (lbUpd m v dom (some l) c) l) l = some true := by
                      rw [DiscreteModel.value]
                      show ((AList.insert m.values l.var l.value).get l.var).map _ = _
                      rw [AList.get_insert_self, hlval]
                      simp
                    refine DMWF.update_bound hwf v l dom { dom with lb := c }
                      hbv hd rfl rfl rfl (Or.inr ⟨hv, l.value, rfl⟩) ⟨?_, ?_⟩ ?_
                    · intro _
                      show (1 : Int) ≤ c
                      have : ¬ c < 1 := h1
                      omega
                    · intro hf
                      rw [hvt] at hf
                      cases hf
                    · intro hn
                      rw [hvt] at hn
                      cases hn
              · rw [if_neg (fun hcc => hlval (hcond.mp hcc))] at h
                replace h : DiscreteModel.set_ub f₂
                    (valIns (lbUpd m v dom (some l) c) l) v 0 = some m' := h
                have hlv : l.value = false := by
                  cases hb : l.value
                  · rfl
                  · exact absurd hb hlval
                have hub : (0 : Int) < ({ dom with lb := c } : IntDomain).ub := hub0
                match f₂ with
                | 0 =>
                  simp only [DiscreteModel.set_ub] at h
                  exact Option.noConfusion h
                | 1 =>
                  rw [set_ub_fuel_one _ _ _ _ l hM2dom hub] at h
                  exact Option.noConfusion h
                | f₃ + 2 =>
                  rw [set_ub_panic f₃ _ _ _ _ l hM2dom hM2val hub] at h
                  exact Option.noConfusion h

/-- A successful top-level `set_ub` preserves `DMWF`. -/
theorem dm_wf_set_ub (fuel : Nat) (m : DiscreteModel) (v : Nat) (c : Int)
    (m' : DiscreteModel) (hwf : DMWF m)
    (h : DiscreteModel.set_ub fuel m v c = some m') : DMWF m' := by
  match fuel with
  | 0 =>
    simp only [DiscreteModel.set_ub] at h
    exact Option.noConfusion h
  | f + 1 =>
    rw [DiscreteModel.set_ub] at h
    cases hd : m.domains[v]? with
    | none =>
      simp only [hd] at h
      exact Option.noConfusion h
    | some p =>
      obtain ⟨dom, olit⟩ := p
      simp only [hd] at h
      by_cases hc : c < dom.ub
      case neg =>
        rw [if_neg hc] at h
        cases h
        exact hwf
      case pos =>
        rw [if_pos hc] at h
        cases olit with
        | none =>
          cases h
          exact DMWF.update_unbound hwf v dom { dom with ub := c }
            hd rfl rfl rfl rfl
        | some l =>
          have hbv : AList.get m.binding v = some l := hwf.w4 v dom l hd
          replace h : DiscreteModel.set f (ubUpd m v dom (some l) c)
            (Lit.not l) = some m' := h
          match f with
          | 0 =>
            simp only [DiscreteModel.set] at h
            exact Option.noConfusion h
          | f₂ + 1 =>
            rw [DiscreteModel.set] at h
            rw [show (ubUpd m v dom (some l) c).values = m.values from rfl,
              show (ubUpd m v dom (some l) c).sat_to_int = m.sat_to_int
                from rfl] at h
            rw [show (Lit.not l).var = l.var from rfl] at h
            cases hv : AList.get m.values l.var with
            | some prev =>
              simp only [hv] at h
              by_cases hp : prev = !(Lit.not l).value
              · rw [if_pos hp] at h
                exact Option.noConfusion h
              · rw [if_neg hp] at h
                cases h
                have hpv : prev = !l.value := by
                  have : (Lit.not l).value = !l.value := rfl
                  rw [this, Bool.not_not] at hp
                  cases prev <;> cases hl : l.value <;> simp_all
                have hvf : DiscreteModel.value m l = some false := by
                  rw [DiscreteModel.value, hv, hpv]
                  cases l.value <;> simp
                have hub0 : dom.ub ≤ 0 :=
                  (hwf.w5 v l dom (some l) hbv hd).2 hvf
                have hc0 : c ≤ 0 := le_of_lt (lt_of_lt_of_le hc hub0)
                refine DMWF.update_bound hwf v l dom { dom with ub := c }
                  hbv hd rfl rfl rfl (Or.inl rfl) ⟨?_, ?_⟩ ?_
                · intro hf
                  have heq : DiscreteModel.value
                      (ubUpd m v dom (some l) c) l =
                      DiscreteModel.value m l := by
                    apply value_congr; rfl
                  rw [heq, hvf] at hf
                  cases hf
                · intro _; exact hc0
                · intro hn
                  have heq : DiscreteModel.value
                      (ubUpd m v dom (some l) c) l =
                      DiscreteModel.value m l := by
                    apply value_congr; rfl
                  rw [heq, hvf] at hn
                  cases hn
            | none =>
              simp only [hv] at h
              have hsat : AList.get m.sat_to_int l.var =
                  some { «variable» := v, inverted := !l.value } :=
                hwf.w2 v l hbv
              simp only [hsat] at h
              have hvnone : DiscreteModel.value m l = none := by
                rw [DiscreteModel.value, hv]; rfl
              obtain ⟨hlb1, hub0⟩ := hwf.w6 v l dom (some l) hbv hd hvnone
              have hcondf : ((Lit.not l).value && !(!l.value)) = false := by
                show (!l.value && !(!l.value)) = false
                cases l.value <;> rfl
              rw [if_neg (fun hcc =>
                Bool.false_ne_true (hcondf.symm.trans hcc))] at h
              replace h : DiscreteModel.set_ub f₂
                  (valIns (ubUpd m v dom (some l) c) (Lit.not l)) v 0 =
                    some m' := h
              have hM2dom : (valIns (ubUpd m v dom (some l) c)
                  (Lit.not l)).domains[v]? =
                  some ({ dom with ub := c }, some l) := by
                show (m.domains.set v ({ dom with ub := c }, some l))[v]? = _
                apply List.getElem?_set_eq_of_lt
                by_contra hn
                rw [List.getElem?_eq_none (Nat.le_of_not_lt hn)] at hd
                cases hd
              have hM2val : AList.get (valIns (ubUpd m v dom (some l) c)
                  (Lit.not l)).values l.var = some (!l.value) :=
                AList.get_insert_self m.values l.var (!l.value)
              by_cases h0 : (0 : Int) < ({ dom with ub := c } : IntDomain).ub
              · match f₂ with
                | 0 =>
                  simp only [DiscreteModel.set_ub] at h
                  exact Option.noConfusion h
                | 1 =>
                  rw [set_ub_fuel_one _ _ _ _ l hM2dom h0] at h
                  exact Option.noConfusion h
                | f₃ + 2 =>
                  rw [set_ub_step f₃ _ _ _ _ l hM2dom hM2val h0] at h
                  cases h
                  have hvf : DiscreteModel.value
                      (ubUpd (valIns (ubUpd m v dom (some l) c) (Lit.not l)) v
                        { dom with ub := c } (some l) 0) l = some false := by
                    rw [DiscreteModel.value]
                    show ((AList.insert m.values l.var (!l.value)).get l.var).map _ = _
                    rw [AList.get_insert_self]
                    cases l.value <;> simp
                  refine DMWF.update_bound hwf v l dom { dom with ub := 0 }
                    hbv hd rfl rfl ?_ (Or.inr ⟨hv, !l.value, rfl⟩) ⟨?_, ?_⟩ ?_
                  · show (m.domains.set v ({ dom with ub := c }, some l)).set v _ = _
                    rw [List.set_set]
                  · intro hf
                    rw [hvf] at hf
                    cases hf
                  · intro _; exact le_refl 0
                  · intro hn
                    rw [hvf] at hn
                    cases hn
              · match f₂ with
                | 0 =>
                  simp only [DiscreteModel.set_ub] at h
                  exact Option.noConfusion h
                | f₃ + 1 =>
                  rw [set_ub_noop f₃ _ _ _ _ (some l) hM2dom h0] at h
                  cases h
                  have hvf : DiscreteModel.value
                      (valIns (ubUpd m v dom (some l) c) (Lit.not l)) l =
                      some false := by
                    rw [DiscreteModel.value]
                    show ((AList.insert m.values l.var (!l.value)).get l.var).map _ = _
                    rw [AList.get_insert_self]
                    cases l.value <;> simp
                  refine DMWF.update_bound hwf v l dom { dom with ub := c }
                    hbv hd rfl rfl rfl (Or.inr ⟨hv, !l.value, rfl⟩) ⟨?_, ?_⟩ ?_
                  · intro hf
                    rw [hvf] at hf
                    cases hf
                  · intro _
                    show c ≤ 0
                    have : ¬ (0 : Int) < c := h0
                    omega
                  · intro hn
                    rw [hvf] at hn
                    cases hn

/-- A successful top-level `set` preserves `DMWF`. -/
theorem dm_wf_set (fuel : Nat) (m : DiscreteModel) (l₀ : Lit)
    (m' : DiscreteModel) (hwf : DMWF m)
    (h : DiscreteModel.set fuel m l₀ = some m') : DMWF m' := by
  match fuel with
  | 0 =>
    simp only [DiscreteModel.set] at h
    exact Option.noConfusion h
  | f + 1 =>
    rw [DiscreteModel.set] at h
    cases hv : AList.get m.values l₀.var with
    | some prev =>
      simp only [hv] at h
      by_cases hp : prev = !l₀.value
      · rw [if_pos hp] at h
        exact Option.noConfusion h
      · rw [if_neg hp] at h
        cases h
        exact hwf
    | none =>
      simp only [hv] at h
      cases hs : AList.get m.sat_to_int l₀.var with
      | none =>
        simp only [hs] at h
        cases h
        exact DMWF.insert_unbound hwf l₀.var l₀.value hs rfl rfl rfl rfl
      | some rep =>
        simp only [hs] at h
        obtain ⟨l, hbl, hlvar⟩ := hwf.w3 l₀.var rep hs
        cases rep with
        | mk vr rinv =>
          have hrinv : rinv = !l.value := by
            have h2 := hwf.w2 vr l hbl
            rw [hlvar, hs] at h2
            simp only [Option.some.injEq, IntOfSatVar.mk.injEq] at h2
            exact h2.2
          obtain ⟨dom, hdomv⟩ := hwf.w1 vr l hbl
          replace h : (if (l₀.value && !rinv) = true then
              DiscreteModel.set_lb f (valIns m l₀) vr 1
            else
              DiscreteModel.set_ub f (valIns m l₀) vr 0) = some m' := h
          have hM2dom : (valIns m l₀).domains[vr]? = some (dom, some l) :=
            hdomv
          have hM2val : AList.get (valIns m l₀).values l₀.var =
              some l₀.value := AList.get_insert_self m.values l₀.var l₀.value
          have hvnone : DiscreteModel.value m l = none := by
            rw [DiscreteModel.value, hlvar, hv]; rfl
          obtain ⟨hlb1, hub0⟩ := hwf.w6 vr l dom (some l) hbl hdomv hvnone
          have hvalsne : AList.get m.values l.var = none := by
            rw [hlvar]; exact hv
          have hselfset : m.domains.set vr (dom, some l) = m.domains :=
            list_set_of_getElem _ _ _ hdomv
          have hcond : ((l₀.value && !rinv) = true) ↔
              (l₀.value && l.value) = true := by
            rw [hrinv]
            cases l.value <;> cases l₀.value <;> simp
          by_cases hbt : (l₀.value && l.value) = true
          · rw [if_pos (hcond.mpr hbt)] at h
            obtain ⟨h0t, hlt⟩ : l₀.value = true ∧ l.value = true := by
              simpa using hbt
            have hM2vall : AList.get (valIns m l₀).values l.var =
                some l.value := by
              rw [hlvar, hM2val, h0t, hlt]
            by_cases h1 : dom.lb < 1
            · match f with
              | 0 =>
                simp only [DiscreteModel.set_lb] at h
                exact Option.noConfusion h
              | 1 =>
                rw [set_lb_fuel_one _ _ _ _ l hM2dom h1] at h
                exact Option.noConfusion h
              | f₃ + 2 =>
                rw [set_lb_step f₃ _ _ _ _ l hM2dom hM2vall h1] at h
                cases h
                have hvt : DiscreteModel.value
                    (lbUpd (valIns m l₀) vr dom (some l) 1) l = some true := by
                  rw [DiscreteModel.value]
                  show ((AList.insert m.values l₀.var l₀.value).get l.var).map _ = _
                  rw [hlvar, AList.get_insert_self, h0t, hlt]
                  rfl
                refine DMWF.update_bound hwf vr l dom { dom with lb := 1 }
                  hbl hdomv rfl rfl ?_
                  (Or.inr ⟨hvalsne, l₀.value, by rw [hlvar]; exact rfl⟩) ⟨?_, ?_⟩ ?_
                · show (valIns m l₀).domains.set vr ({ dom with lb := 1 }, some l) = _
                  rfl
                · intro _; exact le_refl 1
                · intro hf
                  rw [hvt] at hf
                  cases hf
                · intro hn
                  rw [hvt] at hn
                  cases hn
            · match f with
              | 0 =>
                simp only [DiscreteModel.set_lb] at h
                exact Option.noConfusion h
              | f₃ + 1 =>
                rw [set_lb_noop f₃ _ _ _ _ (some l) hM2dom h1] at h
                cases h
                have hvt : DiscreteModel.value (valIns m l₀) l = some true := by
                  rw [DiscreteModel.value]
                  show ((AList.insert m.values l₀.var l₀.value).get l.var).map _ = _
                  rw [hlvar, AList.get_insert_self, h0t, hlt]
                  rfl
                refine DMWF.update_bound hwf vr l dom dom
                  hbl hdomv rfl rfl hselfset.symm
                  (Or.inr ⟨hvalsne, l₀.value, by rw [hlvar]; exact rfl⟩) ⟨?_, ?_⟩ ?_
                · intro _
                  show (1 : Int) ≤ dom.lb
                  omega
                · intro hf
                  rw [hvt] at hf
                  cases hf
                · intro hn
                  rw [hvt] at hn
                  cases hn
          · rw [if_neg (fun hcc => hbt (hcond.mp hcc))] at h
            by_cases hlf : l.value = true
            · have h0f : l₀.value = false := by
                cases hb : l₀.value
                · rfl
                · exact absurd (by rw [hb, hlf]; rfl) hbt
              have hM2vall : AList.get (valIns m l₀).values l.var =
                  some (!l.value) := by
                rw [hlvar, hM2val, h0f, hlf]
                rfl
              match f with
              | 0 =>
                simp only [DiscreteModel.set_ub] at h
                exact Option.noConfusion h
              | 1 =>
                rw [set_ub_fuel_one _ _ _ _ l hM2dom hub0] at h
                exact Option.noConfusion h
              | f₃ + 2 =>
                rw [set_ub_step f₃ _ _ _ _ l hM2dom hM2vall hub0] at h
                cases h
                have hvf : DiscreteModel.value
                    (ubUpd (valIns m l₀) vr dom (some l) 0) l = some false := by
                  rw [DiscreteModel.value]
                  show ((AList.insert m.values l₀.var l₀.value).get l.var).map _ = _
                  rw [hlvar, AList.get_insert_self, h0f, hlf]
                  rfl
                refine DMWF.update_bound hwf vr l dom { dom with ub := 0 }
                  hbl hdomv rfl rfl rfl
                  (Or.inr ⟨hvalsne, l₀.value, by rw [hlvar]; exact rfl⟩) ⟨?_, ?_⟩ ?_
                · intro hf
                  rw [hvf] at hf
                  cases hf
                · intro _; exact le_refl 0
                · intro hn
                  rw [hvf] at hn
                  cases hn
            · have hlv : l.value = false := by
                cases hb : l.value
                · rfl
                · exact absurd hb hlf
              by_cases h0t : l₀.value = true
              · have hM2vall : AList.get (valIns m l₀).values l.var =
                    some (!l.value) := by
                  rw [hlvar, hM2val, h0t, hlv]
                  rfl
                match f with
                | 0 =>
                  simp only [DiscreteModel.set_ub] at h
                  exact Option.noConfusion h
                | 1 =>
                  rw [set_ub_fuel_one _ _ _ _ l hM2dom hub0] at h
                  exact Option.noConfusion h
                | f₃ + 2 =>
                  rw [set_ub_step f₃ _ _ _ _ l hM2dom hM2vall hub0] at h
                  cases h
                  have hvf : DiscreteModel.value
                      (ubUpd (valIns m l₀) vr dom (some l) 0) l =
                      some false := by
                    rw [DiscreteModel.value]
                    show ((AList.insert m.values l₀.var l₀.value).get l.var).map _ = _
                    rw [hlvar, AList.get_insert_self, h0t, hlv]
                    rfl
                  refine DMWF.update_bound hwf vr l dom { dom with ub := 0 }
                    hbl hdomv rfl rfl rfl
                    (Or.inr ⟨hvalsne, l₀.value, by rw [hlvar]; exact rfl⟩) ⟨?_, ?_⟩ ?_
                  · intro hf
                    rw [hvf] at hf
                    cases hf
                  · intro _; exact le_refl 0
                  · intro hn
                    rw [hvf] at hn
                    cases hn
              · have h0f : l₀.value = false := by
                  cases hb : l₀.value
                  · rfl
                  · exact absurd hb h0t
                have hM2vall : AList.get (valIns m l₀).values l.var =
                    some l.value := by
                  rw [hlvar, hM2val, h0f, hlv]
                match f with
                | 0 =>
                  simp only [DiscreteModel.set_ub] at h
                  exact Option.noConfusion h
                | 1 =>
                  rw [set_ub_fuel_one _ _ _ _ l hM2dom hub0] at h
                  exact Option.noConfusion h
                | f₃ + 2 =>
                  rw [set_ub_panic f₃ _ _ _ _ l hM2dom hM2vall hub0] at h
                  exact Option.noConfusion h

/-- Applying a sequence of discrete-model operations preserves
well-formedness. -/
theorem applyDMOps_wf (fuel : Nat) (ops : List DMOp) :
    ∀ m m', DMWF m → applyDMOps fuel ops m = some m' → DMWF m' := by
  induction ops with
  | nil =>
    intro m m' hwf h
    simp only [applyDMOps] at h
    cases h
    exact hwf
  | cons op rest ih =>
    intro m m' hwf h
    simp only [applyDMOps] at h
    cases op with
    | setOp lit =>
      cases hstep : DiscreteModel.set fuel m lit with
      | none =>
        simp only [hstep] at h
        exact Option.noConfusion h
      | some m₁ =>
        simp only [hstep] at h
        exact ih m₁ m' (dm_wf_set fuel m lit m₁ hwf hstep) h
    | setLbOp v lb =>
      cases hstep : DiscreteModel.set_lb fuel m v lb with
      | none =>
        simp only [hstep] at h
        exact Option.noConfusion h
      | some m₁ =>
        simp only [hstep] at h
        exact ih m₁ m' (dm_wf_set_lb fuel m v lb m₁ hwf hstep) h
    | setUbOp v ub =>
      cases hstep : DiscreteModel.set_ub fuel m v ub with
      | none =>
        simp only [hstep] at h
        exact Option.noConfusion h
      | some m₁ =>
        simp only [hstep] at h
        exact ih m₁ m' (dm_wf_set_ub fuel m v ub m₁ hwf hstep) h

/-- C4: in a well-formed discrete model, after any successful sequence
of `set`/`set_lb`/`set_ub` operations, every variable bound to a literal
`l` satisfies: `value(l) = true` implies the variable's lower bound is
at least 1, and `value(l) = false` implies its upper bound is at most 0
— the literal and the 0/1 domain stay synchronised whichever side is
updated first (incompatible updates panic and yield no state). -/
theorem C4_bound_literal_sync (fuel : Nat) (ops : List DMOp)
    (m₀ m' : DiscreteModel) (hwf : DMWF m₀)
    (h : applyDMOps fuel ops m₀ = some m') :
    ∀ k lit dom olit, AList.get m'.binding k = some lit →
      m'.domains[k]? = some (dom, olit) →
      (DiscreteModel.value m' lit = some true → 1 ≤ dom.lb) ∧
      (DiscreteModel.value m' lit = some false → dom.ub ≤ 0) := by
  intro k lit dom olit hb hd
  exact (applyDMOps_wf fuel ops m₀ m' hwf h).w5 k lit dom olit hb hd

/-- `C4m0` is exactly what the constructor API produces. -/
theorem C4m0_from_api :
    DiscreteModel.bind
      ((DiscreteModel.new.new_discrete_var 0 1 "x").2) 0 ⟨0, true⟩ =
      some C4m0 := rfl

theorem C4m0_wf : DMWF C4m0 := by
  have hbinding : ∀ (k : Nat) (lit : Lit),
      AList.get C4m0.binding k = some lit →
      k = 0 ∧ lit = ⟨0, true⟩ := by
    intro k lit hb
    rw [show AList.get C4m0.binding k =
      (if 0 = k then some ⟨0, true⟩ else none) from rfl] at hb
    by_cases hk : 0 = k
    · rw [if_pos hk] at hb
      exact ⟨hk.symm, (Option.some.inj hb).symm⟩
    · rw [if_neg hk] at hb
      exact Option.noConfusion hb
  have hvalue : ∀ lit : Lit, DiscreteModel.value C4m0 lit = none := by
    intro lit
    rfl
  constructor
  · intro k lit hb
    obtain ⟨hk, hl⟩ := hbinding k lit hb
    subst hk; subst hl
    exact ⟨⟨0, 1⟩, rfl⟩
  · intro k lit hb
    obtain ⟨hk, hl⟩ := hbinding k lit hb
    subst hk; subst hl
    rfl
  · intro x rep hr
    rw [show AList.get C4m0.sat_to_int x =
      (if 0 = x then some ⟨0, false⟩ else none) from rfl] at hr
    by_cases hx : 0 = x
    · rw [if_pos hx] at hr
      cases Option.some.inj hr
      exact ⟨⟨0, true⟩, rfl, hx⟩
    · rw [if_neg hx] at hr
      exact Option.noConfusion hr
  · intro k dom lit hd
    match k with
    | 0 =>
      cases Option.some.inj hd
      rfl
    | j + 1 =>
      rw [show C4m0.domains[j + 1]? = none from rfl] at hd
      exact Option.noConfusion hd
  · intro k lit dom olit hb hd
    constructor
    · intro hv
      rw [hvalue lit] at hv
      exact Option.noConfusion hv
    · intro hv
      rw [hvalue lit] at hv
      exact Option.noConfusion hv
  · intro k lit dom olit hb hd _
    obtain ⟨hk, hl⟩ := hbinding k lit hb
    subst hk
    cases Option.some.inj hd
    exact ⟨by norm_num, by norm_num⟩

/-- C4 witness: setting the bound literal true drives the lower bound
to 1. -/
theorem C4_bound_literal_sync_witness :
    applyDMOps 5 [DMOp.setOp ⟨0, true⟩] C4m0 = some C4final ∧
    DiscreteModel.value C4final ⟨0, true⟩ = some true ∧
    1 ≤ (IntDomain.mk 1 1).lb :=
  ⟨rfl, rfl,
   (C4_bound_literal_sync 5 [DMOp.setOp ⟨0, true⟩] C4m0 C4final C4m0_wf rfl
     0 ⟨0, true⟩ ⟨1, 1⟩ (some ⟨0, true⟩) rfl rfl).1 rfl⟩

/-- C9: a freshly constructed STN has exactly one timepoint (the origin,
index 0) with bounds `[0, 0]` and an empty trail, so
`undo_to_last_backtrack_point` returns no backtrack level and leaves the
origin and its bounds intact. -/
theorem C9_fresh_stn :
    ∃ stn stn', IncSTN.new = some stn ∧
      stn.num_nodes = 1 ∧
      stn.lb IncSTN.origin = 0 ∧
      stn.ub IncSTN.origin = 0 ∧
      stn.trail = [] ∧
      stn.undo_to_last_backtrack_point = some (none, stn') ∧
      stn'.num_nodes = 1 ∧
      stn'.lb IncSTN.origin = 0 ∧
      stn'.ub IncSTN.origin = 0 ∧
      stn'.distances = stn.distances := by
  refine ⟨freshSTN, { freshSTN with pending_activations := [] },
    by decide, rfl, rfl, rfl, rfl, by decide, rfl, rfl, rfl, rfl⟩

/-- C10: when `propagate_all` dequeues an activation for a self-loop
edge, a negative weight yields `Inconsistent` with exactly that edge as
explanation and no other state change, while a non-negative weight skips
the edge without activating it; in both cases distances, bounds,
constraints, active-edge lists and trail are untouched. -/
theorem C10_self_loop_activation (fuel : Nat) (stn : IncSTN) (edge : EdgeID)
    (rest : List ActivationEvent)
    (hp : stn.pending_activations = ActivationEvent.ToActivate edge :: rest)
    (hself : (stn.constraints.getC edge).edge.source =
             (stn.constraints.getC edge).edge.target) :
    (let stn' : IncSTN := { stn with pending_activations := rest }
     stn'.distances = stn.distances ∧
     stn'.constraints = stn.constraints ∧
     stn'.active_forward_edges = stn.active_forward_edges ∧
     stn'.trail = stn.trail ∧
     (∀ n, stn'.lb n = stn.lb n ∧ stn'.ub n = stn.ub n) ∧
     ((stn.constraints.getC edge).edge.weight < 0 →
       stn.propagate_all fuel = (NetworkStatus.Inconsistent [edge], stn')) ∧
     (0 ≤ (stn.constraints.getC edge).edge.weight →
       stn.propagate_all fuel =
         IncSTN.propagate_all_go fuel stn.trail.length rest stn')) := by
  refine ⟨rfl, rfl, rfl, rfl, fun n => ⟨rfl, rfl⟩, ?_, ?_⟩
  · intro hneg
    simp only [IncSTN.propagate_all, hp, IncSTN.propagate_all_go]
    rw [if_pos hself, if_pos hneg]
  · intro hpos
    simp only [IncSTN.propagate_all, hp, IncSTN.propagate_all_go]
    rw [if_pos hself, if_neg (by omega :
      ¬ (stn.constraints.getC edge).edge.weight < 0)]

theorem C10_self_loop_activation_witness :
    C10stn.propagate_all 5 =
      (NetworkStatus.Inconsistent [{ base_id := 0, negated := false }],
       { C10stn with pending_activations := [] }) :=
  ((C10_self_loop_activation 5 C10stn { base_id := 0, negated := false } []
    rfl rfl).2.2.2.2.2.1 (by decide))

theorem Edge.negated_negated (e : Edge) : e.negated.negated = e := by
  rcases e with ⟨s, t, w⟩
  simp only [Edge.negated, Edge.mk.injEq]
  refine ⟨trivial, trivial, by ring⟩

theorem Edge.is_canonical_negated (e : Edge) :
    e.negated.is_canonical = !e.is_canonical := by
  rcases e with ⟨s, t, w⟩
  simp only [Edge.is_canonical, Edge.negated]
  by_cases h1 : s < t
  · have h2 : ¬ t < s := by omega
    have h3 : ¬ t = s := by omega
    simp [h1, h2, h3]
  · by_cases h2 : t < s
    · have h3 : ¬ s = t := by omega
      simp [h1, h2, h3]
    · have hst : s = t := by omega
      subst hst
      by_cases hw : (0 : Int) ≤ w
      · have hnw : ¬ (0 : Int) ≤ -w - 1 := by omega
        simp [h1, hw, hnw]
      · have hnw : (0 : Int) ≤ -w - 1 := by omega
        simp [h1, hw, hnw]

namespace ConstraintDB

theorem find_existing_negated (db : ConstraintDB) (e : Edge) (id : EdgeID)
    (h : db.find_existing e = some id) :
    db.find_existing e.negated =
      some { base_id := id.base_id, negated := !id.negated } := by
  by_cases hc : e.is_canonical = true
  · have hnc : e.negated.is_canonical = false := by
      rw [Edge.is_canonical_negated, hc]; rfl
    rw [find_existing, if_pos hc] at h
    obtain ⟨i, hi, hid⟩ := Option.map_eq_some.mp h
    rw [find_existing, if_neg (by simp [hnc]), Edge.negated_negated, hi]
    subst hid
    rfl
  · have hc' : e.is_canonical = false := by
      cases hcc : e.is_canonical
      · rfl
      · exact absurd hcc hc
    have hnc : e.negated.is_canonical = true := by
      rw [Edge.is_canonical_negated, hc']; rfl
    rw [find_existing, if_neg (by simp [hc'])] at h
    obtain ⟨i, hi, hid⟩ := Option.map_eq_some.mp h
    rw [find_existing, if_pos hnc, hi]
    subst hid
    rfl

theorem push_edge_found (db : ConstraintDB) (s t : Nat) (w : Int)
    (hidden : Bool) (id : EdgeID)
    (h : db.find_existing { source := s, target := t, weight := w } = some id) :
    db.push_edge s t w hidden = (false, id, db) := by
  rw [push_edge]
  simp only [h]

theorem push_edge_created (db : ConstraintDB) (s t : Nat) (w : Int)
    (h : db.find_existing { source := s, target := t, weight := w } = none) :
    db.push_edge s t w false =
      (true,
       { base_id := db.constraints.length,
         negated := (Edge.mk s t w).is_negated },
       { constraints := db.constraints ++
           [ConstraintPair.new_inactives { source := s, target := t, weight := w }],
         lookup := db.lookup.insert
           (ConstraintPair.new_inactives
             { source := s, target := t, weight := w }).base.edge
           db.constraints.length }) := by
  rw [push_edge]
  simp only [h]
  rfl

theorem find_existing_insert_base (db : ConstraintDB) (e : Edge) (n : Nat) :
    ConstraintDB.find_existing
      { constraints := db.constraints ++ [ConstraintPair.new_inactives e],
        lookup := db.lookup.insert (ConstraintPair.new_inactives e).base.edge n }
      e =
    some { base_id := n, negated := e.is_negated } := by
  by_cases hc : e.is_canonical = true
  · have hbase : (ConstraintPair.new_inactives e).base.edge = e := by
      rw [ConstraintPair.new_inactives, if_pos hc]
    rw [find_existing, if_pos hc, hbase, AList.get_insert_self]
    simp [Edge.is_negated, hc]
  · have hc' : e.is_canonical = false := by
      cases hcc : e.is_canonical
      · rfl
      · exact absurd hcc hc
    have hbase : (ConstraintPair.new_inactives e).base.edge = e.negated := by
      rw [ConstraintPair.new_inactives, if_neg (by simp [hc'])]
    rw [find_existing, if_neg (by simp [hc']), hbase, AList.get_insert_self]
    simp [Edge.is_negated, hc']

end ConstraintDB

theorem add_edge_of_found (stn : IncSTN) (a b : Nat) (w : Int) (id0 : EdgeID)
    (hb : a < stn.num_nodes ∧ b < stn.num_nodes)
    (hfe : stn.constraints.find_existing
      { source := a, target := b, weight := w } = some id0) :
    stn.add_edge a b w = some (id0, stn.mark_active id0) := by
  have hpush := ConstraintDB.push_edge_found stn.constraints a b w false id0 hfe
  simp only [IncSTN.add_edge, IncSTN.add_inactive_edge,
    IncSTN.add_inactive_constraint]
  rw [if_pos hb, hpush]
  rfl

theorem add_edge_of_created (stn : IncSTN) (a b : Nat) (w : Int)
    (hb : a < stn.num_nodes ∧ b < stn.num_nodes)
    (hfe : stn.constraints.find_existing
      { source := a, target := b, weight := w } = none) :
    stn.add_edge a b w =
      some ({ base_id := stn.constraints.constraints.length,
              negated := (Edge.mk a b w).is_negated },
        IncSTN.mark_active
          { stn with
              constraints :=
                { constraints := stn.constraints.constraints ++
                    [ConstraintPair.new_inactives
                      { source := a, target := b, weight := w }],
                  lookup := stn.constraints.lookup.insert
                    (ConstraintPair.new_inactives
                      { source := a, target := b, weight := w }).base.edge
                    stn.constraints.constraints.length },
              trail := STNEvent.EdgeAdded :: stn.trail }
          { base_id := stn.constraints.constraints.length,
            negated := (Edge.mk a b w).is_negated }) := by
  have hpush := ConstraintDB.push_edge_created stn.constraints a b w hfe
  simp only [IncSTN.add_edge, IncSTN.add_inactive_edge,
    IncSTN.add_inactive_constraint]
  rw [if_pos hb, hpush]
  rfl

/-- C3: `add_edge(a, b, w)` called twice returns the same `EdgeID`, and
`add_edge(b, a, -w - 1)` after it returns an id with the same `base_id`
and the opposite polarity bit. -/
theorem C3_edge_unification (stn : IncSTN) (a b : Nat) (w : Int)
    (id : EdgeID) (stn1 : IncSTN)
    (h : stn.add_edge a b w = some (id, stn1)) :
    (∃ stn2, stn1.add_edge a b w = some (id, stn2)) ∧
    (∃ stn3, stn1.add_edge b a (-w - 1) =
      some ({ base_id := id.base_id, negated := !id.negated }, stn3)) := by
  by_cases hb : a < stn.num_nodes ∧ b < stn.num_nodes
  · have hb' : b < stn.num_nodes ∧ a < stn.num_nodes := ⟨hb.2, hb.1⟩
    have hneg : (Edge.mk a b w).negated =
        { source := b, target := a, weight := -w - 1 } := rfl
    cases hfe : stn.constraints.find_existing
        { source := a, target := b, weight := w } with
    | some id0 =>
      rw [add_edge_of_found stn a b w id0 hb hfe] at h
      simp only [Option.some.injEq, Prod.mk.injEq] at h
      obtain ⟨hid, hstn1⟩ := h
      rw [← hid, ← hstn1]
      have hfe1 : (stn.mark_active id0).constraints.find_existing
          { source := a, target := b, weight := w } = some id0 := hfe
      have hfe2 := ConstraintDB.find_existing_negated
        (stn.mark_active id0).constraints (Edge.mk a b w) id0 hfe1
      rw [hneg] at hfe2
      exact ⟨⟨_, add_edge_of_found (stn.mark_active id0) a b w id0 hb hfe1⟩,
             ⟨_, add_edge_of_found (stn.mark_active id0) b a (-w - 1) _ hb' hfe2⟩⟩
    | none =>
      rw [add_edge_of_created stn a b w hb hfe] at h
      simp only [Option.some.injEq, Prod.mk.injEq] at h
      obtain ⟨hid, hstn1⟩ := h
      have hfe1 : stn1.constraints.find_existing
          { source := a, target := b, weight := w } = some id := by
        subst hstn1
        subst hid
        exact ConstraintDB.find_existing_insert_base stn.constraints
          (Edge.mk a b w) stn.constraints.constraints.length
      have hb1 : a < stn1.num_nodes ∧ b < stn1.num_nodes := by
        subst hstn1; exact hb
      have hb1' : b < stn1.num_nodes ∧ a < stn1.num_nodes := ⟨hb1.2, hb1.1⟩
      have hfe2 := ConstraintDB.find_existing_negated
        stn1.constraints (Edge.mk a b w) id hfe1
      rw [hneg] at hfe2
      exact ⟨⟨_, add_edge_of_found stn1 a b w id hb1 hfe1⟩,
             ⟨_, add_edge_of_found stn1 b a (-w - 1) _ hb1' hfe2⟩⟩
  · rw [IncSTN.add_edge, IncSTN.add_inactive_edge,
      IncSTN.add_inactive_constraint, if_neg hb] at h
    exact Option.noConfusion h

theorem C3_edge_unification_witness :
    (∃ stn2, C3stn1.add_edge 0 0 5 =
      some ({ base_id := 2, negated := false }, stn2)) ∧
    (∃ stn3, C3stn1.add_edge 0 0 (-5 - 1) =
      some ({ base_id := 2, negated := true }, stn3)) :=
  C3_edge_unification freshSTN 0 0 5 { base_id := 2, negated := false } C3stn1
    (by decide)

namespace IncSTN

theorem undoEvent_setTrail (s : IncSTN) (τ : List STNEvent) (ev : STNEvent) :
    undoEvent { s with trail := τ } ev = { undoEvent s ev with trail := τ } := by
  cases ev <;> rfl

theorem undoEvent_trail (s : IncSTN) (ev : STNEvent) :
    (undoEvent s ev).trail = s.trail := by
  cases ev <;> rfl

theorem undoEvent_level (s : IncSTN) (ev : STNEvent) :
    (undoEvent s ev).level = s.level := by
  cases ev <;> rfl

theorem undoEvent_pending_nil (s : IncSTN) (ev : STNEvent)
    (h : s.pending_activations = []) :
    (undoEvent s ev).pending_activations = [] := by
  cases ev <;> simp [undoEvent, IncSTN.setDist, h]

theorem undoAll_setTrail (δ : List STNEvent) (s : IncSTN) (τ : List STNEvent) :
    undoAll δ { s with trail := τ } = { undoAll δ s with trail := τ } := by
  induction δ generalizing s with
  | nil => rfl
  | cons ev rest ih =>
    show undoAll rest (undoEvent { s with trail := τ } ev) = _
    rw [undoEvent_setTrail, ih]
    rfl

theorem undoAll_level (δ : List STNEvent) (s : IncSTN) :
    (undoAll δ s).level = s.level := by
  induction δ generalizing s with
  | nil => rfl
  | cons ev rest ih => rw [undoAll, ih, undoEvent_level]

theorem undoAll_append (δ₁ δ₂ : List STNEvent) (s : IncSTN) :
    undoAll (δ₁ ++ δ₂) s = undoAll δ₂ (undoAll δ₁ s) := by
  induction δ₁ generalizing s with
  | nil => rfl
  | cons ev rest ih => rw [List.cons_append, undoAll, undoAll, ih]

theorem undoAll_pending_nil (δ : List STNEvent) (s : IncSTN)
    (h : s.pending_activations = []) :
    (undoAll δ s).pending_activations = [] := by
  induction δ generalizing s with
  | nil => exact h
  | cons ev rest ih => exact ih _ (undoEvent_pending_nil s ev h)

/-- Phase 2 of undo on a trail split at the first `Level` marker. -/
theorem undo_trail_go_append (lvl : Nat) (t₀ : List STNEvent) :
    ∀ (junk : List STNEvent) (s : IncSTN),
      (∀ n, STNEvent.Level n ∉ junk) →
      undo_trail_go (junk ++ STNEvent.Level lvl :: t₀) s =
        (some lvl, { undoAll junk s with trail := t₀, level := s.level - 1 })
  | [], s, _ => rfl
  | ev :: rest, s, hnl => by
    have hnl' : ∀ n, STNEvent.Level n ∉ rest := fun n hn =>
      hnl n (List.mem_cons_of_mem _ hn)
    cases ev with
    | Level n => exact absurd (List.mem_cons_self _ _) (hnl n)
    | NodeReserved =>
      show undo_trail_go (rest ++ _) { undoEvent s _ with trail := rest ++ _ } = _
      rw [undo_trail_go_append lvl t₀ rest _ hnl', undoAll_setTrail]
      rfl
    | NodeInitialized tp =>
      show undo_trail_go (rest ++ _) { undoEvent s _ with trail := rest ++ _ } = _
      rw [undo_trail_go_append lvl t₀ rest _ hnl', undoAll_setTrail]
      rfl
    | EdgeAdded =>
      show undo_trail_go (rest ++ _) { undoEvent s _ with trail := rest ++ _ } = _
      rw [undo_trail_go_append lvl t₀ rest _ hnl', undoAll_setTrail]
      rfl
    | NewPendingActivation =>
      show undo_trail_go (rest ++ _) { undoEvent s _ with trail := rest ++ _ } = _
      rw [undo_trail_go_append lvl t₀ rest _ hnl', undoAll_setTrail]
      rfl
    | EdgeActivated e =>
      show undo_trail_go (rest ++ _) { undoEvent s _ with trail := rest ++ _ } = _
      rw [undo_trail_go_append lvl t₀ rest _ hnl', undoAll_setTrail]
      rfl
    | ForwardUpdate node pd pc =>
      show undo_trail_go (rest ++ _) { undoEvent s _ with trail := rest ++ _ } = _
      rw [undo_trail_go_append lvl t₀ rest _ hnl', undoAll_setTrail]
      rfl
    | BackwardUpdate node pd pc =>
      show undo_trail_go (rest ++ _) { undoEvent s _ with trail := rest ++ _ } = _
      rw [undo_trail_go_append lvl t₀ rest _ hnl', undoAll_setTrail]
      rfl

theorem sim4_refl (s : IncSTN) : sim4 s s := ⟨rfl, rfl, rfl, rfl⟩

theorem sim4_trans {s t u : IncSTN} (h₁ : sim4 s t) (h₂ : sim4 t u) :
    sim4 s u :=
  ⟨h₁.1.trans h₂.1, h₁.2.1.trans h₂.2.1, h₁.2.2.1.trans h₂.2.2.1,
   h₁.2.2.2.trans h₂.2.2.2⟩

theorem strip_getD_map (D : List Distance) (n : Nat) :
    Distance.strip (D.getD n Distance.default0) =
      (D.map Distance.strip).getD n (Distance.strip Distance.default0) :=
  (List.getD_map D Distance.default0 Distance.strip).symm

theorem map_strip_set_congr (D E : List Distance) (n : Nat)
    (h : D.map Distance.strip = E.map Distance.strip)
    (f : Distance → Distance)
    (hf : ∀ d d', Distance.strip d = Distance.strip d' →
      Distance.strip (f d) = Distance.strip (f d')) :
    (D.set n (f (D.getD n Distance.default0))).map Distance.strip =
    (E.set n (f (E.getD n Distance.default0))).map Distance.strip := by
  rw [List.map_set, List.map_set, h]
  congr 1
  apply hf
  rw [strip_getD_map, strip_getD_map, h]

theorem sim4_undoEvent (s t : IncSTN) (ev : STNEvent)
    (h : sim4 s t) (hp : s.pending_activations = t.pending_activations) :
    sim4 (undoEvent s ev) (undoEvent t ev) ∧
      (undoEvent s ev).pending_activations =
        (undoEvent t ev).pending_activations := by
  obtain ⟨hc, hf, hb, hd⟩ := h
  cases ev with
  | Level n => exact ⟨⟨hc, hf, hb, hd⟩, hp⟩
  | NodeReserved =>
    refine ⟨⟨hc, by rw [undoEvent, undoEvent, hf], by rw [undoEvent, undoEvent, hb], ?_⟩, hp⟩
    show (s.distances.dropLast).map Distance.strip =
      (t.distances.dropLast).map Distance.strip
    rw [List.map_dropLast, List.map_dropLast, hd]
  | NodeInitialized tp =>
    refine ⟨⟨hc, hf, hb, ?_⟩, hp⟩
    show (s.distances.set tp _).map Distance.strip =
      (t.distances.set tp _).map Distance.strip
    exact map_strip_set_congr s.distances t.distances tp hd
      (fun d => { d with initialized := false })
      (fun d d' hdd => by
        show ({ d with initialized := false } : Distance).strip = _
        have h1 : ({ d with initialized := false } : Distance).strip =
          { d.strip with initialized := false } := rfl
        have h2 : ({ d' with initialized := false } : Distance).strip =
          { d'.strip with initialized := false } := rfl
        rw [h1, h2, hdd])
  | EdgeAdded =>
    exact ⟨⟨by rw [undoEvent, undoEvent, hc], hf, hb, hd⟩, hp⟩
  | NewPendingActivation =>
    refine ⟨⟨hc, hf, hb, hd⟩, ?_⟩
    show s.pending_activations.dropLast = t.pending_activations.dropLast
    rw [hp]
  | EdgeActivated e =>
    refine ⟨⟨?_, ?_, ?_, hd⟩, hp⟩
    · show (s.constraints.setC e _) = (t.constraints.setC e _)
      rw [hc]
    · show popAt s.active_forward_edges (s.constraints.getC e).edge.source =
        popAt t.active_forward_edges (t.constraints.getC e).edge.source
      rw [hc, hf]
    · show popAt s.active_backward_edges (s.constraints.getC e).edge.target =
        popAt t.active_backward_edges (t.constraints.getC e).edge.target
      rw [hc, hb]
  | ForwardUpdate node pd pc =>
    refine ⟨⟨hc, hf, hb, ?_⟩, hp⟩
    show (s.distances.set node _).map Distance.strip =
      (t.distances.set node _).map Distance.strip
    exact map_strip_set_congr s.distances t.distances node hd
      (fun d => { d with forward := pd, forward_cause := pc })
      (fun d d' hdd => by
        have h1 : ({ d with forward := pd, forward_cause := pc } : Distance).strip =
          { d.strip with forward := pd, forward_cause := pc } := rfl
        have h2 : ({ d' with forward := pd, forward_cause := pc } : Distance).strip =
          { d'.strip with forward := pd, forward_cause := pc } := rfl
        rw [h1, h2, hdd])
  | BackwardUpdate node pd pc =>
    refine ⟨⟨hc, hf, hb, ?_⟩, hp⟩
    show (s.distances.set node _).map Distance.strip =
      (t.distances.set node _).map Distance.strip
    exact map_strip_set_congr s.distances t.distances node hd
      (fun d => { d with backward := pd, backward_cause := pc })
      (fun d d' hdd => by
        have h1 : ({ d with backward := pd, backward_cause := pc } : Distance).strip =
          { d.strip with backward := pd, backward_cause := pc } := rfl
        have h2 : ({ d' with backward := pd, backward_cause := pc } : Distance).strip =
          { d'.strip with backward := pd, backward_cause := pc } := rfl
        rw [h1, h2, hdd])

theorem sim4_undoAll (δ : List STNEvent) (s t : IncSTN)
    (h : sim4 s t) (hp : s.pending_activations = t.pending_activations) :
    sim4 (undoAll δ s) (undoAll δ t) ∧
      (undoAll δ s).pending_activations =
        (undoAll δ t).pending_activations := by
  induction δ generalizing s t with
  | nil => exact ⟨h, hp⟩
  | cons ev rest ih =>
    have step := sim4_undoEvent s t ev h hp
    exact ih _ _ step.1 step.2

theorem Rewind.stn_refl (s : IncSTN) : Rewind s s :=
  ⟨[], rfl, fun _ h => (List.not_mem_nil _ h), sim4_refl _⟩

theorem Rewind.zero {s s' : IncSTN} (ht : s'.trail = s.trail)
    (h : sim4 s' s) : Rewind s s' :=
  ⟨[], by rw [ht]; rfl, fun _ h => (List.not_mem_nil _ h), h⟩

theorem Rewind.single {s s' : IncSTN} (ev : STNEvent)
    (hev : ∀ n, ev ≠ STNEvent.Level n)
    (ht : s'.trail = ev :: s.trail)
    (hc : sim4 (undoEvent { s' with pending_activations := [] } ev) s) :
    Rewind s s' := by
  refine ⟨[ev], by rw [ht]; rfl, ?_, hc⟩
  intro n hn
  rcases List.mem_singleton.mp hn with h
  exact hev n h.symm

theorem Rewind.stn_trans {a b c : IncSTN} (h₁ : Rewind a b) (h₂ : Rewind b c) :
    Rewind a c := by
  obtain ⟨δ₁, ht₁, hn₁, hs₁⟩ := h₁
  obtain ⟨δ₂, ht₂, hn₂, hs₂⟩ := h₂
  refine ⟨δ₂ ++ δ₁, ?_, ?_, ?_⟩
  · rw [ht₂, ht₁, List.append_assoc]
  · intro n hn
    rcases List.mem_append.mp hn with h | h
    · exact hn₂ n h
    · exact hn₁ n h
  · rw [undoAll_append]
    have hpM : (undoAll δ₂
        { c with pending_activations := [] }).pending_activations = [] :=
      undoAll_pending_nil _ _ rfl
    have hcong := sim4_undoAll δ₁
      (undoAll δ₂ { c with pending_activations := [] })
      { b with pending_activations := [] } hs₂ hpM
    exact sim4_trans hcong.1 hs₁

end IncSTN

theorem list_set_getD {α : Type} (l : List α) (n : Nat) (d : α) :
    l.set n (l.getD n d) = l := by
  by_cases hn : n < l.length
  · apply list_set_of_getElem
    rw [List.getD_eq_getElem?_getD, List.getElem?_eq_getElem hn]
    rfl
  · exact List.set_eq_of_length_le (Nat.le_of_not_lt hn)

theorem list_getD_set_self {α : Type} (l : List α) (n : Nat) (x d : α)
    (h : n < l.length) : (l.set n x).getD n d = x := by
  have h' : n < (l.set n x).length := by simpa using h
  rw [List.getD_eq_getElem?_getD, List.getElem?_set_self h]
  rfl

namespace IncSTN

theorem setDist_trail (s : IncSTN) (n : Nat) (d : Distance) :
    (s.setDist n d).trail = s.trail := rfl

theorem sim4_setDist_strip (s : IncSTN) (n : Nat) (d : Distance)
    (hd : Distance.strip d = Distance.strip (s.getDist n)) :
    sim4 (s.setDist n d) s := by
  refine ⟨rfl, rfl, rfl, ?_⟩
  show (s.distances.set n d).map Distance.strip =
    s.distances.map Distance.strip
  rw [List.map_set, hd, IncSTN.getDist, strip_getD_map, list_set_getD]

/-- Setting only the pending flags of a node is a `Rewind` step with an
empty trail delta. -/
theorem rewind_set_flags (s : IncSTN) (n : Nat) (b₁ b₂ : Bool) :
    Rewind s (s.setDist n { s.getDist n with
                              forward_pending_update := b₁,
                              backward_pending_update := b₂ }) :=
  Rewind.zero rfl (sim4_setDist_strip s n _ rfl)

theorem map_strip_set_restore (D : List Distance) (n : Nat) (d₁ d₂ : Distance)
    (h : Distance.strip d₂ = Distance.strip (D.getD n Distance.default0)) :
    ((D.set n d₁).set n d₂).map Distance.strip = D.map Distance.strip := by
  rw [List.set_set, List.map_set, h, strip_getD_map, list_set_getD]

theorem getD_set_out {α : Type} (l : List α) (n : Nat) (x d : α)
    (h : l.length ≤ n) : (l.set n x).getD n d = d := by
  rw [List.set_eq_of_length_le h, List.getD_eq_getElem?_getD,
    List.getElem?_eq_none h]
  rfl

/-- A trailed forward-distance update is exactly undone (up to the
pending flag). -/
theorem rewind_fwd_upd (s : IncSTN) (target : Nat) (c : Int)
    (i : Option EdgeID) :
    Rewind s
      (IncSTN.setDist
        { s with trail := STNEvent.ForwardUpdate target
                            (s.getDist target).forward
                            (s.getDist target).forward_cause :: s.trail }
        target (Distance.withFwd (s.getDist target) c i true)) := by
  apply Rewind.single (STNEvent.ForwardUpdate target
    (s.getDist target).forward (s.getDist target).forward_cause)
  · intro n h
    exact STNEvent.noConfusion h
  · rfl
  · refine ⟨rfl, rfl, rfl, ?_⟩
    show ((s.distances.set target
        (Distance.withFwd (s.getDist target) c i true)).set target _).map
        Distance.strip = s.distances.map Distance.strip
    apply map_strip_set_restore
    by_cases hn : target < s.distances.length
    · have hX : (s.distances.set target
          (Distance.withFwd (s.getDist target) c i true)).getD target
          Distance.default0 = Distance.withFwd (s.getDist target) c i true :=
        list_getD_set_self _ _ _ _ hn
      show Distance.strip { (s.distances.set target
          (Distance.withFwd (s.getDist target) c i true)).getD target
            Distance.default0 with
          forward := (s.getDist target).forward,
          forward_cause := (s.getDist target).forward_cause } = _
      rw [hX]
      rfl
    · have hle := Nat.le_of_not_lt hn
      have hX : (s.distances.set target
          (Distance.withFwd (s.getDist target) c i true)).getD target
          Distance.default0 = Distance.default0 :=
        getD_set_out _ _ _ _ hle
      show Distance.strip { (s.distances.set target
          (Distance.withFwd (s.getDist target) c i true)).getD target
            Distance.default0 with
          forward := (s.getDist target).forward,
          forward_cause := (s.getDist target).forward_cause } = _
      rw [hX]
      have hs : s.getDist target = Distance.default0 := by
        rw [IncSTN.getDist, List.getD_eq_getElem?_getD,
          List.getElem?_eq_none hle]
        rfl
      rw [hs]
      have hD : s.distances.getD target Distance.default0 =
          Distance.default0 := by
        rw [List.getD_eq_getElem?_getD, List.getElem?_eq_none hle]
        rfl
      rw [hD]

/-- A trailed backward-distance update is exactly undone (up to the
pending flag). -/
theorem rewind_bwd_upd (s : IncSTN) (source : Nat) (c : Int)
    (i : Option EdgeID) :
    Rewind s
      (IncSTN.setDist
        { s with trail := STNEvent.BackwardUpdate source
                            (s.getDist source).backward
                            (s.getDist source).backward_cause :: s.trail }
        source (Distance.withBwd (s.getDist source) c i true)) := by
  apply Rewind.single (STNEvent.BackwardUpdate source
    (s.getDist source).backward (s.getDist source).backward_cause)
  · intro n h
    exact STNEvent.noConfusion h
  · rfl
  · refine ⟨rfl, rfl, rfl, ?_⟩
    show ((s.distances.set source
        (Distance.withBwd (s.getDist source) c i true)).set source _).map
        Distance.strip = s.distances.map Distance.strip
    apply map_strip_set_restore
    by_cases hn : source < s.distances.length
    · have hX : (s.distances.set source
          (Distance.withBwd (s.getDist source) c i true)).getD source
          Distance.default0 = Distance.withBwd (s.getDist source) c i true :=
        list_getD_set_self _ _ _ _ hn
      show Distance.strip { (s.distances.set source
          (Distance.withBwd (s.getDist source) c i true)).getD source
            Distance.default0 with
          backward := (s.getDist source).backward,
          backward_cause := (s.getDist source).backward_cause } = _
      rw [hX]
      rfl
    · have hle := Nat.le_of_not_lt hn
      have hX : (s.distances.set source
          (Distance.withBwd (s.getDist source) c i true)).getD source
          Distance.default0 = Distance.default0 :=
        getD_set_out _ _ _ _ hle
      show Distance.strip { (s.distances.set source
          (Distance.withBwd (s.getDist source) c i true)).getD source
            Distance.default0 with
          backward := (s.getDist source).backward,
          backward_cause := (s.getDist source).backward_cause } = _
      rw [hX]
      have hs : s.getDist source = Distance.default0 := by
        rw [IncSTN.getDist, List.getD_eq_getElem?_getD,
          List.getElem?_eq_none hle]
        rfl
      rw [hs]
      have hD : s.distances.getD source Distance.default0 =
          Distance.default0 := by
        rw [List.getD_eq_getElem?_getD, List.getElem?_eq_none hle]
        rfl
      rw [hD]

end IncSTN

theorem popAt_pushAt {α : Type} (l : List (List α)) (i : Nat) (x : α) :
    popAt (pushAt l i x) i = l := by
  cases h : l[i]? with
  | none =>
    rw [pushAt, h, popAt, h]
  | some xs =>
    have hi : i < l.length := by
      by_contra hn
      rw [List.getElem?_eq_none (Nat.le_of_not_lt hn)] at h
      cases h
    rw [pushAt, h, popAt, List.getElem?_set_self (by simpa using hi)]
    simp only [List.dropLast_concat, List.set_set]
    exact list_set_of_getElem l i xs h

namespace ConstraintDB

theorem getC_eq_getD (db : ConstraintDB) (e : EdgeID) :
    db.getC e = (if e.negated then (db.constraints.getD e.base_id nullPair).negated
                 else (db.constraints.getD e.base_id nullPair).base) := by
  rw [getC]
  cases e.negated <;> rfl

theorem getC_in_bounds_of_ne (db : ConstraintDB) (e : EdgeID)
    (hne : (db.getC e).edge.source ≠ (db.getC e).edge.target) :
    e.base_id < db.constraints.length := by
  by_contra hn
  have hd : db.constraints.getD e.base_id nullPair = nullPair := by
    rw [List.getD_eq_getElem?_getD,
      List.getElem?_eq_none (Nat.le_of_not_lt hn)]
    rfl
  rw [getC_eq_getD, hd] at hne
  cases h : e.negated <;> rw [h] at hne <;> exact hne rfl

theorem getC_setC_same (db : ConstraintDB) (e : EdgeID) (c : STNConstraint)
    (hin : e.base_id < db.constraints.length) :
    (db.setC e c).getC e = c := by
  obtain ⟨pair, h⟩ : ∃ p, db.constraints[e.base_id]? = some p :=
    ⟨_, List.getElem?_eq_getElem hin⟩
  simp only [setC, h, getC]
  rw [list_getD_set_self _ _ _ _ hin]
  cases hneg : e.negated <;> simp [hneg]

theorem setC_setC (db : ConstraintDB) (e : EdgeID) (c₁ c₂ : STNConstraint) :
    (db.setC e c₁).setC e c₂ = db.setC e c₂ := by
  cases h : db.constraints[e.base_id]? with
  | none => simp only [setC, h]
  | some pair =>
    have hi : e.base_id < db.constraints.length := by
      by_contra hn
      rw [List.getElem?_eq_none (Nat.le_of_not_lt hn)] at h
      cases h
    simp only [setC, h]
    rw [List.getElem?_set_self (by simpa using hi)]
    cases hneg : e.negated <;> simp [hneg, List.set_set]

theorem setC_restore (db : ConstraintDB) (e : EdgeID)
    (hin : e.base_id < db.constraints.length) :
    db.setC e (db.getC e) = db := by
  obtain ⟨pair, h⟩ : ∃ p, db.constraints[e.base_id]? = some p :=
    ⟨_, List.getElem?_eq_getElem hin⟩
  have hget : db.constraints.getD e.base_id nullPair = pair := by
    rw [List.getD_eq_getElem?_getD, h]
    rfl
  have hget2 : db.constraints[e.base_id]?.getD nullPair = pair := by
    rw [h]
    rfl
  simp only [setC, h, getC, hget]
  cases hneg : e.negated <;>
    simp [hneg, h, list_set_of_getElem _ _ _ h]

end ConstraintDB

namespace IncSTN

/-- Activating an inactive non-self-loop edge (flip the active bit, push
the adjacency caches, trail `EdgeActivated`) is exactly undone. -/
theorem rewind_activate (s : IncSTN) (e : EdgeID)
    (hact : (s.constraints.getC e).active = false)
    (hne : (s.constraints.getC e).edge.source ≠
      (s.constraints.getC e).edge.target) :
    Rewind s
      { s with
          constraints := s.constraints.setC e
            { s.constraints.getC e with active := true },
          active_forward_edges := pushAt s.active_forward_edges
            (s.constraints.getC e).edge.source
            { target := (s.constraints.getC e).edge.target,
              weight := (s.constraints.getC e).edge.weight, id := e },
          active_backward_edges := pushAt s.active_backward_edges
            (s.constraints.getC e).edge.target
            { source := (s.constraints.getC e).edge.source,
              weight := (s.constraints.getC e).edge.weight, id := e },
          trail := STNEvent.EdgeActivated e :: s.trail } := by
  have hin : e.base_id < s.constraints.constraints.length :=
    ConstraintDB.getC_in_bounds_of_ne s.constraints e hne
  have hgc : (s.constraints.setC e
      { s.constraints.getC e with active := true }).getC e =
      { s.constraints.getC e with active := true } :=
    ConstraintDB.getC_setC_same _ _ _ hin
  apply Rewind.single (STNEvent.EdgeActivated e)
    (fun n h => STNEvent.noConfusion h) rfl
  refine ⟨?_, ?_, ?_, rfl⟩
  · show (s.constraints.setC e
        { s.constraints.getC e with active := true }).setC e
        { (s.constraints.setC e
            { s.constraints.getC e with active := true }).getC e with
          active := false } = s.constraints
    rw [hgc, ConstraintDB.setC_setC]
    have hre : ({ { s.constraints.getC e with active := true } with
        active := false } : STNConstraint) = s.constraints.getC e := by
      cases hc0 : s.constraints.getC e with
      | mk a ed =>
        rw [hc0] at hact
        have ha : a = false := hact
        subst ha
        rfl
    rw [hre]
    exact ConstraintDB.setC_restore _ _ hin
  · show popAt (pushAt s.active_forward_edges
        (s.constraints.getC e).edge.source _)
        ((s.constraints.setC e
          { s.constraints.getC e with active := true }).getC e).edge.source =
      s.active_forward_edges
    rw [hgc]
    exact popAt_pushAt _ _ _
  · show popAt (pushAt s.active_backward_edges
        (s.constraints.getC e).edge.target _)
        ((s.constraints.setC e
          { s.constraints.getC e with active := true }).getC e).edge.target =
      s.active_backward_edges
    rw [hgc]
    exact popAt_pushAt _ _ _

theorem relax_fwd_props (u tgt : Nat) :
    ∀ (fas : List FwdActive) (s : IncSTN) (q : List Nat) (fl : Bool),
      Rewind s (relax_fwd u tgt fas s q fl).state ∧
      (relax_fwd u tgt fas s q fl).state.level = s.level ∧
      (relax_fwd u tgt fas s q fl).state.pending_activations =
        s.pending_activations
  | [], s, q, fl => ⟨Rewind.stn_refl s, rfl, rfl⟩
  | fa :: rest, s, q, fl => by
    have hstep := rewind_fwd_upd s fa.target
      ((s.getDist u).forward + fa.weight) (some fa.id)
    simp only [relax_fwd]
    split
    · split
      · exact ⟨hstep, rfl, rfl⟩
      · split
        · exact ⟨hstep, rfl, rfl⟩
        · exact ⟨Rewind.stn_trans hstep (relax_fwd_props u tgt rest _ _ _).1,
                 (relax_fwd_props u tgt rest _ _ _).2.1,
                 (relax_fwd_props u tgt rest _ _ _).2.2⟩
    · exact relax_fwd_props u tgt rest s q fl

theorem relax_bwd_props (u src : Nat) :
    ∀ (bas : List BwdActive) (s : IncSTN) (q : List Nat) (fl : Bool),
      Rewind s (relax_bwd u src bas s q fl).state ∧
      (relax_bwd u src bas s q fl).state.level = s.level ∧
      (relax_bwd u src bas s q fl).state.pending_activations =
        s.pending_activations
  | [], s, q, fl => ⟨Rewind.stn_refl s, rfl, rfl⟩
  | ba :: rest, s, q, fl => by
    have hstep := rewind_bwd_upd s ba.source
      ((s.getDist u).backward + ba.weight) (some ba.id)
    simp only [relax_bwd]
    split
    · split
      · exact ⟨hstep, rfl, rfl⟩
      · split
        · exact ⟨hstep, rfl, rfl⟩
        · exact ⟨Rewind.stn_trans hstep (relax_bwd_props u src rest _ _ _).1,
                 (relax_bwd_props u src rest _ _ _).2.1,
                 (relax_bwd_props u src rest _ _ _).2.2⟩
    · exact relax_bwd_props u src rest s q fl

theorem bfs_props (src tgt : Nat) :
    ∀ (fuel : Nat) (s : IncSTN) (q : List Nat) (f1 f2 : Bool) (s' : IncSTN),
      (bfs src tgt fuel s q f1 f2).state? = some s' →
      Rewind s s' ∧ s'.level = s.level ∧
        s'.pending_activations = s.pending_activations
  | 0, s, q, f1, f2, s', h => by cases h
  | fuel + 1, s, q, f1, f2, s', h => by
    cases q with
    | nil =>
      have hs : s = s' := by
        simpa [bfs, BfsOut.state?] using h
      subst hs
      exact ⟨Rewind.stn_refl s, rfl, rfl⟩
    | cons u rest =>
      simp only [bfs] at h
      rcases hfwd : (if (s.getDist u).forward_pending_update = true then
          relax_fwd u tgt (s.active_forward_edges.getD u []) s rest f2
        else RelaxOut.ok s rest f2) with ⟨s₁, q₁, fl₁⟩ | ⟨s₁, c₁⟩
      all_goals
        have hfp : Rewind s s₁ ∧ s₁.level = s.level ∧
            s₁.pending_activations = s.pending_activations := by
          have : Rewind s ((if (s.getDist u).forward_pending_update = true then
                relax_fwd u tgt (s.active_forward_edges.getD u []) s rest f2
              else RelaxOut.ok s rest f2)).state ∧
              ((if (s.getDist u).forward_pending_update = true then
                relax_fwd u tgt (s.active_forward_edges.getD u []) s rest f2
              else RelaxOut.ok s rest f2)).state.level = s.level ∧
              ((if (s.getDist u).forward_pending_update = true then
                relax_fwd u tgt (s.active_forward_edges.getD u []) s rest f2
              else RelaxOut.ok s rest f2)).state.pending_activations =
                s.pending_activations := by
            split
            · exact relax_fwd_props u tgt _ s rest f2
            · exact ⟨Rewind.stn_refl s, rfl, rfl⟩
          rwa [hfwd] at this
      · -- forward phase ok; backward phase
        rw [hfwd] at h
        simp only at h
        rcases hbwd : (if (s₁.getDist u).backward_pending_update = true then
            relax_bwd u src (s₁.active_backward_edges.getD u []) s₁ q₁ f1
          else RelaxOut.ok s₁ q₁ f1) with ⟨s₂, q₂, fl₂⟩ | ⟨s₂, c₂⟩
        all_goals
          have hbp : Rewind s₁ s₂ ∧ s₂.level = s₁.level ∧
              s₂.pending_activations = s₁.pending_activations := by
            have : Rewind s₁ ((if (s₁.getDist u).backward_pending_update = true then
                  relax_bwd u src (s₁.active_backward_edges.getD u []) s₁ q₁ f1
                else RelaxOut.ok s₁ q₁ f1)).state ∧
                ((if (s₁.getDist u).backward_pending_update = true then
                  relax_bwd u src (s₁.active_backward_edges.getD u []) s₁ q₁ f1
                else RelaxOut.ok s₁ q₁ f1)).state.level = s₁.level ∧
                ((if (s₁.getDist u).backward_pending_update = true then
                  relax_bwd u src (s₁.active_backward_edges.getD u []) s₁ q₁ f1
                else RelaxOut.ok s₁ q₁ f1)).state.pending_activations =
                  s₁.pending_activations := by
              split
              · exact relax_bwd_props u src _ s₁ q₁ f1
              · exact ⟨Rewind.stn_refl s₁, rfl, rfl⟩
            rwa [hbwd] at this
        · -- backward ok: clear flags, recurse
          rw [hbwd] at h
          simp only at h
          have hflag : Rewind s₂ (s₂.setDist u { s₂.getDist u with
              forward_pending_update := false,
              backward_pending_update := false }) :=
            rewind_set_flags s₂ u false false
          have ih := bfs_props src tgt fuel _ q₂ fl₂ fl₁ s' h
          refine ⟨Rewind.stn_trans hfp.1 (Rewind.stn_trans hbp.1
            (Rewind.stn_trans hflag ih.1)), ?_, ?_⟩
          · rw [ih.2.1]
            show s₂.level = s.level
            rw [hbp.2.1, hfp.2.1]
          · rw [ih.2.2]
            show s₂.pending_activations = s.pending_activations
            rw [hbp.2.2, hfp.2.2]
        · -- backward hit inconsistency
          rw [hbwd] at h
          simp only [BfsOut.state?] at h
          obtain rfl : s₂ = s' := Option.some.inj h
          exact ⟨Rewind.stn_trans hfp.1 hbp.1, hbp.2.1.trans hfp.2.1,
            hbp.2.2.trans hfp.2.2⟩
      · -- forward hit inconsistency
        rw [hfwd] at h
        simp only [BfsOut.state?] at h
        obtain rfl : s₁ = s' := Option.some.inj h
        exact hfp

theorem propagate_props (fuel : Nat) (s : IncSTN) (e : EdgeID) :
    Rewind s (propagate fuel s e).2 ∧
    (propagate fuel s e).2.level = s.level ∧
    (propagate fuel s e).2.pending_activations = s.pending_activations := by
  simp only [propagate]
  have h1 : Rewind s (s.setDist (s.constraints.getC e).edge.source
      { s.getDist (s.constraints.getC e).edge.source with
        forward_pending_update := true, backward_pending_update := true }) :=
    rewind_set_flags s _ true true
  generalize hs1 : s.setDist (s.constraints.getC e).edge.source
      { s.getDist (s.constraints.getC e).edge.source with
        forward_pending_update := true, backward_pending_update := true } = s₁ at h1
  have h2 : Rewind s₁ (s₁.setDist (s.constraints.getC e).edge.target
      { s₁.getDist (s.constraints.getC e).edge.target with
        forward_pending_update := true, backward_pending_update := true }) :=
    rewind_set_flags s₁ _ true true
  generalize hs2 : s₁.setDist (s.constraints.getC e).edge.target
      { s₁.getDist (s.constraints.getC e).edge.target with
        forward_pending_update := true, backward_pending_update := true } = s₂ at h2
  have hl1 : s₁.level = s.level := by rw [← hs1]; rfl
  have hp1 : s₁.pending_activations = s.pending_activations := by
    rw [← hs1]; rfl
  have hl2 : s₂.level = s₁.level := by rw [← hs2]; rfl
  have hp2 : s₂.pending_activations = s₁.pending_activations := by
    rw [← hs2]; rfl
  cases hb : bfs (s.constraints.getC e).edge.source
      (s.constraints.getC e).edge.target fuel s₂
      [(s.constraints.getC e).edge.source,
       (s.constraints.getC e).edge.target] false false with
  | done s₃ =>
    have hbp := bfs_props (s.constraints.getC e).edge.source
      (s.constraints.getC e).edge.target fuel s₂
      [(s.constraints.getC e).edge.source,
       (s.constraints.getC e).edge.target] false false s₃ (by rw [hb]; rfl)
    exact ⟨Rewind.stn_trans h1 (Rewind.stn_trans h2 hbp.1),
      hbp.2.1.trans (hl2.trans hl1), hbp.2.2.trans (hp2.trans hp1)⟩
  | incon s₃ c =>
    have hbp := bfs_props (s.constraints.getC e).edge.source
      (s.constraints.getC e).edge.target fuel s₂
      [(s.constraints.getC e).edge.source,
       (s.constraints.getC e).edge.target] false false s₃ (by rw [hb]; rfl)
    cases c with
    | some cyc =>
      exact ⟨Rewind.stn_trans h1 (Rewind.stn_trans h2 hbp.1),
        hbp.2.1.trans (hl2.trans hl1), hbp.2.2.trans (hp2.trans hp1)⟩
    | none =>
      exact ⟨Rewind.stn_trans h1 (Rewind.stn_trans h2 hbp.1),
        hbp.2.1.trans (hl2.trans hl1), hbp.2.2.trans (hp2.trans hp1)⟩
  | fuelOut => exact ⟨Rewind.stn_trans h1 h2, hl2.trans hl1, hp2.trans hp1⟩

end IncSTN

theorem allTA_tail {x : ActivationEvent} {p : List ActivationEvent}
    (h : allTA (x :: p)) : allTA p :=
  fun e he n => h e (List.mem_cons_of_mem _ he) n

theorem PendSh_tail {lvl : Nat} {x : ActivationEvent}
    {p : List ActivationEvent} (h : PendSh lvl (x :: p)) : PendSh lvl p := by
  rcases h with ⟨tas, heq, hta⟩ | hta
  · exact Or.inr (by injection heq with _ h2; rw [← h2] at hta; exact hta)
  · exact Or.inr (allTA_tail hta)

theorem allTA_append_TA {p : List ActivationEvent} (h : allTA p)
    (e : EdgeID) : allTA (p ++ [ActivationEvent.ToActivate e]) := by
  intro x hx n
  rcases List.mem_append.mp hx with hx | hx
  · exact h x hx n
  · rw [List.mem_singleton.mp hx]
    exact fun hc => ActivationEvent.noConfusion hc

theorem PendSh_append_TA {lvl : Nat} {p : List ActivationEvent}
    (h : PendSh lvl p) (e : EdgeID) :
    PendSh lvl (p ++ [ActivationEvent.ToActivate e]) := by
  rcases h with ⟨tas, heq, hta⟩ | hta
  · exact Or.inl ⟨tas ++ [ActivationEvent.ToActivate e],
      by rw [heq]; rfl, allTA_append_TA hta e⟩
  · exact Or.inr (allTA_append_TA hta e)

namespace IncSTN

theorem drainPendingBack_allTA (lvl : Nat) :
    ∀ (m r : List ActivationEvent), allTA m →
      drainPendingBack lvl (m ++ r) = drainPendingBack lvl r
  | [], r, _ => rfl
  | x :: m, r, h => by
    cases x with
    | ToActivate e =>
      show drainPendingBack lvl (m ++ r) = _
      exact drainPendingBack_allTA lvl m r (allTA_tail h)
    | BacktrackPoint n =>
      exact absurd rfl (h _ (List.mem_cons_self _ _) n)

theorem drainPendingBack_of_PendSh (lvl : Nat) (p : List ActivationEvent)
    (h : PendSh lvl p) :
    drainPendingBack lvl p.reverse = some [] := by
  rcases h with ⟨tas, heq, hta⟩ | hta
  · rw [heq, List.reverse_cons]
    rw [drainPendingBack_allTA lvl tas.reverse _
      (fun e he n => hta e (List.mem_reverse.mp he) n)]
    show (if lvl = lvl then some [] else none) = some []
    rw [if_pos rfl]
  · have := drainPendingBack_allTA lvl p.reverse []
      (fun e he n => hta e (List.mem_reverse.mp he) n)
    rw [List.append_nil] at this
    exact this.trans rfl

theorem match_propagate_step (fuel te : Nat) (rest : List ActivationEvent)
    (A : IncSTN) (edge : EdgeID)
    (ih : ∀ x : IncSTN, Rewind x (propagate_all_go fuel te rest x).2 ∧
      (propagate_all_go fuel te rest x).2.level = x.level) :
    Rewind A (match propagate fuel A edge with
      | (NetworkStatus.Consistent _, x) => propagate_all_go fuel te rest x
      | (status, x) => (status, x)).2 ∧
    (match propagate fuel A edge with
      | (NetworkStatus.Consistent _, x) => propagate_all_go fuel te rest x
      | (status, x) => (status, x)).2.level = A.level := by
  have hpp := propagate_props fuel A edge
  rcases hp : propagate fuel A edge with ⟨st, s₄⟩
  rw [hp] at hpp
  cases st with
  | Consistent a =>
    have ihs := ih s₄
    exact ⟨Rewind.stn_trans hpp.1 ihs.1, ihs.2.trans hpp.2.1⟩
  | Inconsistent c => exact ⟨hpp.1, hpp.2.1⟩
  | OutOfFuel => exact ⟨hpp.1, hpp.2.1⟩

theorem propagate_all_go_props (fuel te : Nat) :
    ∀ (p : List ActivationEvent) (s : IncSTN),
      Rewind s (propagate_all_go fuel te p s).2 ∧
      (propagate_all_go fuel te p s).2.level = s.level
  | [], s => ⟨Rewind.stn_refl s, rfl⟩
  | ev :: rest, s => by
    have h0 : Rewind s { s with pending_activations := rest } :=
      Rewind.zero rfl (sim4_refl _)
    cases ev with
    | BacktrackPoint l =>
      have ih := propagate_all_go_props fuel te rest
        { s with pending_activations := rest }
      exact ⟨Rewind.stn_trans h0 ih.1, ih.2⟩
    | ToActivate edge =>
      simp only [propagate_all_go]
      split
      · split
        · exact ⟨h0, rfl⟩
        · have ih := propagate_all_go_props fuel te rest
            { s with pending_activations := rest }
          exact ⟨Rewind.stn_trans h0 ih.1, ih.2⟩
      · split
        · -- activation
          rename_i hne hact
          have hre : Rewind { s with pending_activations := rest } _ :=
            rewind_activate { s with pending_activations := rest } edge
              hact hne
          exact ⟨Rewind.stn_trans h0 (Rewind.stn_trans hre
              (match_propagate_step fuel te rest _ edge
                (fun x => propagate_all_go_props fuel te rest x)).1),
            (match_propagate_step fuel te rest _ edge
              (fun x => propagate_all_go_props fuel te rest x)).2⟩
        · have ih := propagate_all_go_props fuel te rest
            { s with pending_activations := rest }
          exact ⟨Rewind.stn_trans h0 ih.1, ih.2⟩

end IncSTN

namespace ConstraintDB

theorem find_existing_none_lookup (db : ConstraintDB) (e : Edge)
    (h : db.find_existing e = none) :
    db.lookup.get (ConstraintPair.new_inactives e).base.edge = none := by
  by_cases hc : e.is_canonical = true
  · have hbase : (ConstraintPair.new_inactives e).base.edge = e := by
      rw [ConstraintPair.new_inactives, if_pos hc]
    rw [find_existing, if_pos hc] at h
    rw [hbase]
    exact Option.map_eq_none.mp h
  · have hc' : e.is_canonical = false := by
      cases hcc : e.is_canonical
      · rfl
      · exact absurd hcc hc
    have hbase : (ConstraintPair.new_inactives e).base.edge = e.negated := by
      rw [ConstraintPair.new_inactives, if_neg (by simp [hc'])]
    rw [find_existing, if_neg (by simp [hc'])] at h
    rw [hbase]
    exact Option.map_eq_none.mp h

theorem pop_last_push_new (db : ConstraintDB) (s t : Nat) (w : Int)
    (hid : Bool)
    (h : db.find_existing { source := s, target := t, weight := w } = none) :
    ((db.push_edge s t w hid).2.2).pop_last = db := by
  have hlk := find_existing_none_lookup db
    { source := s, target := t, weight := w } h
  have hrm : ((if hid = true then db.lookup
      else db.lookup.insert
        (ConstraintPair.new_inactives
          { source := s, target := t, weight := w }).base.edge
        db.constraints.length) : AList Edge Nat).remove
      (ConstraintPair.new_inactives
        { source := s, target := t, weight := w }).base.edge = db.lookup := by
    cases hid
    · show (db.lookup.insert _ _).remove _ = db.lookup
      exact AList.remove_insert_of_absent _ _ _ hlk
    · show db.lookup.remove _ = db.lookup
      exact AList.remove_absent _ _ hlk
  simp only [push_edge, h]
  rw [pop_last]
  simp only [List.getLast?_concat, List.dropLast_concat, hrm]

end ConstraintDB

namespace IncSTN

theorem mark_active_props (s : IncSTN) (e : EdgeID) :
    Rewind s (s.mark_active e) ∧ (s.mark_active e).level = s.level ∧
      (s.mark_active e).pending_activations =
        s.pending_activations ++ [ActivationEvent.ToActivate e] := by
  refine ⟨?_, rfl, rfl⟩
  apply Rewind.single STNEvent.NewPendingActivation
    (fun n h => STNEvent.noConfusion h) rfl
  exact ⟨rfl, rfl, rfl, rfl⟩

theorem add_inactive_edge_props (s : IncSTN) (a b : Nat) (w : Int)
    (id : EdgeID) (s' : IncSTN)
    (h : s.add_inactive_edge a b w = some (id, s')) :
    Rewind s s' ∧ s'.level = s.level ∧
      s'.pending_activations = s.pending_activations := by
  by_cases hb : a < s.num_nodes ∧ b < s.num_nodes
  · cases hfe : s.constraints.find_existing
        { source := a, target := b, weight := w } with
    | some id0 =>
      have hpush := ConstraintDB.push_edge_found s.constraints a b w false
        id0 hfe
      simp only [add_inactive_edge, add_inactive_constraint] at h
      rw [if_pos hb, hpush] at h
      replace h : some (id0, s) = some (id, s') := h
      injection h with h1
      injection h1 with hid hs
      rw [← hs]
      exact ⟨Rewind.stn_refl s, rfl, rfl⟩
    | none =>
      have hpush := ConstraintDB.push_edge_created s.constraints a b w hfe
      simp only [add_inactive_edge, add_inactive_constraint] at h
      rw [if_pos hb, hpush] at h
      replace h : some (({ base_id := s.constraints.constraints.length,
                           negated := (Edge.mk a b w).is_negated } : EdgeID),
        ({ s with constraints :=
                    { constraints := s.constraints.constraints ++
                        [ConstraintPair.new_inactives
                          { source := a, target := b, weight := w }],
                      lookup := s.constraints.lookup.insert
                        (ConstraintPair.new_inactives
                          { source := a, target := b, weight := w }).base.edge
                        s.constraints.constraints.length },
                  trail := STNEvent.EdgeAdded :: s.trail } : IncSTN)) =
          some (id, s') := h
      injection h with h1
      injection h1 with hid hs
      rw [← hs]
      refine ⟨?_, rfl, rfl⟩
      apply Rewind.single STNEvent.EdgeAdded
        (fun n hn => STNEvent.noConfusion hn) rfl
      refine ⟨?_, rfl, rfl, rfl⟩
      show ConstraintDB.pop_last _ = s.constraints
      have hpop := ConstraintDB.pop_last_push_new s.constraints a b w false hfe
      rw [hpush] at hpop
      exact hpop
  · simp only [add_inactive_edge, add_inactive_constraint] at h
    rw [if_neg hb] at h
    cases h

theorem add_edge_props (s : IncSTN) (a b : Nat) (w : Int)
    (id : EdgeID) (s' : IncSTN)
    (h : s.add_edge a b w = some (id, s')) :
    Rewind s s' ∧ s'.level = s.level ∧
      (∀ lvl, PendSh lvl s.pending_activations →
        PendSh lvl s'.pending_activations) := by
  rw [add_edge] at h
  cases hie : s.add_inactive_edge a b w with
  | none => rw [hie] at h; cases h
  | some r =>
    obtain ⟨id1, s₁⟩ := r
    rw [hie] at h
    simp only [Option.some.injEq, Prod.mk.injEq] at h
    obtain ⟨hid, hs⟩ := h
    have hp1 := add_inactive_edge_props s a b w id1 s₁ hie
    have hp2 := mark_active_props s₁ id1
    rw [← hs]
    refine ⟨Rewind.stn_trans hp1.1 hp2.1, hp2.2.1.trans hp1.2.1, ?_⟩
    intro lvl hlvl
    rw [hp2.2.2, hp1.2.2]
    exact PendSh_append_TA hlvl id1

theorem mark_active_full_props (s : IncSTN) (e : EdgeID) :
    Rewind s (s.mark_active e) ∧ (s.mark_active e).level = s.level ∧
      (∀ lvl, PendSh lvl s.pending_activations →
        PendSh lvl (s.mark_active e).pending_activations) := by
  have hp := mark_active_props s e
  refine ⟨hp.1, hp.2.1, ?_⟩
  intro lvl hlvl
  rw [hp.2.2]
  exact PendSh_append_TA hlvl e

theorem match_propagate_pend (fuel te lvl : Nat) (rest : List ActivationEvent)
    (A : IncSTN) (edge : EdgeID)
    (hA : A.pending_activations = rest) (hrest : PendSh lvl rest)
    (ih : ∀ x : IncSTN, x.pending_activations = rest →
      PendSh lvl ((propagate_all_go fuel te rest x).2.pending_activations)) :
    PendSh lvl ((match propagate fuel A edge with
      | (NetworkStatus.Consistent _, x) => propagate_all_go fuel te rest x
      | (status, x) => (status, x)).2.pending_activations) := by
  have hpp := propagate_props fuel A edge
  rcases hp : propagate fuel A edge with ⟨st, s₄⟩
  rw [hp] at hpp
  cases st with
  | Consistent a => exact ih s₄ (hpp.2.2.trans hA)
  | Inconsistent c =>
    show PendSh lvl s₄.pending_activations
    rw [hpp.2.2, hA]
    exact hrest
  | OutOfFuel =>
    show PendSh lvl s₄.pending_activations
    rw [hpp.2.2, hA]
    exact hrest

theorem propagate_all_go_pend (fuel te lvl : Nat) :
    ∀ (p : List ActivationEvent) (s : IncSTN),
      s.pending_activations = p → PendSh lvl p →
      PendSh lvl ((propagate_all_go fuel te p s).2.pending_activations)
  | [], s, hs, hp => by
    show PendSh lvl s.pending_activations
    rw [hs]
    exact hp
  | ev :: rest, s, hs, hp => by
    have hp' := PendSh_tail hp
    cases ev with
    | BacktrackPoint l =>
      exact propagate_all_go_pend fuel te lvl rest _ rfl hp'
    | ToActivate edge =>
      simp only [propagate_all_go]
      split
      · split
        · exact hp'
        · exact propagate_all_go_pend fuel te lvl rest _ rfl hp'
      · split
        · exact match_propagate_pend fuel te lvl rest _ edge rfl hp'
            (fun x hx => propagate_all_go_pend fuel te lvl rest x hx hp')
        · exact propagate_all_go_pend fuel te lvl rest _ rfl hp'

theorem propagate_all_props (fuel : Nat) (s : IncSTN) :
    Rewind s (s.propagate_all fuel).2 ∧
      (s.propagate_all fuel).2.level = s.level :=
  propagate_all_go_props fuel s.trail.length s.pending_activations s

theorem propagate_all_pend (fuel lvl : Nat) (s : IncSTN)
    (h : PendSh lvl s.pending_activations) :
    PendSh lvl ((s.propagate_all fuel).2.pending_activations) :=
  propagate_all_go_pend fuel s.trail.length lvl s.pending_activations s rfl h

end IncSTN

open IncSTN in
theorem applySTNOps_props (fuel lvl : Nat) :
    ∀ (ops : List STNOp) (s s' : IncSTN),
      applySTNOps fuel ops s = some s' →
      Rewind s s' ∧ s'.level = s.level ∧
        (PendSh lvl s.pending_activations →
          PendSh lvl s'.pending_activations)
  | [], s, s', h => by
    obtain rfl : s = s' := Option.some.inj h
    exact ⟨Rewind.stn_refl s, rfl, fun hp => hp⟩
  | STNOp.add_edge a b w :: rest, s, s', h => by
    simp only [applySTNOps] at h
    cases hae : s.add_edge a b w with
    | none => rw [hae] at h; cases h
    | some r =>
      obtain ⟨id1, s₁⟩ := r
      rw [hae] at h
      have hop := add_edge_props s a b w id1 s₁ hae
      have ih := applySTNOps_props fuel lvl rest s₁ s' h
      exact ⟨Rewind.stn_trans hop.1 ih.1, ih.2.1.trans hop.2.1,
        fun hp => ih.2.2 (hop.2.2 lvl hp)⟩
  | STNOp.add_inactive_edge a b w :: rest, s, s', h => by
    simp only [applySTNOps] at h
    cases hae : s.add_inactive_edge a b w with
    | none => rw [hae] at h; cases h
    | some r =>
      obtain ⟨id1, s₁⟩ := r
      rw [hae] at h
      have hop := add_inactive_edge_props s a b w id1 s₁ hae
      have ih := applySTNOps_props fuel lvl rest s₁ s' h
      refine ⟨Rewind.stn_trans hop.1 ih.1, ih.2.1.trans hop.2.1, ?_⟩
      intro hp
      apply ih.2.2
      rw [hop.2.2]
      exact hp
  | STNOp.mark_active e :: rest, s, s', h => by
    simp only [applySTNOps] at h
    have hop := mark_active_full_props s e
    have ih := applySTNOps_props fuel lvl rest _ s' h
    exact ⟨Rewind.stn_trans hop.1 ih.1, ih.2.1.trans hop.2.1,
      fun hp => ih.2.2 (hop.2.2 lvl hp)⟩
  | STNOp.propagate_all :: rest, s, s', h => by
    simp only [applySTNOps] at h
    rcases hpa : s.propagate_all fuel with ⟨st, s₁⟩
    rw [hpa] at h
    have hop := propagate_all_props fuel s
    have hpd := propagate_all_pend fuel lvl s
    rw [hpa] at hop hpd
    cases st with
    | OutOfFuel => cases h
    | Consistent a =>
      have ih := applySTNOps_props fuel lvl rest s₁ s' h
      exact ⟨Rewind.stn_trans hop.1 ih.1, ih.2.1.trans hop.2,
        fun hp => ih.2.2 (hpd hp)⟩
    | Inconsistent c =>
      have ih := applySTNOps_props fuel lvl rest s₁ s' h
      exact ⟨Rewind.stn_trans hop.1 ih.1, ih.2.1.trans hop.2,
        fun hp => ih.2.2 (hpd hp)⟩

open IncSTN in
/-- STN half of the backtracking round trip: setting a backtrack point,
running any successful sequence of mutations, and undoing to the last
backtrack point returns the level and restores the observable state. -/
theorem stn_round_trip (fuel : Nat) (ops : List STNOp)
    (stn₀ stn₁ stn₂ : IncSTN) (lvl : Nat)
    (hsb : stn₀.set_backtrack_point = some (lvl, stn₁))
    (hops : applySTNOps fuel ops stn₁ = some stn₂) :
    ∃ stn₃, stn₂.undo_to_last_backtrack_point = some (some lvl, stn₃) ∧
      stn₃.obs = stn₀.obs := by
  rw [IncSTN.set_backtrack_point] at hsb
  by_cases hpe : stn₀.pending_activations = []
  case neg => rw [if_neg hpe] at hsb; cases hsb
  rw [if_pos hpe] at hsb
  replace hsb : some (stn₀.level + 1,
      ({ stn₀ with level := stn₀.level + 1,
                   pending_activations := stn₀.pending_activations ++
                     [ActivationEvent.BacktrackPoint (stn₀.level + 1)],
                   trail := STNEvent.Level (stn₀.level + 1) :: stn₀.trail }
        : IncSTN)) = some (lvl, stn₁) := hsb
  injection hsb with h1
  injection h1 with hlvl hstn1
  have props := applySTNOps_props fuel lvl ops stn₁ stn₂ hops
  obtain ⟨⟨δ, htrail, hnl, hsim⟩, hlevel, hpend⟩ := props
  have hp1 : stn₁.pending_activations =
      [ActivationEvent.BacktrackPoint lvl] := by
    rw [← hstn1]
    show stn₀.pending_activations ++
      [ActivationEvent.BacktrackPoint (stn₀.level + 1)] = _
    rw [hpe, hlvl]
    rfl
  have hps : PendSh lvl stn₂.pending_activations := by
    apply hpend
    rw [hp1]
    exact Or.inl ⟨[], rfl, fun e he n => absurd he (List.not_mem_nil e)⟩
  have hl2 : stn₂.level = lvl := by
    rw [hlevel, ← hstn1, ← hlvl]
  have hdrain : drainPendingBack stn₂.level
      stn₂.pending_activations.reverse = some [] := by
    rw [hl2]
    exact drainPendingBack_of_PendSh lvl _ hps
  have ht1 : stn₁.trail = STNEvent.Level lvl :: stn₀.trail := by
    rw [← hstn1, ← hlvl]
  have ht2 : stn₂.trail = δ ++ STNEvent.Level lvl :: stn₀.trail := by
    rw [htrail, ht1]
  have hgo := undo_trail_go_append lvl stn₀.trail δ
    ({ stn₂ with pending_activations := List.reverse [] } : IncSTN) hnl
  have hundo : stn₂.undo_to_last_backtrack_point =
      some (some lvl,
        { undoAll δ ({ stn₂ with pending_activations := [] } : IncSTN) with
            trail := stn₀.trail, level := stn₂.level - 1 }) := by
    rw [IncSTN.undo_to_last_backtrack_point, hdrain]
    show some (undo_trail_go
      ({ stn₂ with pending_activations := List.reverse [] } : IncSTN).trail
      ({ stn₂ with pending_activations := List.reverse [] } : IncSTN)) = _
    rw [show ({ stn₂ with pending_activations := List.reverse [] }
        : IncSTN).trail = stn₂.trail from rfl]
    nth_rewrite 1 [ht2]
    rw [hgo]
    rfl
  refine ⟨_, hundo, ?_⟩
  have hpnil : (undoAll δ ({ stn₂ with pending_activations := [] }
      : IncSTN)).pending_activations = [] :=
    undoAll_pending_nil δ _ rfl
  obtain ⟨hc, hf, hb, hd⟩ := hsim
  simp only [IncSTN.obs, IncSTN.mk.injEq]
  refine ⟨?_, ?_, ?_, ?_, trivial, ?_, ?_⟩
  · exact hc.trans (by rw [← hstn1])
  · exact hf.trans (by rw [← hstn1])
  · exact hb.trans (by rw [← hstn1])
  · exact hd.trans (by rw [← hstn1])
  · exact hpnil.trans hpe.symm
  · show stn₂.level - 1 = stn₀.level
    rw [hl2, ← hlvl]
    omega

/-- C2: for both backtrackable components — the STN via
`set_backtrack_point`/`undo_to_last_backtrack_point` and the discrete
model via `save_state`/`restore_last` — saving, performing any
successful sequence of mutations, and restoring the last saved state
leaves the observable state (timepoint bounds, edge activation status,
constraint DB, variable domains, literal values; everything except the
untrailed propagation scratch flags) identical to the state just before
the save. -/
theorem C2_backtrack_round_trip
    (fuel : Nat) (ops : List STNOp) (stn₀ stn₁ stn₂ : IncSTN) (lvl : Nat)
    (hsb : stn₀.set_backtrack_point = some (lvl, stn₁))
    (hops : applySTNOps fuel ops stn₁ = some stn₂)
    (dfuel : Nat) (dops : List DMOp) (m₀ m₂ : DiscreteModel)
    (hdm : applyDMOps dfuel dops (DiscreteModel.save_state m₀).2 = some m₂) :
    (∃ stn₃, stn₂.undo_to_last_backtrack_point = some (some lvl, stn₃) ∧
      stn₃.obs = stn₀.obs) ∧
    DiscreteModel.restore_last m₂ = some m₀ :=
  ⟨stn_round_trip fuel ops stn₀ stn₁ stn₂ lvl hsb hops,
   dm_save_ops_restore dfuel dops m₀ m₂ hdm⟩

theorem C2_backtrack_round_trip_witness :
    ((∃ stn₃, C2stn2.undo_to_last_backtrack_point = some (some 1, stn₃) ∧
        stn₃.obs = C2stn0.obs) ∧
      DiscreteModel.restore_last C2m2 = some C4m0) :=
  C2_backtrack_round_trip 5 [STNOp.add_edge 0 0 5, STNOp.propagate_all]
    C2stn0 C2stn1 C2stn2 1 (by decide) (by decide)
    4 [DMOp.setLbOp 0 1] C4m0 C2m2 rfl

theorem descend_le {f : Nat → Int} {r : Nat → Nat} {a b : Nat} {w : Int}
    (h : descend f r a b w) : w + f a ≤ f b := by
  rcases h with h | ⟨h, _⟩
  · exact le_of_lt h
  · exact le_of_eq h

theorem descend_closed {f : Nat → Int} {r : Nat → Nat} {a : Nat} {w : Int}
    (h : descend f r a a w) : w < 0 := by
  rcases h with h | ⟨_, h⟩
  · omega
  · omega

theorem descend_trans {f : Nat → Int} {r : Nat → Nat} {a b c : Nat}
    {w W : Int} (h₂ : descend f r b c W) (h₁ : descend f r a b w) :
    descend f r a c (W + w) := by
  rcases h₁ with h₁ | ⟨h₁, hr₁⟩ <;> rcases h₂ with h₂ | ⟨h₂, hr₂⟩
  · exact Or.inl (by omega)
  · exact Or.inl (by omega)
  · exact Or.inl (by omega)
  · exact Or.inr ⟨by omega, Nat.lt_trans hr₁ hr₂⟩

theorem chainFrom_append {a m b : Nat} {l₁ l₂ : List Edge}
    (h₁ : chainFrom a m l₁) (h₂ : chainFrom m b l₂) :
    chainFrom a b (l₁ ++ l₂) := by
  induction l₁ generalizing a with
  | nil =>
    have : a = m := h₁
    rw [this]
    exact h₂
  | cons e es ih =>
    obtain ⟨hs, hc⟩ := h₁
    exact ⟨hs, ih hc⟩

theorem chainUp_reverse {cur top : Nat} {es : List Edge}
    (h : chainUp cur top es) : chainFrom cur top es.reverse := by
  induction es generalizing top with
  | nil =>
    have : cur = top := h
    exact this
  | cons e rest ih =>
    obtain ⟨ht, hc⟩ := h
    rw [List.reverse_cons]
    exact chainFrom_append (ih hc) ⟨rfl, ht⟩

theorem weightSum_append (l₁ l₂ : List Edge) :
    weightSum (l₁ ++ l₂) = weightSum l₁ + weightSum l₂ := by
  simp [weightSum]

theorem weightSum_reverse (l : List Edge) :
    weightSum l.reverse = weightSum l := by
  simp [weightSum, List.sum_reverse]

theorem chainUp_snoc {cur top : Nat} {l : List Edge} {e : Edge}
    (h : chainUp cur top l) (ht : e.target = cur) :
    chainUp e.source top (l ++ [e]) := by
  induction l generalizing top with
  | nil =>
    have hct : cur = top := h
    exact ⟨ht.trans hct, rfl⟩
  | cons f fs ih =>
    obtain ⟨hft, hc⟩ := h
    exact ⟨hft, ih hc⟩

theorem chainFrom_snoc {bot cur : Nat} {l : List Edge} {e : Edge}
    (h : chainFrom bot cur l) (hs : e.source = cur) :
    chainFrom bot e.target (l ++ [e]) :=
  chainFrom_append h (by rw [← hs]; exact ⟨rfl, rfl⟩)

theorem AllSuf1_nil (stn : IncSTN) (rankF : Nat → Nat) (cur : Nat) :
    AllSuf1 stn rankF cur [] := by
  intro j
  rw [List.drop_nil]
  trivial

theorem AllSuf1_append (stn : IncSTN) (rankF : Nat → Nat) (cur : Nat)
    (expl : List EdgeID) (h : AllSuf1 stn rankF cur expl) (e : EdgeID)
    (htgt : (edgeOf stn e).target = cur)
    (hstep : descend (fdistF stn) rankF (edgeOf stn e).source cur
      (edgeOf stn e).weight) :
    AllSuf1 stn rankF (edgeOf stn e).source (expl ++ [e]) := by
  intro j
  by_cases hj : j ≤ expl.length
  · rw [List.drop_append_of_le_length hj]
    cases hd : expl.drop j with
    | nil =>
      show SufOk1 stn rankF _ [e]
      have hw : weightSum ([e].map (edgeOf stn)) = (edgeOf stn e).weight := by
        simp [weightSum]
      refine ⟨⟨rfl, rfl⟩, ?_⟩
      rw [hw, htgt]
      exact hstep
    | cons d ds =>
      have hsuf := h j
      rw [hd] at hsuf
      obtain ⟨hch, hde⟩ := hsuf
      show SufOk1 stn rankF _ (d :: (ds ++ [e]))
      have hmap : ((d :: (ds ++ [e])).map (edgeOf stn)) =
          ((d :: ds).map (edgeOf stn)) ++ [edgeOf stn e] := by simp
      constructor
      · rw [hmap]
        exact chainUp_snoc hch htgt
      · rw [hmap, weightSum_append]
        have hw : weightSum [edgeOf stn e] = (edgeOf stn e).weight := by
          simp [weightSum]
        rw [hw]
        exact descend_trans hde (htgt ▸ hstep)
  · have hlen : (expl ++ [e]).length ≤ j := by
      simp only [List.length_append, List.length_singleton]
      omega
    rw [List.drop_eq_nil_of_le hlen]
    trivial

theorem AllSuf2_nil (stn : IncSTN) (rankB : Nat → Nat) (cur : Nat) :
    AllSuf2 stn rankB cur [] := by
  intro j
  rw [List.drop_nil]
  trivial

theorem AllSuf2_append (stn : IncSTN) (rankB : Nat → Nat) (cur : Nat)
    (expl : List EdgeID) (h : AllSuf2 stn rankB cur expl) (e : EdgeID)
    (hsrc : (edgeOf stn e).source = cur)
    (hstep : descend (bdistF stn) rankB (edgeOf stn e).target cur
      (edgeOf stn e).weight) :
    AllSuf2 stn rankB (edgeOf stn e).target (expl ++ [e]) := by
  intro j
  by_cases hj : j ≤ expl.length
  · rw [List.drop_append_of_le_length hj]
    cases hd : expl.drop j with
    | nil =>
      show SufOk2 stn rankB _ [e]
      have hw : weightSum ([e].map (edgeOf stn)) = (edgeOf stn e).weight := by
        simp [weightSum]
      refine ⟨⟨rfl, rfl⟩, ?_⟩
      rw [hw, hsrc]
      exact hstep
    | cons d ds =>
      have hsuf := h j
      rw [hd] at hsuf
      obtain ⟨hch, hde⟩ := hsuf
      show SufOk2 stn rankB _ (d :: (ds ++ [e]))
      have hmap : ((d :: (ds ++ [e])).map (edgeOf stn)) =
          ((d :: ds).map (edgeOf stn)) ++ [edgeOf stn e] := by simp
      constructor
      · rw [hmap]
        exact chainFrom_snoc hch hsrc
      · rw [hmap, weightSum_append]
        have hw : weightSum [edgeOf stn e] = (edgeOf stn e).weight := by
          simp [weightSum]
        rw [hw]
        exact descend_trans hde (hsrc ▸ hstep)
  · have hlen : (expl ++ [e]).length ≤ j := by
      simp only [List.length_append, List.length_singleton]
      omega
    rw [List.drop_eq_nil_of_le hlen]
    trivial

theorem negCycle_of_closed_suffix1 (stn : IncSTN) (rankF : Nat → Nat)
    (cur : Nat) (expl : List EdgeID) (h : AllSuf1 stn rankF cur expl)
    (j : Nat) (d : EdgeID) (ds : List EdgeID) (hd : expl.drop j = d :: ds)
    (htop : (edgeOf stn d).target = cur) :
    NegCycleOut stn (expl.drop j) := by
  have hs := h j
  rw [hd] at hs
  obtain ⟨hch, hde⟩ := hs
  rw [htop] at hch hde
  refine ⟨((d :: ds).map (edgeOf stn)).reverse, ?_, ?_, ?_⟩
  · rw [hd]
    exact List.reverse_perm _
  · exact ⟨by simp, cur, chainUp_reverse hch⟩
  · rw [weightSum_reverse]
    exact descend_closed hde

theorem negCycle_of_closed_suffix2 (stn : IncSTN) (rankB : Nat → Nat)
    (cur : Nat) (expl : List EdgeID) (h : AllSuf2 stn rankB cur expl)
    (j : Nat) (d : EdgeID) (ds : List EdgeID) (hd : expl.drop j = d :: ds)
    (hbot : (edgeOf stn d).source = cur) :
    NegCycleOut stn (expl.drop j) := by
  have hs := h j
  rw [hd] at hs
  obtain ⟨hch, hde⟩ := hs
  rw [hbot] at hch hde
  refine ⟨(d :: ds).map (edgeOf stn), ?_, ?_, ?_⟩
  · rw [hd]
  · exact ⟨by simp, cur, hch⟩
  · exact descend_closed hde

theorem pass1_spec (stn : IncSTN) (rankF : Nat → Nat) (culprit : Nat)
    (hf : FwdCauseInv stn rankF) (hso : SelfLoopOnlyOrigin stn) :
    ∀ (fuel : Nat) (cur : Nat) (visited : List Nat) (expl : List EdgeID),
      cur ≠ IncSTN.origin →
      AllSuf1 stn rankF cur expl →
      (∀ d, expl.head? = some d → (edgeOf stn d).target = culprit) →
      (expl = [] → cur = culprit) →
      ∀ out, IncSTN.extract_pass1 stn culprit fuel cur visited expl =
          some out →
        (out.2 = true → NegCycleOut stn out.1) ∧
        (out.2 = false →
          out.1 ≠ [] ∧
          chainUp IncSTN.origin culprit (out.1.map (edgeOf stn)) ∧
          weightSum (out.1.map (edgeOf stn)) + fdistF stn IncSTN.origin ≤
            fdistF stn culprit)
  | 0, cur, visited, expl, _, _, _, _, out, hout => by cases hout
  | fuel + 1, cur, visited, expl, hnor, hAS, hhead, hemp, out, hout => by
    cases hcause : (stn.getDist cur).forward_cause with
    | none =>
      simp only [IncSTN.extract_pass1, hcause] at hout
      exact Option.noConfusion hout
    | some id =>
      have hlt : cur < stn.distances.length := by
        by_contra hn
        have hdd : stn.getDist cur = Distance.default0 := by
          rw [IncSTN.getDist, List.getD_eq_getElem?_getD,
            List.getElem?_eq_none (Nat.le_of_not_lt hn)]
          rfl
        rw [hdd] at hcause
        cases hcause
      obtain ⟨htgt, hdesc⟩ := hf cur hlt hnor id hcause
      have hAS' := AllSuf1_append stn rankF cur expl hAS id htgt hdesc
      have hne' : expl ++ [id] ≠ [] := by simp
      obtain ⟨d0, rest, hexp⟩ := List.exists_cons_of_ne_nil hne'
      have hhead' : ∀ d, (expl ++ [id]).head? = some d →
          (edgeOf stn d).target = culprit := by
        intro d hd
        cases hexpl : expl with
        | nil =>
          rw [hexpl] at hd
          simp only [List.nil_append, List.head?_cons,
            Option.some.injEq] at hd
          rw [← hd, htgt]
          exact hemp hexpl
        | cons e0 erest =>
          rw [hexpl] at hd
          simp only [List.cons_append, List.head?_cons,
            Option.some.injEq] at hd
          apply hhead
          rw [hexpl, ← hd]
          rfl
      have htop0 : (edgeOf stn d0).target = culprit := by
        apply hhead'
        rw [hexp]
        rfl
      have hs0 : SufOk1 stn rankF ((stn.constraints.getC id).edge.source)
          (d0 :: rest) := by
        have := hAS' 0
        rw [List.drop_zero, hexp] at this
        exact this
      simp only [IncSTN.extract_pass1, hcause] at hout
      by_cases hsl : (stn.constraints.getC id).edge.source = cur
      · exact absurd (hso cur hlt id hcause hsl) hnor
      · rw [if_neg hsl] at hout
        by_cases hcul : (stn.constraints.getC id).edge.source = culprit
        · rw [if_pos hcul] at hout
          obtain rfl : (expl ++ [id], true) = out := Option.some.inj hout
          constructor
          · intro _
            have hclosed := negCycle_of_closed_suffix1 stn rankF
              ((stn.constraints.getC id).edge.source) (expl ++ [id]) hAS'
              0 d0 rest (by rw [List.drop_zero, hexp])
              (by rw [htop0, hcul])
            rw [List.drop_zero] at hclosed
            exact hclosed
          · intro hc
            exact Bool.noConfusion hc
        · rw [if_neg hcul] at hout
          by_cases hor : (stn.constraints.getC id).edge.source =
              IncSTN.origin
          · rw [if_pos hor] at hout
            obtain rfl : (expl ++ [id], false) = out := Option.some.inj hout
            constructor
            · intro hc
              exact Bool.noConfusion hc
            · intro _
              obtain ⟨hch, hde⟩ := hs0
              rw [htop0, hor] at hch hde
              refine ⟨hne', ?_, ?_⟩
              · show chainUp IncSTN.origin culprit ((expl ++ [id]).map _)
                rw [hexp]
                exact hch
              · show weightSum ((expl ++ [id]).map _) + _ ≤ _
                rw [hexp]
                exact descend_le hde
          · rw [if_neg hor] at hout
            by_cases hvis : (stn.constraints.getC id).edge.source ∈
                cur :: visited
            · rw [if_pos hvis] at hout
              cases hfind : (expl ++ [id]).findIdx?
                  (fun x => decide ((stn.constraints.getC id).edge.source =
                    (stn.constraints.getC x).edge.target)) with
              | none =>
                rw [hfind] at hout
                exact Option.noConfusion hout
              | some jj =>
                rw [hfind] at hout
                obtain rfl : ((expl ++ [id]).drop jj, true) = out :=
                  Option.some.inj hout
                constructor
                · intro _
                  obtain ⟨hjj, hp, _⟩ :=
                    List.findIdx?_eq_some_iff_getElem.mp hfind
                  exact negCycle_of_closed_suffix1 stn rankF
                    ((stn.constraints.getC id).edge.source) (expl ++ [id])
                    hAS' jj _ _ (List.drop_eq_getElem_cons hjj)
                    (of_decide_eq_true hp).symm
                · intro hc
                  exact Bool.noConfusion hc
            · rw [if_neg hvis] at hout
              exact pass1_spec stn rankF culprit hf hso fuel
                ((stn.constraints.getC id).edge.source)
                (cur :: visited) (expl ++ [id]) hor hAS' hhead'
                (fun h => absurd h hne') out hout

/-- On a descending cause set, pass 1 of the cycle extraction can never
leave the set: the self-loop break would contradict the set's
non-self-loop causes, the origin break would force the origin into the
set at a node already past the culprit check, so any successful return
is `done = true` with a closed suffix, which the descent along the set
makes strictly negative. -/
theorem pass1_closed_spec (stn : IncSTN) (rankF : Nat → Nat)
    (culprit : Nat) (U : List Nat)
    (hUor : IncSTN.origin ∈ U → culprit = IncSTN.origin)
    (hcl : ∀ u ∈ U, ∃ e, (stn.getDist u).forward_cause = some e ∧
      (edgeOf stn e).target = u ∧ (edgeOf stn e).source ≠ u ∧
      (edgeOf stn e).source ∈ U ∧
      descend (fdistF stn) rankF (edgeOf stn e).source u
        (edgeOf stn e).weight) :
    ∀ (fuel : Nat) (cur : Nat) (visited : List Nat) (expl : List EdgeID),
      cur ∈ U →
      AllSuf1 stn rankF cur expl →
      (∀ d, expl.head? = some d → (edgeOf stn d).target = culprit) →
      (expl = [] → cur = culprit) →
      ∀ out, IncSTN.extract_pass1 stn culprit fuel cur visited expl =
          some out →
        out.2 = true ∧ NegCycleOut stn out.1
  | 0, cur, visited, expl, _, _, _, _, out, hout => by cases hout
  | fuel + 1, cur, visited, expl, hcU, hAS, hhead, hemp, out, hout => by
    obtain ⟨id, hcause, htgt, hslne, hsrcU, hdesc⟩ := hcl cur hcU
    have hAS' := AllSuf1_append stn rankF cur expl hAS id htgt hdesc
    have hne' : expl ++ [id] ≠ [] := by simp
    obtain ⟨d0, rest, hexp⟩ := List.exists_cons_of_ne_nil hne'
    have hhead' : ∀ d, (expl ++ [id]).head? = some d →
        (edgeOf stn d).target = culprit := by
      intro d hd
      cases hexpl : expl with
      | nil =>
        rw [hexpl] at hd
        simp only [List.nil_append, List.head?_cons,
          Option.some.injEq] at hd
        rw [← hd, htgt]
        exact hemp hexpl
      | cons e0 erest =>
        rw [hexpl] at hd
        simp only [List.cons_append, List.head?_cons,
          Option.some.injEq] at hd
        apply hhead
        rw [hexpl, ← hd]
        rfl
    have htop0 : (edgeOf stn d0).target = culprit := by
      apply hhead'
      rw [hexp]
      rfl
    simp only [IncSTN.extract_pass1, hcause] at hout
    by_cases hsl : (stn.constraints.getC id).edge.source = cur
    · exact absurd hsl hslne
    · rw [if_neg hsl] at hout
      by_cases hcul : (stn.constraints.getC id).edge.source = culprit
      · rw [if_pos hcul] at hout
        obtain rfl : (expl ++ [id], true) = out := Option.some.inj hout
        refine ⟨rfl, ?_⟩
        have hclosed := negCycle_of_closed_suffix1 stn rankF
          ((stn.constraints.getC id).edge.source) (expl ++ [id]) hAS'
          0 d0 rest (by rw [List.drop_zero, hexp])
          (by rw [htop0, hcul])
        rw [List.drop_zero] at hclosed
        exact hclosed
      · rw [if_neg hcul] at hout
        by_cases hor : (stn.constraints.getC id).edge.source =
            IncSTN.origin
        · have hsrcU' : (stn.constraints.getC id).edge.source ∈ U := hsrcU
          rw [hor] at hsrcU'
          exact absurd (hor.trans (hUor hsrcU').symm) hcul
        · rw [if_neg hor] at hout
          by_cases hvis : (stn.constraints.getC id).edge.source ∈
              cur :: visited
          · rw [if_pos hvis] at hout
            cases hfind : (expl ++ [id]).findIdx?
                (fun x => decide ((stn.constraints.getC id).edge.source =
                  (stn.constraints.getC x).edge.target)) with
            | none =>
              rw [hfind] at hout
              exact Option.noConfusion hout
            | some jj =>
              rw [hfind] at hout
              obtain rfl : ((expl ++ [id]).drop jj, true) = out :=
                Option.some.inj hout
              refine ⟨rfl, ?_⟩
              obtain ⟨hjj, hp, _⟩ :=
                List.findIdx?_eq_some_iff_getElem.mp hfind
              exact negCycle_of_closed_suffix1 stn rankF
                ((stn.constraints.getC id).edge.source) (expl ++ [id])
                hAS' jj _ _ (List.drop_eq_getElem_cons hjj)
                (of_decide_eq_true hp).symm
          · rw [if_neg hvis] at hout
            exact pass1_closed_spec stn rankF culprit U hUor hcl fuel
              ((stn.constraints.getC id).edge.source)
              (cur :: visited) (expl ++ [id]) hsrcU hAS' hhead'
              (fun h => absurd h hne') out hout

theorem pass2_spec (stn : IncSTN) (rankB : Nat → Nat) (culprit : Nat)
    (hb : BwdCauseInv stn rankB) :
    ∀ (fuel : Nat) (cur : Nat) (visited : List Nat)
      (base own : List EdgeID),
      cur ≠ IncSTN.origin →
      AllSuf2 stn rankB cur own →
      (∀ d, own.head? = some d → (edgeOf stn d).source = culprit) →
      (own = [] → cur = culprit) →
      ∀ out, IncSTN.extract_pass2 stn culprit base.length fuel cur visited
          (base ++ own) = some out →
        NegCycleOut stn out ∨
        (∃ own', out = base ++ own' ∧ own' ≠ [] ∧
          chainFrom culprit IncSTN.origin (own'.map (edgeOf stn)) ∧
          weightSum (own'.map (edgeOf stn)) + bdistF stn IncSTN.origin ≤
            bdistF stn culprit)
  | 0, cur, visited, base, own, _, _, _, _, out, hout => by cases hout
  | fuel + 1, cur, visited, base, own, hnor, hAS, hhead, hemp, out,
      hout => by
    cases hcause : (stn.getDist cur).backward_cause with
    | none =>
      simp only [IncSTN.extract_pass2, hcause] at hout
      exact Option.noConfusion hout
    | some id =>
      have hlt : cur < stn.distances.length := by
        by_contra hn
        have hdd : stn.getDist cur = Distance.default0 := by
          rw [IncSTN.getDist, List.getD_eq_getElem?_getD,
            List.getElem?_eq_none (Nat.le_of_not_lt hn)]
          rfl
        rw [hdd] at hcause
        cases hcause
      obtain ⟨hsrc, hdesc⟩ := hb cur hlt hnor id hcause
      have hAS' := AllSuf2_append stn rankB cur own hAS id hsrc hdesc
      have hne' : own ++ [id] ≠ [] := by simp
      obtain ⟨d0, rest, hexp⟩ := List.exists_cons_of_ne_nil hne'
      have happ : base ++ own ++ [id] = base ++ (own ++ [id]) := by
        rw [List.append_assoc]
      have hhead' : ∀ d, (own ++ [id]).head? = some d →
          (edgeOf stn d).source = culprit := by
        intro d hd
        cases hexpl : own with
        | nil =>
          rw [hexpl] at hd
          simp only [List.nil_append, List.head?_cons,
            Option.some.injEq] at hd
          rw [← hd, hsrc]
          exact hemp hexpl
        | cons e0 erest =>
          rw [hexpl] at hd
          simp only [List.cons_append, List.head?_cons,
            Option.some.injEq] at hd
          apply hhead
          rw [hexpl, ← hd]
          rfl
      have hbot0 : (edgeOf stn d0).source = culprit := by
        apply hhead'
        rw [hexp]
        rfl
      have hs0 : SufOk2 stn rankB ((stn.constraints.getC id).edge.target)
          (d0 :: rest) := by
        have := hAS' 0
        rw [List.drop_zero, hexp] at this
        exact this
      simp only [IncSTN.extract_pass2, hcause] at hout
      by_cases hor : (stn.constraints.getC id).edge.target = IncSTN.origin
      · rw [if_pos hor] at hout
        obtain rfl : base ++ own ++ [id] = out := Option.some.inj hout
        right
        refine ⟨own ++ [id], happ, hne', ?_, ?_⟩
        · obtain ⟨hch, _⟩ := hs0
          rw [hbot0, hor] at hch
          rw [hexp]
          exact hch
        · obtain ⟨_, hde⟩ := hs0
          rw [hbot0, hor] at hde
          rw [hexp]
          exact descend_le hde
      · rw [if_neg hor] at hout
        by_cases hcul : (stn.constraints.getC id).edge.target = culprit
        · rw [if_pos hcul] at hout
          have hdl : (base ++ own ++ [id]).drop base.length = own ++ [id] := by
            rw [happ]
            exact List.drop_left base (own ++ [id])
          rw [hdl] at hout
          obtain rfl : own ++ [id] = out := Option.some.inj hout
          left
          have hclosed := negCycle_of_closed_suffix2 stn rankB
            ((stn.constraints.getC id).edge.target) (own ++ [id]) hAS'
            0 d0 rest (by rw [List.drop_zero, hexp])
            (by rw [hbot0, hcul])
          rw [List.drop_zero] at hclosed
          exact hclosed
        · rw [if_neg hcul] at hout
          by_cases hvis : (stn.constraints.getC id).edge.target ∈
              cur :: visited
          · rw [if_pos hvis] at hout
            have hdl : (base ++ own ++ [id]).drop base.length =
                own ++ [id] := by
              rw [happ]
              exact List.drop_left base (own ++ [id])
            rw [hdl] at hout
            cases hfind : (own ++ [id]).findIdx?
                (fun x => decide ((stn.constraints.getC id).edge.target =
                  (stn.constraints.getC x).edge.source)) with
            | none =>
              rw [hfind] at hout
              exact Option.noConfusion hout
            | some pos =>
              rw [hfind] at hout
              replace hout : some ((base ++ own ++ [id]).drop
                  (base.length + pos)) = some out := hout
              have hdl2 : (base ++ own ++ [id]).drop (base.length + pos) =
                  (own ++ [id]).drop pos := by
                rw [happ]
                exact List.drop_append pos
              rw [hdl2] at hout
              obtain rfl : (own ++ [id]).drop pos = out :=
                Option.some.inj hout
              left
              obtain ⟨hjj, hp, _⟩ :=
                List.findIdx?_eq_some_iff_getElem.mp hfind
              exact negCycle_of_closed_suffix2 stn rankB
                ((stn.constraints.getC id).edge.target) (own ++ [id])
                hAS' pos _ _ (List.drop_eq_getElem_cons hjj)
                (of_decide_eq_true hp).symm
          · rw [if_neg hvis] at hout
            rw [happ] at hout
            exact pass2_spec stn rankB culprit hb fuel
              ((stn.constraints.getC id).edge.target)
              (cur :: visited) base (own ++ [id]) hor hAS' hhead'
              (fun h => absurd h hne') out hout

/-- C1: whenever STN propagation reports an inconsistency with a cycle
extracted by `extract_cycle`, the reported set of edges forms a cycle
whose total weight is strictly negative and in which consecutive edges
share endpoints head-to-tail.  The documented propagation invariants
are taken as hypotheses: each recorded cause link is a relaxation step
that decreases (distance estimate, update rank) lexicographically into
its node (the origin's hidden self-loop causes are exempt), and
forward-cause self-loops occur only at the origin.  The remaining
hypothesis is a disjunction covering `propagate`'s detection sites.
At a sum-negative site with a non-origin culprit the left disjunct
holds: the check that just fired gives the culprit's condition, and the
origin's estimates are still at their initial zeros (their sum only
decreases during propagation, and the very first update of either
origin estimate makes it negative and fires the sum-negative check at
the origin before anything else can fire).  At a double-update
(Cesta96) site, and at a sum-negative site whose culprit is the origin,
the right disjunct holds: the nodes updated while propagating the
single new edge (resp. the nodes on the cause chains from the origin)
form a `DescentClosed` set, because from a quiescent pre-insertion
state every relaxation fires either through the new edge or from an
already-updated node.  The conclusion is stated up to permutation: the
two extraction passes emit the culprit-to-origin and origin-to-culprit
halves in the order pass1-half ++ pass2-half, which is the same edge
set as the head-to-tail closed walk pass2-half ++ reverse (pass1-half),
and in the `DescentClosed` case pass 1 closes the cycle on its own. -/
theorem C1_negative_cycle_extraction (stn : IncSTN)
    (rankF rankB : Nat → Nat) (culprit : Nat)
    (hf : FwdCauseInv stn rankF) (hb : BwdCauseInv stn rankB)
    (hso : SelfLoopOnlyOrigin stn)
    (hsite : (0 ≤ fdistF stn IncSTN.origin + bdistF stn IncSTN.origin ∧
        fdistF stn culprit + bdistF stn culprit < 0) ∨
      DescentClosed stn rankF culprit)
    (cyc : List EdgeID) (hex : stn.extract_cycle culprit = some cyc) :
    ∃ es, es.Perm (cyc.map (edgeOf stn)) ∧ closedWalk es ∧
      weightSum es < 0 := by
  simp only [IncSTN.extract_cycle] at hex
  cases hp1 : IncSTN.extract_pass1 stn culprit (stn.num_nodes + 1)
      culprit [] [] with
  | none =>
    rw [hp1] at hex
    exact Option.noConfusion hex
  | some r =>
    obtain ⟨expl, dn⟩ := r
    rw [hp1] at hex
    rcases hsite with ⟨horig, hdet⟩ | hDC
    · have hnor : culprit ≠ IncSTN.origin := by
        intro h
        rw [h] at hdet
        omega
      have hspec := pass1_spec stn rankF culprit hf hso (stn.num_nodes + 1)
        culprit [] [] hnor (AllSuf1_nil stn rankF culprit)
        (fun d hd => Option.noConfusion hd) (fun _ => rfl) (expl, dn) hp1
      cases dn with
      | true =>
        replace hex : some expl = some cyc := hex
        obtain rfl : expl = cyc := Option.some.inj hex
        exact hspec.1 rfl
      | false =>
        obtain ⟨hne1, hch1, hw1⟩ := hspec.2 rfl
        replace hch1 : chainUp IncSTN.origin culprit
            (expl.map (edgeOf stn)) := hch1
        replace hw1 : weightSum (expl.map (edgeOf stn)) +
            fdistF stn IncSTN.origin ≤ fdistF stn culprit := hw1
        replace hex : IncSTN.extract_pass2 stn culprit expl.length
            (stn.num_nodes + 1) culprit [] expl = some cyc := hex
        have hex2 : IncSTN.extract_pass2 stn culprit expl.length
            (stn.num_nodes + 1) culprit [] (expl ++ []) = some cyc := by
          rw [List.append_nil]
          exact hex
        have hspec2 := pass2_spec stn rankB culprit hb (stn.num_nodes + 1)
          culprit [] expl [] hnor (AllSuf2_nil stn rankB culprit)
          (fun d hd => Option.noConfusion hd) (fun _ => rfl) cyc hex2
        rcases hspec2 with hneg | ⟨own', hcyc, hne2, hch2, hw2⟩
        · exact hneg
        · subst hcyc
          refine ⟨own'.map (edgeOf stn) ++ (expl.map (edgeOf stn)).reverse,
            ?_, ?_, ?_⟩
          · rw [List.map_append]
            exact List.Perm.trans
              (List.Perm.append_left (own'.map (edgeOf stn))
                (List.reverse_perm (expl.map (edgeOf stn))))
              List.perm_append_comm
          · refine ⟨?_, culprit,
              chainFrom_append hch2 (chainUp_reverse hch1)⟩
            intro hnil
            rcases List.append_eq_nil.mp hnil with ⟨hn2, _⟩
            exact hne2 (List.map_eq_nil_iff.mp hn2)
          · rw [weightSum_append, weightSum_reverse]
            omega
    · obtain ⟨U, hcU, hUor, hcl⟩ := hDC
      obtain ⟨hdn, hneg⟩ := pass1_closed_spec stn rankF culprit U hUor hcl
        (stn.num_nodes + 1) culprit [] [] hcU (AllSuf1_nil stn rankF culprit)
        (fun d hd => Option.noConfusion hd) (fun _ => rfl) (expl, dn) hp1
      cases dn with
      | true =>
        replace hex : some expl = some cyc := hex
        obtain rfl : expl = cyc := Option.some.inj hex
        exact hneg
      | false => exact Bool.noConfusion hdn

theorem C1_negative_cycle_extraction_witness :
    ∃ es, es.Perm ([({ base_id := 6, negated := true } : EdgeID),
        { base_id := 6, negated := false }].map (edgeOf C1stn)) ∧
      closedWalk es ∧ weightSum es < 0 :=
  C1_negative_cycle_extraction C1stn (fun n => 3 - n) (fun n => n) 1
    (by
      intro n h1 h2 e he
      have h1n : n < 3 := h1
      interval_cases n
      · exact absurd rfl h2
      · replace he : some ({ base_id := 6, negated := true } : EdgeID) =
            some e := he
        obtain rfl := Option.some.inj he
        exact ⟨by decide, Or.inr (by decide)⟩
      · replace he : some ({ base_id := 6, negated := false } : EdgeID) =
            some e := he
        obtain rfl := Option.some.inj he
        exact ⟨by decide, Or.inl (by decide)⟩)
    (by
      intro n h1 h2 e he
      have h1n : n < 3 := h1
      interval_cases n
      · exact absurd rfl h2
      · replace he : some ({ base_id := 3, negated := true } : EdgeID) =
            some e := he
        obtain rfl := Option.some.inj he
        exact ⟨by decide, Or.inr (by decide)⟩
      · replace he : some ({ base_id := 6, negated := true } : EdgeID) =
            some e := he
        obtain rfl := Option.some.inj he
        exact ⟨by decide, Or.inr (by decide)⟩)
    (by
      intro n h1 e he hs
      have h1n : n < 3 := h1
      interval_cases n
      · rfl
      · replace he : some ({ base_id := 6, negated := true } : EdgeID) =
            some e := he
        obtain rfl := Option.some.inj he
        exact absurd hs (by decide)
      · replace he : some ({ base_id := 6, negated := false } : EdgeID) =
            some e := he
        obtain rfl := Option.some.inj he
        exact absurd hs (by decide))
    (Or.inr ⟨[1, 2], by decide, by decide, by
      intro u hu
      have hu2 : u = 1 ∨ u = 2 := by simpa using hu
      rcases hu2 with rfl | rfl
      · exact ⟨{ base_id := 6, negated := true }, rfl, by decide, by decide,
          by decide, Or.inr (by decide)⟩
      · exact ⟨{ base_id := 6, negated := false }, rfl, by decide, by decide,
          by decide, Or.inl (by decide)⟩⟩)
    [{ base_id := 6, negated := true }, { base_id := 6, negated := false }]
    (by decide)

end Aries

